import Mathlib

/-!
Verification development for the orbtree library (generalized order-statistic
red-black trees).  The definitions below are a shallow embedding of the C++
sources:

* `orbtree_node.h`   -- `NodeAllocatorCompact` (compact arena allocator with
  an intrusive doubly linked free list, parent word packing the red bit);
* `orbtree_base.h`   -- the augmented red-black tree (`orbtree_base`):
  searching, insertion, deletion, rotations, subtree-sum maintenance and the
  partial-sum queries;
* `orbtree.h`        -- the public wrappers (`get_sum_node`, `get_sum`);
* `vector_realloc.h` -- the realloc-backed growable vector (growth policy).

Conventions of the embedding:

* `IndexType` is the default `uint32_t`; node handles are `Nat` values and
  the constants `redbit`, `max_nodes`, `Invalid`, and the deleted indicator
  follow the source.  The packed parent word of a compact node is kept as
  two fields: `pidx` (the value `parent & ~redbit`) and `pred` (the red
  bit); the deleted indicator `max_nodes | redbit` is the combination
  `pidx = Invalid && pred = true`, and the accessors below translate the
  source's bit operations accordingly.
* Machine integers hold: all sizes in the tree code are far below 2^32 /
  2^64 (guarded by the `max_nodes` check), so `Nat` models `size_t` and
  `IndexType` exactly on the reachable range; `NVType` (weights) is
  modelled as `Int` together with the bounds `wmin`/`wmax` of the concrete
  integral type, and the overflow checks of `NVAdd` / `NVSubtract` are
  translated literally.
* Fallible code returns `Except Err`; every `throw std::runtime_error` site
  is an `Err` value.  Out-of-bounds vector accesses (undefined behaviour in
  the source) are modelled by `Err.oob` at the single site where the source
  can perform one (`shrink_to_fit`), and by total `getD`/`set` elsewhere,
  where the tree code only touches valid slots.
* Every `while` loop of the source becomes fuel-based recursion; the fuel
  `Err.fuel` outcome corresponds to a non-terminating traversal of a
  corrupted structure and never occurs on well-formed states.
-/

namespace Orbtree

/-- Error kinds of the C++ sources: `Arithmetic` (overflow in `NVAdd` /
`NVSubtract`), the capacity error of `new_node`, the internal consistency
`std::runtime_error` throws, an out-of-bounds vector access (undefined
behaviour in C++), and fuel exhaustion of a loop (non-termination). -/
inductive Err where
  | arith
  | capacity
  | inconsistent
  | oob
  | ub
  | fuel
deriving Repr, DecidableEq

/-- High bit of the 32-bit index type: `redbit = 1U << (digits - 1)`. -/
def redbit : Nat := 2 ^ 31

/-- Maximum number of node slots: `max_nodes = redbit - 1`. -/
def max_nodes : Nat := redbit - 1

/-- Invalid node handle: `Invalid = max_nodes`. -/
def Invalid : Nat := max_nodes

/-- Handle of the root sentinel.  In `NodeAllocatorCompact` the `root`
member is assigned by the first `new_node()` call of the constructor and is
always the index 0 (and `clear_tree` re-asserts `root = 0`). -/
def ROOT : Nat := 0

/-- Handle of the nil sentinel, always the index 1 (second `new_node()` of
the constructor; `clear_tree` re-asserts `nil = 1`). -/
def NIL : Nat := 1

/-- Node of `NodeAllocatorCompact`: key and (for maps) mapped value, the
parent word split into the parent index `pidx` and the red bit `pred`, and
the two child indices.  The deleted indicator (`parent == max_nodes|redbit`)
is the combination `pidx = Invalid ∧ pred = true`. -/
structure Node where
  key : Int
  val : Int
  pidx : Nat
  pred : Bool
  left : Nat
  right : Nat
deriving Repr, DecidableEq

namespace Node

/-- Default-constructed node `Node()`: default key/value, `parent = Invalid`
(red bit clear), `left = right = Invalid`. -/
def dflt : Node := ⟨0, 0, Invalid, false, Invalid, Invalid⟩

/-- Fresh node `Node(kv)` holding an entry, links `Invalid`. -/
def mkKV (k v : Int) : Node := ⟨k, v, Invalid, false, Invalid, Invalid⟩

/-- Source: `is_red() { return parent & redbit; }`. -/
def is_red (n : Node) : Bool := n.pred

/-- Source: `is_black() { return !is_red(); }`. -/
def is_black (n : Node) : Bool := !n.pred

/-- Source: `set_red() { parent |= redbit; }`. -/
def set_red (n : Node) : Node := { n with pred := true }

/-- Source: `set_black() { parent &= ~redbit; }`. -/
def set_black (n : Node) : Node := { n with pred := false }

/-- Source: `get_parent() { return parent & ~redbit; }`. -/
def get_parent (n : Node) : Nat := n.pidx

/-- Source: `set_parent(p) { parent = p | (parent & redbit); }`.  The guard
`p > max_nodes` of the source can never fire (every handle is at most
`Invalid = max_nodes`), so it is not modelled. -/
def set_parent (n : Node) (p : Nat) : Node := { n with pidx := p }

/-- Source: `set_left`. -/
def set_left (n : Node) (x : Nat) : Node := { n with left := x }

/-- Source: `set_right`. -/
def set_right (n : Node) (x : Nat) : Node := { n with right := x }

/-- Source: `set_deleted() { parent = deleted_indicator; }` where the
deleted indicator is `max_nodes | redbit`. -/
def set_deleted (n : Node) : Node := { n with pidx := Invalid, pred := true }

/-- Source: `is_deleted() { return parent == deleted_indicator; }`. -/
def is_deleted (n : Node) : Bool := n.pidx == Invalid && n.pred

end Node

/-- State of one compact tree: the node vector `nodes`, the flattened
subtree-sum vector `sums` (named `nvarray` in the source, of length
`size(nodes) * nv_per_node`), the deleted-node count, the free-list head and
the element count `size1` of `orbtree_base`. -/
structure TState where
  nodes : List Node
  nvarray : List Int
  n_del : Nat
  deleted_nodes_head : Nat
  size1 : Nat
deriving Repr, DecidableEq

/-- Read the node stored at a handle (`nodes[x]`); reads of slots outside
the vector (never performed by the tree code on well-formed states) give the
default node. -/
def getN (s : TState) (i : Nat) : Node := s.nodes.getD i Node.dflt

/-- Write the node stored at a handle (`nodes[x] = n`). -/
def setN (s : TState) (i : Nat) (n : Node) : TState :=
  { s with nodes := s.nodes.set i n }

/-- Parameters of one container type: the arity `D` (`nv_per_node`, the
number of components returned by the weight function), the weight function
`f` on entries (key and mapped value), whether `NVType` is an integral type
(overflow-checked), its bounds, and the uniqueness policy (`multi`). -/
structure Ctx where
  D : Nat
  f : Int → Int → List Int
  integral : Bool
  wmin : Int
  wmax : Int
  multi : Bool

/-- One component of `orbtree_base::NVAdd`: for integral `NVType`, overflow
and underflow are detected against the numeric limits before the addition
`x += y` is performed; non-integral types add without a check. -/
def NVAdd1 (c : Ctx) (x y : Int) : Except Err Int :=
  if c.integral then
    if y > 0 then
      if c.wmax - y < x then .error .arith else .ok (x + y)
    else
      if c.wmin - y > x then .error .arith else .ok (x + y)
  else .ok (x + y)

/-- One component of `orbtree_base::NVSubtract`: overflow/underflow checks
before `x -= y` for integral `NVType`. -/
def NVSubtract1 (c : Ctx) (x y : Int) : Except Err Int :=
  if c.integral then
    if y > 0 then
      if c.wmin + y > x then .error .arith else .ok (x - y)
    else
      if c.wmax + y < x then .error .arith else .ok (x - y)
  else .ok (x - y)

/-- Componentwise `NVAdd(x, y)` over the `get_nr()` components (the loop
`for(i = 0; i < nr; i++)` of the source; the two argument arrays always have
exactly `nr` components). -/
def NVAdd (c : Ctx) : List Int → List Int → Except Err (List Int)
  | x :: xs, y :: ys => do
    let z ← NVAdd1 c x y
    let zs ← NVAdd c xs ys
    .ok (z :: zs)
  | _, _ => .ok []

/-- Componentwise `NVSubtract(x, y)`. -/
def NVSubtract (c : Ctx) : List Int → List Int → Except Err (List Int)
  | x :: xs, y :: ys => do
    let z ← NVSubtract1 c x y
    let zs ← NVSubtract c xs ys
    .ok (z :: zs)
  | _, _ => .ok []

/-- Resize a vector to `n` elements: excess elements are destroyed, missing
elements are default-constructed (`vector::resize(n)` /
`vector::resize(n, x)` with `x` the default). -/
def resizeL {α : Type} (l : List α) (n : Nat) (d : α) : List α :=
  l.take n ++ List.replicate (n - l.length) d

/-- Read the `nv_per_node` components of the subtree sum stored for node
`n` (`NodeAllocatorCompact::get_node_sum`): components
`nvarray[n*nv_per_node + i]`. -/
def get_node_sum (c : Ctx) (s : TState) (n : Nat) : List Int :=
  (List.range c.D).map fun i => s.nvarray.getD (n * c.D + i) 0

/-- Write components `base, base+1, ...` of a sum vector
(the loop of `NodeAllocatorCompact::set_node_sum`). -/
def setSlice : List Int → Nat → List Int → List Int
  | l, _, [] => l
  | l, base, x :: xs => setSlice (l.set base x) (base + 1) xs

/-- Source `NodeAllocatorCompact::set_node_sum(n, s)`. -/
def set_node_sum (c : Ctx) (s : TState) (n : Nat) (xs : List Int) : TState :=
  { s with nvarray := setSlice s.nvarray (n * c.D) xs }

/-- Copy `cnt` sum components from base `yb` to base `xb`
(`NodeAllocatorCompact::move_nv`). -/
def copySlice : List Int → Nat → Nat → Nat → List Int
  | l, _, _, 0 => l
  | l, xb, yb, cnt + 1 => copySlice (l.set xb (l.getD yb 0)) (xb + 1) (yb + 1) cnt

/-- Source `NodeAllocatorCompact::move_nv(x, y)`: move the partial sum of
node `y` into the slot of node `x`. -/
def move_nv (c : Ctx) (s : TState) (x y : Nat) : TState :=
  { s with nvarray := copySlice s.nvarray (x * c.D) (y * c.D) c.D }

/-- Source `NodeAllocatorCompact::try_get_node`: pop a node from the free
list if one exists.  Returns the popped handle and the updated state. -/
def try_get_node (s : TState) : Except Err (Option (Nat × TState)) :=
  if s.deleted_nodes_head ≠ Invalid then
    if s.n_del = 0 then .error .inconsistent
    else
      let n := s.deleted_nodes_head
      let s := { s with n_del := s.n_del - 1 }
      let s := setN s n ((getN s n).set_parent Invalid)
      let s := { s with deleted_nodes_head := (getN s s.deleted_nodes_head).left }
      let s :=
        if s.deleted_nodes_head ≠ Invalid then
          setN s s.deleted_nodes_head ((getN s s.deleted_nodes_head).set_right Invalid)
        else s
      .ok (some (n, s))
  else .ok none

/-- Source `NodeAllocatorCompact::new_node(kv)`: reuse a slot from the free
list if possible, otherwise append a slot (raising the capacity error when
the fresh index would be `max_nodes`, the reserved `Invalid` value) and grow
`nvarray` to `(n+1) * nv_per_node` components. -/
def new_node (c : Ctx) (s : TState) (k v : Int) : Except Err (Nat × TState) := do
  let n := s.nodes.length
  match ← try_get_node s with
  | some (n', s') => .ok (n', setN s' n' (Node.mkKV k v))
  | none =>
    if n = max_nodes then .error .capacity
    else
      .ok (n, { s with nodes := s.nodes ++ [Node.mkKV k v],
                       nvarray := resizeL s.nvarray ((n + 1) * c.D) 0 })

/-- Source `NodeAllocatorCompact::free_node(n)`: mark the slot deleted and
push it at the head of the doubly linked free list (`left` points to the
older part of the list, `right` to the newer). -/
def free_node (s : TState) (n : Nat) : TState :=
  let s := setN s n (getN s n).set_deleted
  let s := setN s n ((getN s n).set_right Invalid)
  let s := setN s n ((getN s n).set_left s.deleted_nodes_head)
  let s :=
    if s.deleted_nodes_head ≠ Invalid then
      setN s s.deleted_nodes_head ((getN s s.deleted_nodes_head).set_right n)
    else s
  { s with deleted_nodes_head := n, n_del := s.n_del + 1 }

/-- Source `NodeAllocatorCompact::clear_tree()`: keep only the two sentinel
slots.  Note that the source resizes `nvarray` to 2 elements (not
`2 * nv_per_node`); the translation preserves this.  The final
`shrink_memory(4)` call only changes capacities, which the model does not
track. -/
def clear_tree (s : TState) : TState :=
  let s := { s with nodes := resizeL s.nodes 2 Node.dflt,
                    nvarray := resizeL s.nvarray 2 0,
                    deleted_nodes_head := Invalid, n_del := 0 }
  let s := setN s ROOT Node.dflt
  setN s NIL Node.dflt

/-- Parent-link fix of `NodeAllocatorCompact::move_node`: the parent of the
moved node must now reference `x` instead of `y` (with the source's
inconsistency throws). -/
def move_node_parent_fix (s : TState) (x y : Nat) : Except Err TState :=
  let p := (getN s x).get_parent
  if p ≠ Invalid ∧ p ≠ NIL then
    if (getN s p).left = y then .ok (setN s p ((getN s p).set_left x))
    else
      if (getN s p).right = y then .ok (setN s p ((getN s p).set_right x))
      else .error .inconsistent
  else .error .inconsistent

/-- Left-child parent fix of `NodeAllocatorCompact::move_node`. -/
def move_node_left_fix (s : TState) (x y : Nat) : Except Err TState :=
  if (getN s x).left ≠ Invalid ∧ (getN s x).left ≠ NIL then
    if (getN s (getN s x).left).get_parent ≠ y then .error .inconsistent
    else .ok (setN s (getN s x).left ((getN s (getN s x).left).set_parent x))
  else .ok s

/-- Right-child parent fix of `NodeAllocatorCompact::move_node`. -/
def move_node_right_fix (s : TState) (x y : Nat) : Except Err TState :=
  if (getN s x).right ≠ Invalid ∧ (getN s x).right ≠ NIL then
    if (getN s (getN s x).right).get_parent ≠ y then .error .inconsistent
    else .ok (setN s (getN s x).right ((getN s (getN s x).right).set_parent x))
  else .ok s

/-- Source `NodeAllocatorCompact::move_node(x, y)`: move node `y` into slot
`x` (which has been cut out of the tree or is a deleted slot), move its sum
vector along, and redirect the parent and child links that referenced `y`
(the three `if` blocks of the source body are the fix steps above, in
source order). -/
def move_node (c : Ctx) (s : TState) (x y : Nat) : Except Err TState := do
  let s := setN s x (getN s y)
  let s := move_nv c s x y
  if y = ROOT ∨ y = NIL then .error .inconsistent
  else do
    let s ← move_node_parent_fix s x y
    let s ← move_node_left_fix s x y
    let s ← move_node_right_fix s x y
    .ok s

/-- Loop body iteration of `NodeAllocatorCompact::shrink_to_fit`, with fuel
for the `while(deleted_nodes_head != Invalid)` loop.  In the relocation
branch the source pops the free-list head `n` and then executes
`nodes[deleted_nodes_head].set_right(Invalid)` unconditionally; when the
popped node was the last free-list element the new head is `Invalid` and
this writes `nodes[max_nodes]`, far outside the vector -- undefined
behaviour, modelled as `Err.oob`. -/
def shrink_loop (c : Ctx) : Nat → TState → Except Err TState
  | 0, s => if s.deleted_nodes_head = Invalid then .ok s else .error .fuel
  | fuel + 1, s =>
    if s.deleted_nodes_head = Invalid then .ok s
    else
      if s.nodes.length = 0 then .error .inconsistent
      else
        let size := s.nodes.length - 1
        let step : Except Err TState :=
          if (getN s size).is_deleted then
            let l := (getN s size).left
            let r := (getN s size).right
            let s := if l ≠ Invalid then setN s l ((getN s l).set_right r) else s
            let s := if r ≠ Invalid then setN s r ((getN s r).set_left l) else s
            if s.deleted_nodes_head = size then
              let s := { s with deleted_nodes_head := l }
              if s.deleted_nodes_head = Invalid ∧ s.n_del > 1 then .error .inconsistent
              else .ok s
            else .ok s
          else
            let n := s.deleted_nodes_head
            if n = size then .error .inconsistent
            else
              let s := { s with deleted_nodes_head := (getN s s.deleted_nodes_head).left }
              if s.deleted_nodes_head = Invalid then .error .oob
              else
                let s := setN s s.deleted_nodes_head
                  ((getN s s.deleted_nodes_head).set_right Invalid)
                move_node c s n size
        match step with
        | .error e => .error e
        | .ok s =>
          let s := { s with nodes := s.nodes.take size,
                            nvarray := resizeL s.nvarray (size * c.D) 0 }
          if s.n_del = 0 then .error .inconsistent
          else shrink_loop c fuel { s with n_del := s.n_del - 1 }

/-- Source `NodeAllocatorCompact::shrink_to_fit()`: compact the node vector
until the free list is empty (the trailing `shrink_memory()` only changes
capacities).  The loop runs `n_del` times on consistent states. -/
def shrink_to_fit (c : Ctx) (s : TState) : Except Err TState :=
  shrink_loop c (s.n_del + 1) s

/-- Source `orbtree_base::create_sentinels()`: link both sentinels to nil,
make them black, and reset the element count. -/
def create_sentinels (s : TState) : TState :=
  let s := setN s ROOT ((((getN s ROOT).set_parent NIL).set_left NIL).set_right NIL).set_black
  let s := setN s NIL ((((getN s NIL).set_parent NIL).set_left NIL).set_right NIL).set_black
  { s with size1 := 0 }

/-- State produced by the `orbtree_base` constructor over a fresh
`NodeAllocatorCompact`: the allocator constructor performs two `new_node()`
calls (producing the slots 0 = root and 1 = nil, and `nvarray` of
`2 * nv_per_node` default components), then `create_sentinels()` runs. -/
def emptyTree (c : Ctx) : TState :=
  create_sentinels
    { nodes := [Node.dflt, Node.dflt],
      nvarray := List.replicate (2 * c.D) 0,
      n_del := 0, deleted_nodes_head := Invalid, size1 := 0 }

/-- Weight of one node, `orbtree_base::get_node_grvalue`: the weight
function applied to the node's entry. -/
def get_node_grvalue (c : Ctx) (s : TState) (n : Nat) : List Int :=
  c.f (getN s n).key (getN s n).val

/-- Source `orbtree_base::update_sum(n)`: recompute the stored sum of `n`
from its own weight plus the stored sums of its non-nil children. -/
def update_sum (c : Ctx) (s : TState) (n : Nat) : Except Err TState := do
  let sum := get_node_grvalue c s n
  let sum ←
    if (getN s n).left ≠ NIL then NVAdd c sum (get_node_sum c s (getN s n).left)
    else pure sum
  let sum ←
    if (getN s n).right ≠ NIL then NVAdd c sum (get_node_sum c s (getN s n).right)
    else pure sum
  .ok (set_node_sum c s n sum)

/-- Source `orbtree_base::update_sum_r(n)`: `update_sum` on every node from
`n` up to (excluding) the root sentinel, with fuel for the parent walk. -/
def update_sum_r (c : Ctx) : Nat → TState → Nat → Except Err TState
  | 0, s, n => if n = ROOT then .ok s else .error .fuel
  | fuel + 1, s, n =>
    if n = ROOT then .ok s
    else do
      let s ← update_sum c s n
      update_sum_r c fuel s ((getN s n).get_parent)

/-- First write of `rotate_left(x)` (`y` is `x`'s right child computed at
entry): `x`'s right child becomes `y`'s left subtree. -/
def rl1 (s : TState) (x y : Nat) : TState :=
  setN s x ((getN s x).set_right ((getN s y).left))

/-- Second write of `rotate_left`: if `x`'s new right child is real, its
parent pointer is redirected to `x`. -/
def rl2 (s1 : TState) (x : Nat) : TState :=
  if (getN s1 x).right ≠ NIL then
    setN s1 ((getN s1 x).right) ((getN s1 ((getN s1 x).right)).set_parent x)
  else s1

/-- Third write of `rotate_left`: `y` inherits `x`'s parent. -/
def rl3 (s2 : TState) (x y : Nat) : TState :=
  setN s2 y ((getN s2 y).set_parent ((getN s2 x).get_parent))

/-- Fourth write of both rotations: the child pointer of `x`'s parent `p`
that referenced `x` now references `y` (the source tests `right` first and
otherwise writes `left`). -/
def rot4 (s3 : TState) (x y : Nat) : TState :=
  if (getN s3 ((getN s3 x).get_parent)).right = x then
    setN s3 ((getN s3 x).get_parent) ((getN s3 ((getN s3 x).get_parent)).set_right y)
  else
    setN s3 ((getN s3 x).get_parent) ((getN s3 ((getN s3 x).get_parent)).set_left y)

/-- Fifth write of `rotate_left`: `x` becomes `y`'s left child. -/
def rl5 (s4 : TState) (x y : Nat) : TState :=
  setN s4 y ((getN s4 y).set_left x)

/-- Sixth write of both rotations: `x`'s parent pointer moves to `y`. -/
def rot6 (s5 : TState) (x y : Nat) : TState :=
  setN s5 x ((getN s5 x).set_parent y)

/-- Source `orbtree_base::rotate_left(x)`: the right child `y` of `x` takes
its place, `x` becomes `y`'s left child, `y`'s original left subtree becomes
`x`'s right subtree (the six link writes of the source in order, as the
step functions above); afterwards exactly the sums of `x` and then `y` are
recomputed. -/
def rotate_left (c : Ctx) (s : TState) (x : Nat) : Except Err TState := do
  let y := (getN s x).right
  let s6 := rot6 (rl5 (rot4 (rl3 (rl2 (rl1 s x y) x) x y) x y) x y) x y
  let s7 ← update_sum c s6 x
  update_sum c s7 y

/-- First write of `rotate_right(x)` (`y` is `x`'s left child computed at
entry): `x`'s left child becomes `y`'s right subtree. -/
def rr1 (s : TState) (x y : Nat) : TState :=
  setN s x ((getN s x).set_left ((getN s y).right))

/-- Second write of `rotate_right`: if `x`'s new left child is real, its
parent pointer is redirected to `x`. -/
def rr2 (s1 : TState) (x : Nat) : TState :=
  if (getN s1 x).left ≠ NIL then
    setN s1 ((getN s1 x).left) ((getN s1 ((getN s1 x).left)).set_parent x)
  else s1

/-- Third write of `rotate_right`: `y` inherits `x`'s parent. -/
def rr3 (s2 : TState) (x y : Nat) : TState :=
  setN s2 y ((getN s2 y).set_parent ((getN s2 x).get_parent))

/-- Fifth write of `rotate_right`: `x` becomes `y`'s right child. -/
def rr5 (s4 : TState) (x y : Nat) : TState :=
  setN s4 y ((getN s4 y).set_right x)

/-- Source `orbtree_base::rotate_right(x)`, the mirror image of
`rotate_left`. -/
def rotate_right (c : Ctx) (s : TState) (x : Nat) : Except Err TState := do
  let y := (getN s x).left
  let s6 := rot6 (rr5 (rot4 (rr3 (rr2 (rr1 s x y) x) x y) x y) x y) x y
  let s7 ← update_sum c s6 x
  update_sum c s7 y

/-- Source `orbtree_base::rotate_parent(x)`: rotate `x` into the place of
its parent. -/
def rotate_parent (c : Ctx) (s : TState) (n : Nat) : Except Err TState :=
  if (getN s (getN s n).get_parent).left = n then rotate_right c s ((getN s n).get_parent)
  else rotate_left c s ((getN s n).get_parent)

/-- Source `orbtree_base::get_sibling_handle(n)`: the other child of `n`'s
parent. -/
def get_sibling_handle (s : TState) (n : Nat) : Nat :=
  if (getN s (getN s n).get_parent).left = n then (getN s (getN s n).get_parent).right
  else (getN s (getN s n).get_parent).left

/-- Source `orbtree_base::is_left_side(n)`. -/
def is_left_side (s : TState) (n : Nat) : Bool :=
  (getN s (getN s n).get_parent).left == n

/-- Result of `orbtree_base::insert_search`: either `false` was returned
(an equal key exists in a non-multi tree, `n` is that node), or a position
was found (`n` plus the `insert_left` flag). -/
inductive SearchRes where
  | fail (n : Nat)
  | found (n : Nat) (insert_left : Bool)
deriving Repr, DecidableEq

/-- Descent loop of `orbtree_base::insert_search`. -/
def insert_search_loop (c : Ctx) : Nat → TState → Int → Nat → Except Err SearchRes
  | 0, _, _, _ => .error .fuel
  | fuel + 1, s, k, n =>
    let k1 := (getN s n).key
    if k < k1 then
      if (getN s n).left = NIL then .ok (.found n true)
      else insert_search_loop c fuel s k ((getN s n).left)
    else
      if ¬c.multi ∧ ¬(k1 < k) then .ok (.fail n)
      else
        if (getN s n).right = NIL then .ok (.found n false)
        else insert_search_loop c fuel s k ((getN s n).right)

/-- Source `orbtree_base::insert_search(k, n, insert_left)`: find the
attachment point for a new key; in a multi tree equal keys descend right, so
a new duplicate lands after all existing ones.  (The source's `root ==
Invalid` runtime check cannot fire: the root sentinel always exists.) -/
def insert_search (c : Ctx) (s : TState) (k : Int) : Except Err SearchRes :=
  if (getN s ROOT).right = NIL then .ok (.found ROOT false)
  else insert_search_loop c s.nodes.length s k ((getN s ROOT).right)

/-- Sum-update loop of `orbtree_base::insert_helper`: add the new node's
weight to the stored sum of every node from `n` up to (excluding) the root
sentinel. -/
def sum_add_loop (c : Ctx) : Nat → TState → Nat → List Int → Except Err TState
  | 0, s, n2, _ => if n2 = ROOT then .ok s else .error .fuel
  | fuel + 1, s, n2, d =>
    if n2 = ROOT then .ok s
    else do
      let tmp ← NVAdd c (get_node_sum c s n2) d
      let s := set_node_sum c s n2 tmp
      sum_add_loop c fuel s ((getN s n2).get_parent) d

/-- Red-black fixup loop of `orbtree_base::insert_helper` (recolourings and
rotations after attaching the red node `n1` below `n`). -/
def insert_fix_loop (c : Ctx) : Nat → TState → Nat → Nat → Except Err TState
  | 0, _, _, _ => .error .fuel
  | fuel + 1, s, n, n1 =>
    if n = ROOT then .ok s
    else if (getN s n).is_black then .ok s
    else if (getN s n).get_parent = ROOT then .ok (setN s n (getN s n).set_black)
    else
      if (getN s (get_sibling_handle s n)).is_red then
        let s := setN s (get_sibling_handle s n) (getN s (get_sibling_handle s n)).set_black
        let s := setN s n (getN s n).set_black
        let s := setN s ((getN s n).get_parent) (getN s (getN s n).get_parent).set_red
        let n1' := (getN s n).get_parent
        let n' := (getN s n1').get_parent
        insert_fix_loop c fuel s n' n1'
      else do
        let (s, n, _n1) ←
          if is_left_side s n1 ≠ is_left_side s n then do
            let s ← rotate_parent c s n1
            pure (s, n1, n)
          else pure (s, n, n1)
        let s := setN s n (getN s n).set_black
        let s := setN s ((getN s n).get_parent) (getN s (getN s n).get_parent).set_red
        rotate_parent c s n

/-- Source `orbtree_base::insert_helper(n, n1, insert_left)`: link the new
node `n1` below `n`, colour it red, store its own weight as its subtree sum,
add that weight to every ancestor's sum, then run the red-black fixup. -/
def insert_helper (c : Ctx) (s : TState) (n n1 : Nat) (insert_left : Bool) :
    Except Err TState := do
  let s := if insert_left then setN s n ((getN s n).set_left n1)
    else setN s n ((getN s n).set_right n1)
  let s := setN s n1 ((getN s n1).set_parent n)
  let s := setN s n1 ((getN s n1).set_left NIL)
  let s := setN s n1 ((getN s n1).set_right NIL)
  let s := setN s n1 (getN s n1).set_red
  let sum_add := get_node_grvalue c s n1
  let s := set_node_sum c s n1 sum_add
  let s ← sum_add_loop c s.nodes.length s n sum_add
  insert_fix_loop c s.nodes.length s n n1

/-- Source `orbtree_base::insert(kv)`: search for the attachment point,
allocate, link and fix up; returns the handle and the `inserted` flag.  When
an equal key exists in a non-multi tree, nothing is allocated or modified
and the existing node's handle is returned with `false`. -/
def insert (c : Ctx) (s : TState) (k v : Int) : Except Err (TState × Nat × Bool) := do
  match ← insert_search c s k with
  | .fail n => .ok (s, n, false)
  | .found n il => do
    let (n1, s) ← new_node c s k v
    let s ← insert_helper c s n n1 il
    .ok ({ s with size1 := s.size1 + 1 }, n1, true)

/-- Descend-left loop (`while(get_node(n).get_left() != nil()) ...`). -/
def left_descend : Nat → TState → Nat → Except Err Nat
  | 0, _, _ => .error .fuel
  | fuel + 1, s, n =>
    if (getN s n).left = NIL then .ok n else left_descend fuel s ((getN s n).left)

/-- Descend-right loop. -/
def right_descend : Nat → TState → Nat → Except Err Nat
  | 0, _, _ => .error .fuel
  | fuel + 1, s, n =>
    if (getN s n).right = NIL then .ok n else right_descend fuel s ((getN s n).right)

/-- Source `orbtree_base::first()`: leftmost node, or nil if empty. -/
def first (s : TState) : Except Err Nat :=
  let n := (getN s ROOT).right
  if n = Invalid ∨ n = NIL then .ok NIL
  else left_descend s.nodes.length s n

/-- Source `orbtree_base::last()`: rightmost node, or nil if empty. -/
def last (s : TState) : Except Err Nat :=
  let n := (getN s ROOT).right
  if n = Invalid ∨ n = NIL then .ok NIL
  else right_descend s.nodes.length s n

/-- Parent-walk loop of `next`: go up until the current node is a left
child; reaching the root sentinel means there is no successor. -/
def ascend_right : Nat → TState → Nat → Except Err Nat
  | 0, _, _ => .error .fuel
  | fuel + 1, s, n =>
    let p := (getN s n).get_parent
    if p = ROOT then .ok NIL
    else if (getN s p).left = n then .ok p
    else ascend_right fuel s p

/-- Parent-walk loop of `previous`: go up until the current node is a right
child. -/
def ascend_left : Nat → TState → Nat → Except Err Nat
  | 0, _, _ => .error .fuel
  | fuel + 1, s, n =>
    let p := (getN s n).get_parent
    if p = ROOT then .ok NIL
    else if (getN s p).right = n then .ok p
    else ascend_left fuel s p

/-- Source `orbtree_base::next(n)`; `next(nil) = nil`. -/
def next (s : TState) (n : Nat) : Except Err Nat :=
  if n = NIL then .ok n
  else if (getN s n).right ≠ NIL then left_descend s.nodes.length s ((getN s n).right)
  else ascend_right s.nodes.length s n

/-- Source `orbtree_base::previous(n)`; `previous(nil) = last()` so that the
end iterator can be decremented. -/
def previous (s : TState) (n : Nat) : Except Err Nat :=
  if n = NIL then last s
  else if (getN s n).left ≠ NIL then right_descend s.nodes.length s ((getN s n).left)
  else ascend_left s.nodes.length s n

/-- Descent loop of `orbtree_base::lower_bound` with the running candidate
node. -/
def lower_bound_loop : Nat → TState → Int → Nat → Nat → Except Err Nat
  | 0, _, _, _, _ => .error .fuel
  | fuel + 1, s, k, n, cand =>
    let k1 := (getN s n).key
    if k1 < k then
      if (getN s n).right = NIL then .ok cand
      else lower_bound_loop fuel s k ((getN s n).right) cand
    else
      if (getN s n).left = NIL then .ok n
      else lower_bound_loop fuel s k ((getN s n).left) n

/-- Source `orbtree_base::lower_bound(key)`: first node whose key is not
less than `key`, or nil. -/
def lower_bound (s : TState) (k : Int) : Except Err Nat :=
  let n := (getN s ROOT).right
  if n = Invalid ∨ n = NIL then .ok NIL
  else lower_bound_loop s.nodes.length s k n NIL

/-- Descent loop of `orbtree_base::find`. -/
def find_loop : Nat → TState → Int → Nat → Except Err Nat
  | 0, _, _, _ => .error .fuel
  | fuel + 1, s, k, n =>
    let k1 := (getN s n).key
    let n' := if k < k1 then (getN s n).left
      else if k1 < k then (getN s n).right else n
    if ¬(k < k1) ∧ ¬(k1 < k) then .ok n
    else if n' = NIL then .ok n'
    else find_loop fuel s k n'

/-- Source `orbtree_base::find(key)`: any node with an equal key, or nil. -/
def find (s : TState) (k : Int) : Except Err Nat :=
  let n := (getN s ROOT).right
  if n = Invalid ∨ n = NIL then .ok NIL
  else find_loop s.nodes.length s k n

/-- Result of `orbtree_base::insert_search_hint`.  `noins n` is the honest
`n = hint; return false` path; `ins n insert_left` is a found position; and
`returnP p` is the source line `return p;` inside a function returning
`bool` -- the handle `p` is implicitly converted to `bool` (true whenever
`p` is a nonzero index / non-null pointer) while the output parameters `n`
and `insert_left` are left indeterminate. -/
inductive HintRes where
  | noins (n : Nat)
  | ins (n : Nat) (insert_left : Bool)
  | returnP (p : Nat)
deriving Repr, DecidableEq

/-- Source `orbtree_base::insert_search_hint(hint, k, n, insert_left)`.
Faithful translation notes: (1) in the unique-tree branch where the new key
equals the key of `previous(hint)`, the source executes `return p;` -- see
`HintRes.returnP`; (2) the fallback `return insert_search(k, n,
insert_left).first;` applies `.first` to a `bool` (ill-formed C++ that only
compiles while the template is never instantiated); it is modelled as the
evidently intended plain `insert_search` call; (3) two `std::runtime_error`
consistency checks are constructed but never thrown in the source, hence
they are no-ops here as well. -/
def insert_search_hint (c : Ctx) (s : TState) (hint : Nat) (k : Int) :
    Except Err HintRes := do
  if k < (getN s hint).key then do
    let p ← previous s hint
    if ¬(k < (getN s p).key) then
      if ¬c.multi ∧ ¬((getN s p).key < k) then .ok (.returnP p)
      else
        if (getN s hint).left = NIL then .ok (.ins hint true)
        else
          if (getN s p).right = NIL then .ok (.ins p false)
          else .error .inconsistent
    else
      (insert_search c s k).map fun r =>
        match r with
        | .fail n => .noins n
        | .found n il => .ins n il
  else
    if ¬((getN s hint).key < k) then
      if ¬c.multi then .ok (.noins hint)
      else
        if (getN s hint).left = NIL then .ok (.ins hint true)
        else do
          let p ← previous s hint
          .ok (.ins p false)
    else do
      let n ← lower_bound s k
      if n ≠ NIL then
        if (getN s n).left = NIL then .ok (.ins n true)
        else do
          let p ← previous s n
          .ok (.ins p false)
      else do
        let n ← last s
        .ok (.ins n false)

/-- Source `orbtree_base::insert(hint, kv)`: insert with a hint.  On the
`returnP` outcome the caller's uninitialised locals `n` and `insert_left`
are consumed: for a nonzero `p` the conversion yields `true` and a node is
inserted at an indeterminate position -- undefined behaviour, modelled as
`Err.ub` (a zero handle would return the indeterminate `n` without
inserting, equally undefined). -/
def insert_hint (c : Ctx) (s : TState) (hint : Nat) (k v : Int) :
    Except Err (TState × Nat) := do
  match ← insert_search_hint c s hint k with
  | .noins n => .ok (s, n)
  | .ins n il => do
    let (n1, s) ← new_node c s k v
    let s ← insert_helper c s n n1 il
    .ok ({ s with size1 := s.size1 + 1 }, n1)
  | .returnP _ => .error .ub

/-- Sum-update loop of `orbtree_base::erase`: subtract the removed node's
weight from the stored sum of every node from `p` up to (excluding) the
root sentinel. -/
def sum_sub_loop (c : Ctx) : Nat → TState → Nat → List Int → Except Err TState
  | 0, s, p2, _ => if p2 = ROOT then .ok s else .error .fuel
  | fuel + 1, s, p2, d =>
    if p2 = ROOT then .ok s
    else do
      let y ← NVSubtract c (get_node_sum c s p2) d
      let s := set_node_sum c s p2 y
      sum_sub_loop c fuel s ((getN s p2).get_parent) d

/-- Red-black fixup loop of `orbtree_base::erase` (the `while(true)` loop
run when a black node was spliced out with no child); `p` and `ch` are the
loop variables `p` and `c` of the source. -/
def erase_fix_loop (c : Ctx) : Nat → TState → Nat → Nat → Except Err TState
  | 0, _, _, _ => .error .fuel
  | fuel + 1, s, p, ch =>
    let sib := if (getN s p).left = NIL ∨ (getN s p).left = ch then (getN s p).right
      else (getN s p).left
    if sib = NIL ∨ sib = ch then .error .inconsistent
    else
      if (getN s sib).is_red then do
        let s := setN s p (getN s p).set_red
        let s := setN s sib (getN s sib).set_black
        let s ← rotate_parent c s sib
        erase_fix_loop c fuel s p ch
      else
        if (getN s (getN s sib).left).is_black ∧ (getN s (getN s sib).right).is_black then
          let s := setN s sib (getN s sib).set_red
          if (getN s p).is_red then .ok (setN s p (getN s p).set_black)
          else
            let ch' := p
            let p' := (getN s p).get_parent
            if p' = ROOT then .ok s
            else erase_fix_loop c fuel s p' ch'
        else
          if sib = (getN s p).right ∧ (getN s (getN s sib).right).is_black then do
            let s := setN s sib (getN s sib).set_red
            let s := setN s ((getN s sib).left) (getN s (getN s sib).left).set_black
            let s ← rotate_right c s sib
            erase_fix_loop c fuel s p ch
          else
            if sib = (getN s p).left ∧ (getN s (getN s sib).left).is_black then do
              let s := setN s sib (getN s sib).set_red
              let s := setN s ((getN s sib).right) (getN s (getN s sib).right).set_black
              let s ← rotate_left c s sib
              erase_fix_loop c fuel s p ch
            else do
              let s := if (getN s p).is_red then setN s sib (getN s sib).set_red else s
              let s := setN s p (getN s p).set_black
              let s :=
                if sib = (getN s p).right then
                  setN s ((getN s sib).right) (getN s (getN s sib).right).set_black
                else setN s ((getN s sib).left) (getN s (getN s sib).left).set_black
              rotate_parent c s sib

/-- Splice step of `orbtree_base::erase`: cut `del` out of the tree,
replacing it by its only (possibly nil) child `ch` -- `ch`'s parent is set
unconditionally (this mutates the nil sentinel's parent when `ch` is nil,
exactly as the source does). -/
def erase_splice (s : TState) (del ch p : Nat) : TState :=
  let s := setN s ch ((getN s ch).set_parent p)
  if (getN s p).left = del then setN s p ((getN s p).set_left ch)
  else setN s p ((getN s p).set_right ch)

/-- Recolour/fixup step of `orbtree_base::erase` after the splice (the
`if(get_node(del).is_black())` block): a red `del` needs nothing, a black
`del` with a real child recolours it black, otherwise the fixup loop
runs. -/
def erase_fix_step (c : Ctx) (s : TState) (del p ch : Nat) : Except Err TState :=
  if (getN s del).is_black then
    if ch ≠ NIL then .ok (setN s ch (getN s ch).set_black)
    else erase_fix_loop c s.nodes.length s p ch
  else .ok s

/-- Parent-side relink inside the successor move of `orbtree_base::erase`:
`n`'s parent now points to `x` (with the source's consistency throw when
`n` was neither child). -/
def erase_move_relink (s : TState) (n x : Nat) : Except Err TState :=
  let pn := (getN s n).get_parent
  if (getN s pn).left = n then .ok (setN s pn ((getN s pn).set_left x))
  else
    if (getN s pn).right = n then .ok (setN s pn ((getN s pn).set_right x))
    else .error .inconsistent

/-- Successor-move step of `orbtree_base::erase` (the `if(del != n)` block):
when the successor `x` was spliced out instead of `n`, rewire `x` into
`n`'s position (links, colour, parent's child pointer, children's parent
pointers) and refresh the sums from `x` upward. -/
def erase_move_step (c : Ctx) (s : TState) (del n x : Nat) : Except Err TState :=
  if del ≠ n then do
    let s := setN s x ((getN s x).set_left (getN s n).left)
    let s := setN s x ((getN s x).set_right (getN s n).right)
    let s := setN s x ((getN s x).set_parent (getN s n).get_parent)
    let s := if (getN s n).is_black then setN s x (getN s x).set_black
      else setN s x (getN s x).set_red
    let s ← erase_move_relink s n x
    let s := if (getN s x).left ≠ NIL then
        setN s ((getN s x).left) ((getN s (getN s x).left).set_parent x)
      else s
    let s := if (getN s x).right ≠ NIL then
        setN s ((getN s x).right) ((getN s (getN s x).right).set_parent x)
      else s
    update_sum_r c s.nodes.length s x
  else .ok s

/-- Source `orbtree_base::erase(n)`: splice out `n` (or its successor when
`n` has two children), subtract the removed weight along the ancestor
chain, fix the red-black properties, move the successor into `n`'s place by
pointer rewiring (refreshing its sums with `update_sum_r`), free the slot
and return the successor handle.  The four phases of the source body are the
helper definitions above, applied in source order. -/
def erase (c : Ctx) (s0 : TState) (n : Nat) : Except Err (TState × Nat) := do
  let x ← next s0 n
  let del := if (getN s0 n).left ≠ NIL ∧ (getN s0 n).right ≠ NIL then x else n
  let ch := if (getN s0 del).left = NIL then (getN s0 del).right else (getN s0 del).left
  let p := (getN s0 del).get_parent
  let s1 := erase_splice s0 del ch p
  let s2 ← sum_sub_loop c s1.nodes.length s1 p (get_node_grvalue c s1 del)
  let s3 ← erase_fix_step c s2 del p ch
  let s4 ← erase_move_step c s3 del n x
  let s5 := free_node s4 n
  if s5.size1 = 0 then .error .inconsistent
  else .ok ({ s5 with size1 := s5.size1 - 1 }, x)

/-- Source `orbtree_base::update_value(n, v)` (map flavours): write the new
mapped value into `n`'s entry and recompute the sums from `n` up to the
root. -/
def update_value (c : Ctx) (s : TState) (n : Nat) (v : Int) : Except Err TState :=
  update_sum_r c s.nodes.length (setN s n { getN s n with val := v }) n

/-- Source `orbtree_base::clear()`: free all nodes via the allocator's
`clear_tree`, then reset the sentinels. -/
def clear (s : TState) : TState := create_sentinels (clear_tree s)

/-- Ascent loop of `orbtree_base::get_sum_fv_node`: every time the current
node is the right child of its parent, add the parent's left-subtree sum
and the parent's own weight. -/
def get_sum_node_loop (c : Ctx) :
    Nat → TState → Nat → Nat → List Int → Except Err (List Int)
  | 0, _, _, _, _ => .error .fuel
  | fuel + 1, s, x, p, res =>
    if p = ROOT then .ok res
    else do
      let res ←
        if (getN s p).right = x then do
          let res ←
            if (getN s p).left ≠ NIL then NVAdd c res (get_node_sum c s (getN s p).left)
            else pure res
          NVAdd c res (get_node_grvalue c s p)
        else pure res
      get_sum_node_loop c fuel s p ((getN s p).get_parent) res

/-- Source `orbtree_base::get_sum_fv_node(x, res)`: the partial-sum vector
over all entries before `x` in order.  The result is zero-initialised
first; for `x` equal to `Invalid`, nil or the root sentinel the function
returns with `res` still all zero. -/
def get_sum_fv_node (c : Ctx) (s : TState) (x : Nat) : Except Err (List Int) := do
  let res := List.replicate c.D 0
  if x = Invalid ∨ x = NIL ∨ x = ROOT then .ok res
  else do
    let res ←
      if (getN s x).left ≠ NIL then NVAdd c res (get_node_sum c s (getN s x).left)
      else pure res
    get_sum_node_loop c s.nodes.length s x ((getN s x).get_parent) res

/-- Source `orbtree_base::get_norm_fv(res)`: the total sum, i.e. the stored
subtree sum of the real root, or all zeroes for an empty tree. -/
def get_norm_fv (c : Ctx) (s : TState) : List Int :=
  if (getN s ROOT).right ≠ Invalid ∧ (getN s ROOT).right ≠ NIL then
    get_node_sum c s ((getN s ROOT).right)
  else List.replicate c.D 0

/-- Source `orbtree::get_sum_node(it, res)` (and its `simple` overload):

    if(it == cend()) this->get_norm_fv(res);
    this->get_sum_fv_node(it.n, res);

The `cend()` special case stores the total sum into `res`, but the call on
the next line runs unconditionally and `get_sum_fv_node` begins by zeroing
every component of `res` before its early return for `it.n = nil`; the
stored total is therefore always overwritten, and the net effect of the
function is exactly `get_sum_fv_node(it.n, res)`. -/
def get_sum_node (c : Ctx) (s : TState) (it : Nat) : Except Err (List Int) :=
  get_sum_fv_node c s it

/-- Source `orbtree::get_sum(k, res)` / `get_sum(k)`: `get_sum_node` at
`lower_bound(k)`. -/
def get_sum (c : Ctx) (s : TState) (k : Int) : Except Err (List Int) := do
  let it ← lower_bound s k
  get_sum_node c s it

/-- In-order traversal of the structure hanging below handle `h`, as the
list of (key, value) entries (fuel-based; the fuel never runs out on a
well-formed tree because each child step descends). -/
def inorder_go : Nat → TState → Nat → List (Int × Int)
  | 0, _, _ => []
  | fuel + 1, s, h =>
    if h = NIL ∨ h = Invalid then []
    else
      inorder_go fuel s ((getN s h).left) ++
        [((getN s h).key, (getN s h).val)] ++ inorder_go fuel s ((getN s h).right)

/-- In-order entry sequence of the whole tree (the sequence an iterator
walk from `first()` via `next` produces). -/
def inorder (s : TState) : List (Int × Int) :=
  inorder_go (s.nodes.length + 1) s ((getN s ROOT).right)

/-! ## The realloc-backed vector (`vector_realloc.h`) -/

/-- State of a `realloc_vector::vector<T>`: element count, capacity and the
`max_grow` bound (default 131072).  The element contents do not matter for
the growth-policy claims. -/
structure RVec where
  p_size : Nat
  p_capacity : Nat
  max_grow : Nat
deriving Repr, DecidableEq

/-- Source `p_max_capacity = std::numeric_limits<size_t>::max() / sizeof(T)`
on a 64-bit host. -/
def p_max_capacity (sizeofT : Nat) : Nat := (2 ^ 64 - 1) / sizeofT

/-- Source `realloc_vector::vector::change_size(new_size)`: reallocate;
success of the host `realloc` is the oracle `reallocOK`. -/
def change_size (reallocOK : Bool) (v : RVec) (new_size : Nat) : Option RVec :=
  if reallocOK then some { v with p_capacity := new_size } else none

/-- Source `realloc_vector::vector::grow_vector(minimum_size)`: grow to the
given minimum size or by doubling the capacity, capping the increment at
`max_grow` and clamping everything at `p_max_capacity` (the parameter
`pmax`).  All arithmetic is `size_t`; on the states the code can reach no
subtraction underflows and no addition exceeds `SIZE_MAX`, so `Nat`
arithmetic is exact. -/
def grow_vector (pmax : Nat) (reallocOK : Bool) (v : RVec) (minimum_size : Nat) :
    Option RVec :=
  if minimum_size > pmax then none
  else
    let g := v.p_capacity
    let g := if g = 0 then 1 else g
    let g := if g > v.max_grow then v.max_grow else g
    let g := if g > pmax then pmax else g
    let g := if pmax - g < v.p_capacity then pmax - v.p_capacity else g
    if g = 0 then none
    else
      let new_size := v.p_capacity + g
      let new_size := if new_size < minimum_size then minimum_size else new_size
      change_size reallocOK v new_size

/-- Source `realloc_vector::vector::push_back_nothrow(x)`: grow when full
(`p_size == p_capacity`), then construct the element and bump `p_size`. -/
def push_back_nothrow (pmax : Nat) (reallocOK : Bool) (v : RVec) : Option RVec :=
  if v.p_size = v.p_capacity then
    match grow_vector pmax reallocOK v 0 with
    | none => none
    | some v' => some { v' with p_size := v'.p_size + 1 }
  else some { v with p_size := v.p_size + 1 }

/-! ## Reachability relations and counting helpers -/

/-- A handle that designates a stored entry: a non-sentinel, non-freed
slot of the node arena.  `erase` and `update_value` take an iterator that
must point at an element (as for the standard containers, passing `end()`
or a dangling iterator is undefined behaviour in the source), and a
dereferenceable iterator holds exactly such a handle. -/
def liveHandle (s : TState) (n : Nat) : Prop :=
  2 ≤ n ∧ n < s.nodes.length ∧ (getN s n).is_deleted = false

/-- Tree states reachable from the freshly constructed container by any
sequence of successful `insert`, `erase` and `update_value` operations,
the latter two applied to a handle that designates a stored entry
(the sequences quantified over by the augmentation-invariant claim). -/
inductive Reach (c : Ctx) : TState → Prop where
  | init : Reach c (emptyTree c)
  | insert {s s' : TState} {k v : Int} {n : Nat} {b : Bool} :
      Reach c s → insert c s k v = .ok (s', n, b) → Reach c s'
  | erase {s s' : TState} {n x : Nat} :
      Reach c s → liveHandle s n → erase c s n = .ok (s', x) → Reach c s'
  | update_value {s s' : TState} {n : Nat} {v : Int} :
      Reach c s → liveHandle s n → update_value c s n v = .ok s' → Reach c s'

/-- Tree states reachable by the full mutating interface, adding hinted
insert, `clear` and the compact allocator's `shrink_to_fit` to `Reach`'s
step set (used for the capacity claim, which speaks of arbitrary operation
sequences). -/
inductive ReachA (c : Ctx) : TState → Prop where
  | init : ReachA c (emptyTree c)
  | insert {s s' : TState} {k v : Int} {n : Nat} {b : Bool} :
      ReachA c s → insert c s k v = .ok (s', n, b) → ReachA c s'
  | insert_hint {s s' : TState} {hint : Nat} {k v : Int} {n : Nat} :
      ReachA c s → insert_hint c s hint k v = .ok (s', n) → ReachA c s'
  | erase {s s' : TState} {n x : Nat} :
      ReachA c s → erase c s n = .ok (s', x) → ReachA c s'
  | update_value {s s' : TState} {n : Nat} {v : Int} :
      ReachA c s → update_value c s n v = .ok s' → ReachA c s'
  | clear {s : TState} : ReachA c s → ReachA c (clear s)
  | shrink {s s' : TState} :
      ReachA c s → shrink_to_fit c s = .ok s' → ReachA c s'

/-- Number of live (non-sentinel, non-deleted) node slots, i.e. the number
of stored entries the arena currently holds. -/
def live_count (s : TState) : Nat :=
  ((List.range s.nodes.length).filter fun i => 2 ≤ i ∧ ¬(getN s i).is_deleted = true).length

/-! ## Concrete container instances and example runs used by the claims -/

/-- Simple rank set over the compact allocator (`ranksetC`): arity 1,
`w ≡ 1`, `NVType = uint32_t`, unique keys. -/
def ctxRank : Ctx :=
  { D := 1, f := fun _ _ => [1], integral := true, wmin := 0, wmax := 2 ^ 32 - 1,
    multi := false }

/-- Rank multiset version of `ctxRank` (`rankmultisetC`). -/
def ctxRankM : Ctx := { ctxRank with multi := true }

/-- Compact multiset with `NVType = uint32_t` and `w(k) = k` (the
integer-overflow scenario of the specification). -/
def ctxOvf : Ctx :=
  { D := 1, f := fun k _ => [k], integral := true, wmin := 0, wmax := 2 ^ 32 - 1,
    multi := true }

/-- Rank set of arity 2 (a vector weight function with two components both
`≡ 1`), used for the sums-length claim. -/
def ctxD2 : Ctx :=
  { D := 2, f := fun _ _ => [1, 1], integral := true, wmin := 0, wmax := 2 ^ 32 - 1,
    multi := false }

/-- Insert a list of keys in order (each with mapped value 0), starting
from the fresh container. -/
def insert_list (c : Ctx) (ks : List Int) : Except Err TState :=
  ks.foldlM (fun s k => do
    let (s', _, _) ← insert c s k 0
    pure s') (emptyTree c)

/-- Erase the nodes found for a list of keys, in order. -/
def erase_keys (c : Ctx) (ks : List Int) (s : TState) : Except Err TState :=
  ks.foldlM (fun s k => do
    let h ← find s k
    let (s', _) ← erase c s h
    pure s') s

/-- Concrete run for the free-list reuse witness: the rank set holding the
single key 10 (its node in slot 2). -/
def stC10a : TState :=
  ⟨[⟨0, 0, 1, false, 1, 2⟩, ⟨0, 0, 1, false, 1, 1⟩, ⟨10, 0, 0, true, 1, 1⟩],
   [0, 0, 1], 0, Invalid, 1⟩

/-- The state after erasing slot 2 from `stC10a` (slot 2 heads the free
list). -/
def stC10b : TState :=
  ⟨[⟨0, 0, 1, false, 1, 1⟩, ⟨0, 0, 0, false, 1, 1⟩,
    ⟨10, 0, Invalid, true, Invalid, Invalid⟩],
   [0, 0, 1], 1, 2, 0⟩

/-- The state after inserting key 25 into `stC10b`: slot 2 is reused. -/
def stC10c : TState :=
  ⟨[⟨0, 0, 1, false, 1, 2⟩, ⟨0, 0, 0, false, 1, 1⟩, ⟨25, 0, 0, true, 1, 1⟩],
   [0, 0, 1], 0, Invalid, 1⟩

/-! ## Structural predicates for the invariant proofs -/

/-- Componentwise sum of two weight vectors (the exact value `NVAdd`
produces when it does not raise). -/
def addL (xs ys : List Int) : List Int := List.zipWith (· + ·) xs ys

/-- Componentwise difference (the exact value of a successful
`NVSubtract`). -/
def subL (xs ys : List Int) : List Int := List.zipWith (· - ·) xs ys

/-- Stored subtree sum of a child handle, with the nil sentinel counting as
the zero vector. -/
def csum (c : Ctx) (s : TState) (h : Nat) : List Int :=
  if h = NIL then List.replicate c.D 0 else get_node_sum c s h

/-- The augmentation equation at a node: its stored sum equals its own
weight plus the stored sums of its children (nil = zero), componentwise --
in the association order `(w + left) + right` that `update_sum` uses. -/
def sumEq (c : Ctx) (s : TState) (h : Nat) : Prop :=
  get_node_sum c s h =
    addL (addL (get_node_grvalue c s h) (csum c s (getN s h).left))
      (csum c s (getN s h).right)

/-- Well-formed binary tree hanging at handle `h` whose parent pointer must
be `p`, collecting the list of handles of the subtree.  Captures: handles
are non-sentinel in-range live slots, parent pointers match, and all
handles are distinct. -/
inductive IsT (s : TState) : Nat → Nat → List Nat → Prop
  | nil (p : Nat) : IsT s NIL p []
  | node {h p : Nat} {A B : List Nat} :
      2 ≤ h → h < s.nodes.length → (getN s h).is_deleted = false →
      (getN s h).pidx = p →
      IsT s (getN s h).left h A → IsT s (getN s h).right h B →
      (h :: (A ++ B)).Nodup → IsT s h p (h :: (A ++ B))

/-- Well-formed doubly linked free list: `FreeL s pr h L` says the list
hanging from head `h` (ending at `Invalid`) collects the slots `L`, each a
non-sentinel in-range deleted slot, linked forward by `left` and backward
by `right` (`pr` is the previous element, `Invalid` at the head), exactly
as `free_node` / `try_get_node` maintain it. -/
inductive FreeL (s : TState) : Nat → Nat → List Nat → Prop
  | nil (pr : Nat) : FreeL s pr Invalid []
  | cons {pr h : Nat} {L : List Nat} :
      2 ≤ h → h < s.nodes.length → (getN s h).is_deleted = true →
      (getN s h).right = pr →
      FreeL s h ((getN s h).left) L → h ∉ L → FreeL s pr h (h :: L)

/-- Parent chain from a handle `n` up to (and including) an ancestor `t`,
following the `pidx` fields: `UpPath s n t L` lists the handles the
bottom-up sum loops of `insert_helper`, `erase` and `update_sum_r`
visit. -/
inductive UpPath (s : TState) : Nat → Nat → List Nat → Prop
  | self (t : Nat) : UpPath s t t [t]
  | step {n t : Nat} {L : List Nat} :
      n ≠ t → UpPath s ((getN s n).pidx) t L → UpPath s n t (n :: L)

/-- Global well-formedness of a tree state with explicit handle lists: the
sums vector length matches, the arena keeps both sentinel slots and stays
under the index-type cap, the root sentinel's left child is nil, the nil
sentinel is black, and the slot range splits into the tree nodes `A`
(hanging from the root sentinel's right child, with correct parent
pointers) and the free list `F`, with every tree node satisfying the
augmentation equation. -/
def InvAt (c : Ctx) (s : TState) (A F : List Nat) : Prop :=
  s.nvarray.length = s.nodes.length * c.D ∧
  2 ≤ s.nodes.length ∧ s.nodes.length ≤ max_nodes ∧
  (getN s ROOT).left = NIL ∧
  (getN s NIL).pred = false ∧
  IsT s ((getN s ROOT).right) ROOT A ∧
  FreeL s Invalid s.deleted_nodes_head F ∧
  (∀ i, 2 ≤ i → i < s.nodes.length → i ∈ A ∨ i ∈ F) ∧
  (∀ h ∈ A, sumEq c s h)

/-- Global well-formedness, existentially over the handle lists. -/
def Inv (c : Ctx) (s : TState) : Prop := ∃ A F, InvAt c s A F

/-! ## Theorems -/

/-- Helper: peel one `Except` bind off a successful computation. -/
theorem exceptBind_ok {α β : Type} {e : Except Err α} {f : α → Except Err β} {b : β}
    (h : e >>= f = .ok b) : ∃ a, e = .ok a ∧ f a = .ok b := by
  cases e with
  | error err => exact Except.noConfusion h
  | ok a => exact ⟨a, rfl, h⟩

/-- Componentwise addition is commutative. -/
theorem addL_comm (xs ys : List Int) : addL xs ys = addL ys xs :=
  List.zipWith_comm_of_comm _ Int.add_comm xs ys

/-- Componentwise addition is associative. -/
theorem addL_assoc : ∀ (xs ys zs : List Int), addL (addL xs ys) zs = addL xs (addL ys zs)
  | [], _, _ => rfl
  | _ :: _, [], _ => rfl
  | _ :: _, _ :: _, [] => rfl
  | x :: xs, y :: ys, z :: zs => by
    simp only [addL, List.zipWith_cons_cons] at *
    rw [Int.add_assoc]
    exact congrArg _ (addL_assoc xs ys zs)

/-- Length of a componentwise sum. -/
theorem addL_length (xs ys : List Int) : (addL xs ys).length = min xs.length ys.length :=
  List.length_zipWith ..

/-- Adding the zero vector of matching length on the right is neutral. -/
theorem addL_zero_right : ∀ (xs : List Int) (n : Nat), xs.length = n →
    addL xs (List.replicate n 0) = xs
  | [], _, h => by subst h; rfl
  | x :: xs, n, h => by
    subst h
    simp only [List.length_cons, List.replicate, addL, List.zipWith_cons_cons, Int.add_zero]
    exact congrArg _ (addL_zero_right xs xs.length rfl)

/-- Adding the zero vector of matching length on the left is neutral. -/
theorem addL_zero_left (xs : List Int) (n : Nat) (h : xs.length = n) :
    addL (List.replicate n 0) xs = xs := by
  rw [addL_comm]
  exact addL_zero_right xs n h

/-- Componentwise subtraction cancels a componentwise addition. -/
theorem subL_addL_cancel : ∀ (xs ys : List Int), xs.length = ys.length →
    subL (addL xs ys) ys = xs
  | [], [], _ => rfl
  | x :: xs, y :: ys, h => by
    simp only [subL, addL, List.zipWith_cons_cons]
    rw [Int.add_sub_cancel]
    exact congrArg _ (subL_addL_cancel xs ys (by simpa using h))
  | [], _ :: _, h => by simp at h
  | _ :: _, [], h => by simp at h

/-- A successful `NVAdd` computes exactly the componentwise sum. -/
theorem NVAdd_ok_eq {c : Ctx} : ∀ {xs ys zs : List Int},
    NVAdd c xs ys = .ok zs → zs = addL xs ys := by
  intro xs
  induction xs with
  | nil => intro ys zs h; cases ys <;> exact (Except.ok.inj h).symm
  | cons x xs ih =>
    intro ys zs h
    cases ys with
    | nil => exact (Except.ok.inj h).symm
    | cons y ys =>
      unfold NVAdd at h
      obtain ⟨z, hz, h⟩ := exceptBind_ok h
      obtain ⟨zs', hzs, h⟩ := exceptBind_ok h
      cases Except.ok.inj h
      have hz' : z = x + y := by
        unfold NVAdd1 at hz
        split at hz
        · split at hz <;> split at hz <;>
            first
            | exact Except.noConfusion hz
            | exact (Except.ok.inj hz).symm
        · exact (Except.ok.inj hz).symm
      rw [hz', ih hzs]
      rfl

/-- A successful `NVSubtract` computes exactly the componentwise
difference. -/
theorem NVSubtract_ok_eq {c : Ctx} : ∀ {xs ys zs : List Int},
    NVSubtract c xs ys = .ok zs → zs = subL xs ys := by
  intro xs
  induction xs with
  | nil => intro ys zs h; cases ys <;> exact (Except.ok.inj h).symm
  | cons x xs ih =>
    intro ys zs h
    cases ys with
    | nil => exact (Except.ok.inj h).symm
    | cons y ys =>
      unfold NVSubtract at h
      obtain ⟨z, hz, h⟩ := exceptBind_ok h
      obtain ⟨zs', hzs, h⟩ := exceptBind_ok h
      cases Except.ok.inj h
      have hz' : z = x - y := by
        unfold NVSubtract1 at hz
        split at hz
        · split at hz <;> split at hz <;>
            first
            | exact Except.noConfusion hz
            | exact (Except.ok.inj hz).symm
        · exact (Except.ok.inj hz).symm
      rw [hz', ih hzs]
      rfl

/-- `getD` after `set` at the same in-range index yields the new value. -/
theorem getD_set_eq {α : Type} : ∀ (l : List α) (i : Nat), i < l.length →
    ∀ (a d : α), (l.set i a).getD i d = a
  | [], i, h => by simp at h
  | x :: l, 0, _ => by intro a d; rfl
  | x :: l, i + 1, h => by
    intro a d
    simpa using getD_set_eq l i (by simpa using h) a d

/-- `getD` after `set` at a different index is unchanged. -/
theorem getD_set_ne {α : Type} : ∀ (l : List α) (i j : Nat), j ≠ i →
    ∀ (a d : α), (l.set i a).getD j d = l.getD j d
  | [], _, _, _ => by intro a d; rfl
  | x :: l, 0, 0, h => by intro a d; exact absurd rfl h
  | x :: l, 0, j + 1, h => by intro a d; rfl
  | x :: l, i + 1, 0, h => by intro a d; rfl
  | x :: l, i + 1, j + 1, h => by
    intro a d
    simpa using getD_set_ne l i j (by omega) a d

/-- Reading the slot just written by `setN`. -/
theorem getN_setN_eq {s : TState} {i : Nat} (h : i < s.nodes.length) (n : Node) :
    getN (setN s i n) i = n :=
  getD_set_eq _ _ h _ _

/-- Reading another slot after `setN`. -/
theorem getN_setN_ne {s : TState} {i j : Nat} (h : j ≠ i) (n : Node) :
    getN (setN s i n) j = getN s j :=
  getD_set_ne _ _ _ h _ _

/-- `setN` does not touch the sums vector. -/
theorem get_node_sum_setN (c : Ctx) (s : TState) (i : Nat) (n : Node) (h : Nat) :
    get_node_sum c (setN s i n) h = get_node_sum c s h := rfl

/-- `set_node_sum` does not touch the node fields read by weights. -/
theorem get_node_grvalue_set_sum (c : Ctx) (s : TState) (m : Nat) (xs : List Int) (h : Nat) :
    get_node_grvalue c (set_node_sum c s m xs) h = get_node_grvalue c s h := rfl

/-- `set_node_sum` does not touch the node arena. -/
theorem getN_set_sum (c : Ctx) (s : TState) (m : Nat) (xs : List Int) (h : Nat) :
    getN (set_node_sum c s m xs) h = getN s h := rfl

theorem setSlice_length : ∀ (xs : List Int) (l : List Int) (b : Nat),
    (setSlice l b xs).length = l.length
  | [], _, _ => rfl
  | x :: xs, l, b => by
    simp only [setSlice, setSlice_length xs]
    exact List.length_set ..

theorem setSlice_oob : ∀ (xs : List Int) (l : List Int) (b : Nat), l.length ≤ b →
    setSlice l b xs = l
  | [], _, _, _ => rfl
  | x :: xs, l, b, h => by
    simp only [setSlice]
    rw [List.set_eq_of_length_le h]
    exact setSlice_oob xs l (b + 1) (by omega)

theorem getD_setSlice_lt : ∀ (xs : List Int) (l : List Int) (b j : Nat), j < b →
    (setSlice l b xs).getD j 0 = l.getD j 0
  | [], _, _, _, _ => rfl
  | x :: xs, l, b, j, h => by
    simp only [setSlice]
    rw [getD_setSlice_lt xs _ (b + 1) j (by omega), getD_set_ne _ _ _ (by omega)]

theorem getD_setSlice_ge : ∀ (xs : List Int) (l : List Int) (b j : Nat),
    b + xs.length ≤ j → (setSlice l b xs).getD j 0 = l.getD j 0
  | [], _, _, _, _ => rfl
  | x :: xs, l, b, j, h => by
    simp only [setSlice]
    rw [getD_setSlice_ge xs _ (b + 1) j (by simp at h ⊢; omega),
      getD_set_ne _ _ _ (by simp at h; omega)]

theorem getD_setSlice_in : ∀ (xs : List Int) (l : List Int) (b i : Nat), i < xs.length →
    b + xs.length ≤ l.length → (setSlice l b xs).getD (b + i) 0 = xs.getD i 0
  | [], _, _, _, h, _ => by simp at h
  | x :: xs, l, b, 0, _, hb => by
    simp only [setSlice, Nat.add_zero]
    rw [getD_setSlice_lt xs _ (b + 1) b (by omega),
      getD_set_eq _ _ (by simp at hb; omega)]
    rfl
  | x :: xs, l, b, i + 1, hi, hb => by
    simp only [setSlice]
    have := getD_setSlice_in xs (l.set b x) (b + 1) i (by simp at hi; omega)
      (by simp [List.length_set] at hb ⊢; omega)
    rw [show b + (i + 1) = b + 1 + i by omega]
    exact this

theorem get_node_sum_length (c : Ctx) (s : TState) (n : Nat) :
    (get_node_sum c s n).length = c.D := by
  simp [get_node_sum]

theorem map_range_getD : ∀ (xs : List Int) (n : Nat), xs.length = n →
    (List.range n).map (fun i => xs.getD i 0) = xs := by
  intro xs n h
  subst h
  apply List.ext_getElem (by simp)
  intro i h1 h2
  simp [List.getD_eq_getElem?_getD, List.getElem?_eq_getElem h2]

theorem set_node_sum_nvlen (c : Ctx) (s : TState) (m : Nat) (xs : List Int) :
    (set_node_sum c s m xs).nvarray.length = s.nvarray.length :=
  setSlice_length ..

theorem get_node_sum_set_eq {c : Ctx} {s : TState} {m : Nat} {xs : List Int}
    (hb : (m + 1) * c.D ≤ s.nvarray.length) (hx : xs.length = c.D) :
    get_node_sum c (set_node_sum c s m xs) m = xs := by
  unfold get_node_sum set_node_sum
  have : ∀ i, i < c.D →
      (setSlice s.nvarray (m * c.D) xs).getD (m * c.D + i) 0 = xs.getD i 0 := by
    intro i hi
    exact getD_setSlice_in xs s.nvarray (m * c.D) i (by omega)
      (by rw [hx]; calc m * c.D + c.D = (m + 1) * c.D := by ring
            _ ≤ s.nvarray.length := hb)
  calc (List.range c.D).map (fun i => (setSlice s.nvarray (m * c.D) xs).getD (m * c.D + i) 0)
      = (List.range c.D).map (fun i => xs.getD i 0) := by
        apply List.map_congr_left
        intro i hi
        exact this i (List.mem_range.mp hi)
    _ = xs := map_range_getD xs c.D hx

theorem get_node_sum_set_ne {c : Ctx} {s : TState} {m h : Nat} {xs : List Int}
    (hne : h ≠ m) (hx : xs.length ≤ c.D) :
    get_node_sum c (set_node_sum c s m xs) h = get_node_sum c s h := by
  unfold get_node_sum set_node_sum
  apply List.map_congr_left
  intro i hi
  have hi' := List.mem_range.mp hi
  rcases Nat.lt_or_ge h m with hlt | hge
  · apply getD_setSlice_lt
    calc h * c.D + i < h * c.D + c.D := by omega
      _ = (h + 1) * c.D := by ring
      _ ≤ m * c.D := Nat.mul_le_mul_right _ (by omega)
  · apply getD_setSlice_ge
    have : m + 1 ≤ h := by omega
    calc m * c.D + xs.length ≤ m * c.D + c.D := by omega
      _ = (m + 1) * c.D := by ring
      _ ≤ h * c.D := Nat.mul_le_mul_right _ this
      _ ≤ h * c.D + i := by omega

theorem resizeL_length {α : Type} (l : List α) (n : Nat) (d : α) :
    (resizeL l n d).length = n := by
  simp [resizeL]
  omega

theorem getD_resizeL_grow {α : Type} (l : List α) (n : Nat) (d e : α) (i : Nat)
    (h : i < l.length) (hn : l.length ≤ n) : (resizeL l n d).getD i e = l.getD i e := by
  unfold resizeL
  rw [List.getD_eq_getElem?_getD, List.getD_eq_getElem?_getD, List.getElem?_append]
  rw [if_pos (by simp; omega)]
  rw [List.getElem?_take, if_pos (by omega)]

/-- Helper: a successful `erase` leaves the erased handle at the head of
the free list (its final action is `free_node(n)`), with `n_del` positive. -/
theorem erase_ok_free_list_head {c : Ctx} {s s' : TState} {m x : Nat}
    (h : erase c s m = .ok (s', x)) :
    s'.deleted_nodes_head = m ∧ s'.n_del ≠ 0 := by
  unfold erase at h
  obtain ⟨x1, hx, h⟩ := exceptBind_ok h
  dsimp only at h
  obtain ⟨s2, h2, h⟩ := exceptBind_ok h
  obtain ⟨s3, h3, h⟩ := exceptBind_ok h
  obtain ⟨s4, h4, h⟩ := exceptBind_ok h
  split at h
  · exact Except.noConfusion h
  · injection h with h'
    rw [Prod.ext_iff] at h'
    obtain ⟨ha, hb⟩ := h'
    subst ha
    exact ⟨rfl, Nat.succ_ne_zero _⟩

/-- Helper: a successful insert that reports `inserted = true` returns the
handle that `new_node` produced. -/
theorem insert_true_allocates {c : Ctx} {s s' : TState} {k v : Int} {n1 : Nat}
    (h : insert c s k v = .ok (s', n1, true)) :
    (new_node c s k v).map Prod.fst = .ok n1 := by
  unfold insert at h
  obtain ⟨r, hr, h⟩ := exceptBind_ok h
  dsimp only at h
  cases r with
  | fail n =>
    injection h with h'
    rw [Prod.ext_iff] at h'
    rw [Prod.ext_iff] at h'
    exact absurd h'.2.2 (by simp)
  | found n il =>
    obtain ⟨a, hnew, h⟩ := exceptBind_ok h
    obtain ⟨n1', sA⟩ := a
    dsimp only at h
    obtain ⟨s3, h3, h⟩ := exceptBind_ok h
    injection h with h'
    rw [Prod.ext_iff] at h'
    rw [Prod.ext_iff] at h'
    rw [hnew]
    exact congrArg Except.ok h'.2.1

/-- Helper: with a nonempty free list (and consistent `n_del`), `new_node`
pops the head slot before ever appending. -/
theorem new_node_pops_head {c : Ctx} {s : TState} {k v : Int}
    (h1 : s.deleted_nodes_head ≠ Invalid) (h2 : s.n_del ≠ 0) :
    ∃ s', new_node c s k v = .ok (s.deleted_nodes_head, s') := by
  unfold new_node try_get_node
  rw [if_pos h1, if_neg h2]
  exact ⟨_, rfl⟩

/-- C1: the claim states that `sum_before(k)` equals
`sum_before_node(lower_bound(k))` (which holds: `get_sum` is literally that
composition), and that when `lower_bound(k)` is nil -- equivalently for the
end handle -- the result is `total_sum()`.  The code disagrees: in
`orbtree::get_sum_node` the `it == cend()` special case stores the total
sum into `res`, but the following unconditional `get_sum_fv_node(it.n,res)`
call zero-fills `res` again (the special case lacks an `else`/`return`), so
the function returns all zeroes.  Failing input: a rank set (`w ≡ 1`) holding
the single key 1, queried with `sum_before(2)`: `lower_bound(2)` is nil,
`total_sum()` is `[1]`, but `sum_before(2)` and `sum_before_node(end)`
return `[0]`. -/
theorem C1_sum_before_of_absent_key_is_zero_not_total :
    (do let s ← insert_list ctxRank [1]; get_sum ctxRank s 2) = .ok [0] ∧
    (do let s ← insert_list ctxRank [1]; lower_bound s 2) = .ok NIL ∧
    (do let s ← insert_list ctxRank [1]; get_sum_node ctxRank s NIL) = .ok [0] ∧
    (insert_list ctxRank [1]).map (get_norm_fv ctxRank) = .ok [1] :=
  ⟨rfl, rfl, rfl, rfl⟩

/-- C4: the claim states compaction is neutral after any operation
sequence.  The code contradicts it: in the relocation branch of
`shrink_to_fit`, after popping the free-list head the source runs
`nodes[deleted_nodes_head].set_right(Invalid)` without checking for
`Invalid`, so whenever the compaction loop ends by moving a live node (the
popped head was the last free-list entry) it writes `nodes[2^31 - 1]`, far
out of bounds -- undefined behaviour, `Err.oob` in the model.  Failing
input: insert keys 1,2,3, erase key 1, call `shrink_to_fit`.  The second
conjunct replays the specification's own scenario (insert 10, erase 5,
compact) in an erase order whose compaction only drops trailing slots and
therefore avoids the bug: there the in-order entries, `size()` and the
inner vector length 5+2 all match the claim. -/
theorem C4_shrink_to_fit_oob_write :
    (do
      let s ← insert_list ctxRank [1, 2, 3]
      let s ← erase_keys ctxRank [1] s
      shrink_to_fit ctxRank s) = .error .oob ∧
    (do
      let s ← insert_list ctxRank [1, 2, 3, 4, 5, 6, 7, 8, 9, 10]
      let s ← erase_keys ctxRank [6, 7, 8, 9, 10] s
      let s ← shrink_to_fit ctxRank s
      pure ((inorder s).map Prod.fst, s.size1, s.nodes.length)) =
        .ok ([1, 2, 3, 4, 5], 5, 7) :=
  ⟨rfl, rfl⟩

/-- C6: the claim states a unique-tree hinted insert either uses a valid
hint or behaves exactly like a plain insert, and never inserts a duplicate.
The code disagrees: in `insert_search_hint`, when the new key equals the
key of `previous(hint)` (here: tree `{1, 2}`, hint at key 2, inserting key
1 again), the source executes `return p;` inside a `bool` function -- the
handle `p` (here the index 2, nonzero) converts to `true`, so the caller
proceeds to insert a duplicate at an indeterminate position taken from its
uninitialised locals (undefined behaviour), even though the plain insert on
the same tree returns the existing handle 2 with `inserted = false` and
leaves the tree unchanged. -/
theorem C6_hint_insert_duplicate_via_returnP :
    (do
      let s ← insert_list ctxRank [1, 2]
      let h ← find s 2
      insert_search_hint ctxRank s h 1) = .ok (.returnP 2) ∧
    (do
      let s ← insert_list ctxRank [1, 2]
      let r ← insert ctxRank s 1 0
      pure (r.1 == s, r.2)) = .ok (true, 2, false) ∧
    (do
      let s ← insert_list ctxRank [1, 2]
      let h ← find s 2
      insert_hint ctxRank s h 1 0) = .error .ub :=
  ⟨rfl, rfl, rfl⟩

/-- C7: the claim states `sums` always has length `size(nodes) * D`, in
particular after `clear_tree` for every `D ≥ 1`.  The code contradicts it
for `D ≥ 2`: `NodeAllocatorCompact::clear_tree` resizes `nvarray` to 2
elements instead of `2 * nv_per_node` (every other site scales by
`nv_per_node`).  Failing input: a container of arity `D = 2`; after
`clear_tree` the node vector has the 2 sentinel slots but `sums` has length
2 instead of 4 (while e.g. on the freshly built container the invariant
holds, third conjunct). -/
theorem C7_clear_tree_breaks_sums_length :
    (clear_tree (emptyTree ctxD2)).nvarray.length = 2 ∧
    (clear_tree (emptyTree ctxD2)).nodes.length * ctxD2.D = 4 ∧
    (emptyTree ctxD2).nvarray.length = (emptyTree ctxD2).nodes.length * ctxD2.D := by
  decide

/-- C5: for integral weight types every componentwise addition and
subtraction used by the sum propagation goes through `NVAdd`/`NVSubtract`,
which raise the arithmetic error exactly when the exact result leaves the
representable range `[wmin, wmax]` and otherwise produce the exact
(unwrapped) result; and the specification's concrete scenario -- multiset,
`W = uint32_t`, `w(k) = k`, inserting the key `2^31` twice -- raises
`Arithmetic` during the second insertion's sum propagation. -/
theorem C5_integral_overflow_detected :
    (∀ c : Ctx, c.integral = true → ∀ x y : Int,
        c.wmin ≤ x → x ≤ c.wmax → c.wmin ≤ y → y ≤ c.wmax →
        NVAdd1 c x y =
          if c.wmin ≤ x + y ∧ x + y ≤ c.wmax then .ok (x + y) else .error .arith) ∧
    (∀ c : Ctx, c.integral = true → ∀ x y : Int,
        c.wmin ≤ x → x ≤ c.wmax → c.wmin ≤ y → y ≤ c.wmax →
        NVSubtract1 c x y =
          if c.wmin ≤ x - y ∧ x - y ≤ c.wmax then .ok (x - y) else .error .arith) ∧
    (do
      let (s, _, _) ← insert ctxOvf (emptyTree ctxOvf) (2 ^ 31) 0
      insert ctxOvf s (2 ^ 31) 0) = .error .arith := by
  refine ⟨?_, ?_, rfl⟩
  · intro c hc x y hx1 hx2 hy1 hy2
    simp only [NVAdd1, hc, if_true]
    split_ifs with h1 h2 h3 h2 h3 <;> first | rfl | omega
  · intro c hc x y hx1 hx2 hy1 hy2
    simp only [NVSubtract1, hc, if_true]
    split_ifs with h1 h2 h3 h2 h3 <;> first | rfl | omega

/-- Witness for C5: the hypotheses of the general parts hold and evaluate
as stated at the concrete instance `ctxOvf` with `x = 5`, `y = 7`. -/
theorem C5_integral_overflow_detected_witness :
    NVAdd1 ctxOvf 5 7 = .ok 12 ∧ NVSubtract1 ctxOvf 7 5 = .ok 2 := by
  constructor
  · have h := C5_integral_overflow_detected.1 ctxOvf rfl 5 7
      (by decide) (by decide) (by decide) (by decide)
    have hc : ctxOvf.wmin ≤ 5 + 7 ∧ 5 + 7 ≤ ctxOvf.wmax := by decide
    rw [if_pos hc] at h
    exact h
  · have h := C5_integral_overflow_detected.2.1 ctxOvf rfl 7 5
      (by decide) (by decide) (by decide) (by decide)
    have hc : ctxOvf.wmin ≤ 7 - 5 ∧ 7 - 5 ≤ ctxOvf.wmax := by decide
    rw [if_pos hc] at h
    exact h

/-- C9, counterexample: the claim says a successful push with
`size = capacity = C` always grows the capacity to
`C + min(max(C, 1), max_grow)`.  `grow_vector` additionally clamps at
`p_max_capacity = SIZE_MAX / sizeof(T)`: for a one-byte element type
(`p_max_capacity = 2^64 - 1`) and `C = 2^64 - 2`, the push succeeds (given
a successful realloc) but the new capacity is the clamped `2^64 - 1`, not
`C + 131072`. -/
theorem C9_growth_uncapped_counterexample :
    push_back_nothrow (p_max_capacity 1) true ⟨2 ^ 64 - 2, 2 ^ 64 - 2, 131072⟩ =
      some ⟨2 ^ 64 - 1, 2 ^ 64 - 1, 131072⟩ ∧
    2 ^ 64 - 1 ≠ (2 ^ 64 - 2) + min (max (2 ^ 64 - 2) 1) 131072 := by
  constructor
  · rfl
  · decide

/-- C9, as amended: a successful push on a full vector
(`p_size = p_capacity = C`, with the invariant `C ≤ p_max_capacity`) grows
the capacity to `min(C + min(max(C, 1), max_grow), p_max_capacity)` -- the
doubling increment capped at `max_grow` and the whole clamped at
`p_max_capacity` -- and bumps the size; a push into spare capacity
(`p_size ≠ p_capacity`) leaves the capacity unchanged and never
reallocates. -/
theorem C9_growth_policy :
    (∀ (pmax : Nat) (v v' : RVec), v.p_size = v.p_capacity → v.p_capacity ≤ pmax →
        push_back_nothrow pmax true v = some v' →
        v'.p_capacity = min (v.p_capacity + min (max v.p_capacity 1) v.max_grow) pmax ∧
        v'.p_size = v.p_size + 1 ∧ v'.max_grow = v.max_grow) ∧
    (∀ (pmax : Nat) (reallocOK : Bool) (v : RVec), v.p_size ≠ v.p_capacity →
        push_back_nothrow pmax reallocOK v = some { v with p_size := v.p_size + 1 }) := by
  constructor
  · intro pmax v v' hfull hcap h
    simp only [push_back_nothrow, if_pos hfull, grow_vector, change_size, if_pos rfl] at h
    have h0 : ¬ (0 > pmax) := by omega
    rw [if_neg h0] at h
    split_ifs at h <;>
      first
      | exact Option.noConfusion h
      | (cases Option.some.inj h; refine ⟨?_, rfl, rfl⟩; dsimp only; omega)
  · intro pmax reallocOK v hsp
    simp only [push_back_nothrow, if_neg hsp]

/-- Witness for C9: a full vector of size 4 with the default `max_grow`
grows to capacity 8 = min(4 + min(max 4 1, 131072), 100). -/
theorem C9_growth_policy_witness :
    (8 : Nat) = min (4 + min (max 4 1) 131072) 100 ∧ (5 : Nat) = 4 + 1 ∧
    (131072 : Nat) = 131072 ∧
    push_back_nothrow 100 false ⟨3, 7, 131072⟩ = some ⟨4, 7, 131072⟩ := by
  have h := C9_growth_policy.1 100 ⟨4, 4, 131072⟩ ⟨5, 8, 131072⟩ rfl (by decide) rfl
  have h2 := C9_growth_policy.2 100 false ⟨3, 7, 131072⟩ (by decide)
  exact ⟨h.1, h.2.1, h.2.2, h2⟩

/-- C10: freed slots are reused in LIFO order.  First part: for any state
and any handle `n ≠ Invalid`, `free_node(n)` followed by `new_node` hands
out exactly `n` (free_node pushes `n` at the list head, `new_node` pops the
head before ever appending).  Second part, at tree level: a successful
`erase` of the node with handle `m` followed by a successful inserting
`insert` returns the same handle `m` -- the stale handle now names the new
entry. -/
theorem C10_lifo_slot_reuse :
    (∀ (c : Ctx) (s : TState) (n : Nat) (k v : Int), n ≠ Invalid →
        (new_node c (free_node s n) k v).map Prod.fst = .ok n) ∧
    (∀ (c : Ctx) (s s' s'' : TState) (m x n1 : Nat) (k v : Int), m ≠ Invalid →
        erase c s m = .ok (s', x) → insert c s' k v = .ok (s'', n1, true) →
        n1 = m) := by
  constructor
  · intro c s n k v hn
    have hh : (free_node s n).deleted_nodes_head = n := rfl
    obtain ⟨s', h⟩ :=
      new_node_pops_head (c := c) (s := free_node s n) (k := k) (v := v)
        (hh ▸ hn) (Nat.succ_ne_zero _)
    rw [h, hh]
    rfl
  · intro c s s' s'' m x n1 k v hm he hi
    obtain ⟨hh, hd⟩ := erase_ok_free_list_head he
    obtain ⟨sx, hnew⟩ :=
      new_node_pops_head (c := c) (s := s') (k := k) (v := v) (hh ▸ hm) hd
    have := insert_true_allocates hi
    rw [hnew, hh] at this
    exact (Except.ok.inj this).symm

/-- Witness for C10: both parts applied at concrete inputs -- slot 5 of an
arbitrary state, and the one-entry tree `stC10a` where erasing handle 2 and
re-inserting yields handle 2 again. -/
theorem C10_lifo_slot_reuse_witness :
    (new_node ctxRank (free_node (emptyTree ctxRank) 5) 1 0).map Prod.fst = .ok 5 ∧
    erase ctxRank stC10a 2 = .ok (stC10b, 1) ∧
    insert ctxRank stC10b 25 0 = .ok (stC10c, 2, true) ∧ (2 : Nat) = 2 := by
  refine ⟨C10_lifo_slot_reuse.1 ctxRank (emptyTree ctxRank) 5 1 0 (by decide), rfl, rfl, ?_⟩
  exact C10_lifo_slot_reuse.2 ctxRank stC10a stC10b stC10c 2 1 2 25 0 (by decide) rfl rfl


theorem setN_nodes_length (s : TState) (i : Nat) (n : Node) :
    (setN s i n).nodes.length = s.nodes.length := List.length_set ..

theorem update_sum_nodes {c : Ctx} {s s' : TState} {n : Nat}
    (h : update_sum c s n = .ok s') : s'.nodes = s.nodes := by
  unfold update_sum at h
  try dsimp only at h
  split at h <;>
    · obtain ⟨a, _, h⟩ := exceptBind_ok h
      try dsimp only at h
      split at h <;>
        · obtain ⟨b, _, h⟩ := exceptBind_ok h
          cases Except.ok.inj h
          rfl

theorem update_sum_r_nodes {c : Ctx} : ∀ (fuel : Nat) (s s' : TState) (n : Nat),
    update_sum_r c fuel s n = .ok s' → s'.nodes = s.nodes := by
  intro fuel
  induction fuel with
  | zero =>
    intro s s' n h
    unfold update_sum_r at h
    split at h
    · cases Except.ok.inj h; rfl
    · exact Except.noConfusion h
  | succ fuel ih =>
    intro s s' n h
    unfold update_sum_r at h
    split at h
    · cases Except.ok.inj h; rfl
    · obtain ⟨a, ha, h⟩ := exceptBind_ok h
      rw [ih _ _ _ h, update_sum_nodes ha]

theorem sum_add_loop_nodes {c : Ctx} : ∀ (fuel : Nat) (s s' : TState) (n : Nat) (d : List Int),
    sum_add_loop c fuel s n d = .ok s' → s'.nodes = s.nodes := by
  intro fuel
  induction fuel with
  | zero =>
    intro s s' n d h
    unfold sum_add_loop at h
    split at h
    · cases Except.ok.inj h; rfl
    · exact Except.noConfusion h
  | succ fuel ih =>
    intro s s' n d h
    unfold sum_add_loop at h
    split at h
    · cases Except.ok.inj h; rfl
    · obtain ⟨a, ha, h⟩ := exceptBind_ok h
      exact (ih _ _ _ _ h).trans rfl

theorem sum_sub_loop_nodes {c : Ctx} : ∀ (fuel : Nat) (s s' : TState) (n : Nat) (d : List Int),
    sum_sub_loop c fuel s n d = .ok s' → s'.nodes = s.nodes := by
  intro fuel
  induction fuel with
  | zero =>
    intro s s' n d h
    unfold sum_sub_loop at h
    split at h
    · cases Except.ok.inj h; rfl
    · exact Except.noConfusion h
  | succ fuel ih =>
    intro s s' n d h
    unfold sum_sub_loop at h
    split at h
    · cases Except.ok.inj h; rfl
    · obtain ⟨a, ha, h⟩ := exceptBind_ok h
      exact (ih _ _ _ _ h).trans rfl

theorem rot_step_len (s : TState) (x y : Nat) :
    ((rot6 (rl5 (rot4 (rl3 (rl2 (rl1 s x y) x) x y) x y) x y) x y)).nodes.length =
      s.nodes.length := by
  unfold rot6 rl5 rot4 rl3 rl2 rl1
  simp [setN, List.length_set, apply_ite]

theorem rot_step_len_r (s : TState) (x y : Nat) :
    ((rot6 (rr5 (rot4 (rr3 (rr2 (rr1 s x y) x) x y) x y) x y) x y)).nodes.length =
      s.nodes.length := by
  unfold rot6 rr5 rot4 rr3 rr2 rr1
  simp [setN, List.length_set, apply_ite]

theorem rotate_left_len {c : Ctx} {s s' : TState} {x : Nat}
    (h : rotate_left c s x = .ok s') : s'.nodes.length = s.nodes.length := by
  unfold rotate_left at h
  dsimp only at h
  obtain ⟨a, ha, h⟩ := exceptBind_ok h
  rw [update_sum_nodes h, update_sum_nodes ha]
  exact rot_step_len ..

theorem rotate_right_len {c : Ctx} {s s' : TState} {x : Nat}
    (h : rotate_right c s x = .ok s') : s'.nodes.length = s.nodes.length := by
  unfold rotate_right at h
  dsimp only at h
  obtain ⟨a, ha, h⟩ := exceptBind_ok h
  rw [update_sum_nodes h, update_sum_nodes ha]
  exact rot_step_len_r ..

theorem rotate_parent_len {c : Ctx} {s s' : TState} {x : Nat}
    (h : rotate_parent c s x = .ok s') : s'.nodes.length = s.nodes.length := by
  unfold rotate_parent at h
  split at h
  · exact rotate_right_len h
  · exact rotate_left_len h



theorem insert_fix_loop_len {c : Ctx} : ∀ (fuel : Nat) (s s' : TState) (n n1 : Nat),
    insert_fix_loop c fuel s n n1 = .ok s' → s'.nodes.length = s.nodes.length := by
  intro fuel
  induction fuel with
  | zero => intro s s' n n1 h; exact Except.noConfusion h
  | succ fuel ih =>
    intro s s' n n1 h
    unfold insert_fix_loop at h
    split at h
    · cases Except.ok.inj h; rfl
    split at h
    · cases Except.ok.inj h; rfl
    split at h
    · cases Except.ok.inj h; simp [setN, List.length_set]
    split at h
    · rw [ih _ _ _ _ h]; simp [setN, List.length_set]
    · try dsimp only at h
      split at h
      · obtain ⟨a, ha, h⟩ := exceptBind_ok h
        try dsimp only at h
        rw [rotate_parent_len h]
        have := rotate_parent_len ha
        simp only [setN_nodes_length]
        simpa [setN, List.length_set] using this
      · rw [rotate_parent_len h]
        simp [setN, List.length_set]



theorem erase_fix_loop_len {c : Ctx} : ∀ (fuel : Nat) (s s' : TState) (p ch : Nat),
    erase_fix_loop c fuel s p ch = .ok s' → s'.nodes.length = s.nodes.length := by
  intro fuel
  induction fuel with
  | zero => intro s s' p ch h; exact Except.noConfusion h
  | succ fuel ih =>
    intro s s' p ch h
    unfold erase_fix_loop at h
    split at h <;>
    · try dsimp only at h
      split at h
      · exact Except.noConfusion h
      split at h
      · obtain ⟨a, ha, h⟩ := exceptBind_ok h
        rw [ih _ _ _ _ h]
        have := rotate_parent_len ha
        simpa [setN, List.length_set] using this
      split at h
      · split at h
        · cases Except.ok.inj h; simp [setN, List.length_set]
        · split at h
          · cases Except.ok.inj h; simp [setN, List.length_set]
          · rw [ih _ _ _ _ h]; simp [setN, List.length_set]
      split at h
      · obtain ⟨a, ha, h⟩ := exceptBind_ok h
        rw [ih _ _ _ _ h]
        have := rotate_right_len ha
        simpa [setN, List.length_set] using this
      split at h
      · obtain ⟨a, ha, h⟩ := exceptBind_ok h
        rw [ih _ _ _ _ h]
        have := rotate_left_len ha
        simpa [setN, List.length_set] using this
      · rw [rotate_parent_len h]
        simp [setN, List.length_set, apply_ite]

theorem insert_helper_len {c : Ctx} {s s' : TState} {n n1 : Nat} {il : Bool}
    (h : insert_helper c s n n1 il = .ok s') : s'.nodes.length = s.nodes.length := by
  unfold insert_helper at h
  try dsimp only at h
  obtain ⟨a, ha, h⟩ := exceptBind_ok h
  rw [insert_fix_loop_len _ _ _ _ _ h]
  have := sum_add_loop_nodes _ _ _ _ _ ha
  rw [congrArg List.length this]
  simp [set_node_sum, setN, List.length_set, apply_ite]

theorem new_node_len {c : Ctx} {s s' : TState} {k v : Int} {n : Nat}
    (h : new_node c s k v = .ok (n, s')) :
    s'.nodes.length = s.nodes.length ∨
      (s.nodes.length ≠ max_nodes ∧ s'.nodes.length = s.nodes.length + 1) := by
  unfold new_node try_get_node at h
  try dsimp only at h
  split at h
  · split at h
    · exact Except.noConfusion h
    · try dsimp only at h
      split at h <;>
        · cases Except.ok.inj h
          left
          simp [setN, List.length_set]
  · try dsimp only at h
    split at h
    · exact Except.noConfusion h
    · cases Except.ok.inj h
      right
      constructor
      · assumption
      · simp

theorem insert_len_le {c : Ctx} {s s' : TState} {k v : Int} {n : Nat} {b : Bool}
    (h : insert c s k v = .ok (s', n, b)) (hle : s.nodes.length ≤ max_nodes) :
    s'.nodes.length ≤ max_nodes := by
  unfold insert at h
  obtain ⟨r, hr, h⟩ := exceptBind_ok h
  dsimp only at h
  cases r with
  | fail m =>
    cases Except.ok.inj h
    exact hle
  | found m il =>
    obtain ⟨a, hnew, h⟩ := exceptBind_ok h
    obtain ⟨n1', sA⟩ := a
    dsimp only at h
    obtain ⟨sB, hh, h⟩ := exceptBind_ok h
    cases Except.ok.inj h
    have h1 := insert_helper_len hh
    have h2 := new_node_len hnew
    simp only [h1]
    rcases h2 with h2 | ⟨h2a, h2b⟩
    · omega
    · unfold max_nodes redbit at *
      omega



theorem free_node_len (s : TState) (n : Nat) :
    (free_node s n).nodes.length = s.nodes.length := by
  unfold free_node
  try dsimp only
  split <;> simp [setN, List.length_set]

theorem erase_splice_len (s : TState) (del ch p : Nat) :
    (erase_splice s del ch p).nodes.length = s.nodes.length := by
  unfold erase_splice
  try dsimp only
  split <;> simp [setN, List.length_set]

theorem erase_fix_step_len {c : Ctx} {s s' : TState} {del p ch : Nat}
    (h : erase_fix_step c s del p ch = .ok s') : s'.nodes.length = s.nodes.length := by
  unfold erase_fix_step at h
  split at h
  · split at h
    · cases Except.ok.inj h; simp [setN, List.length_set]
    · exact erase_fix_loop_len _ _ _ _ _ h
  · cases Except.ok.inj h; rfl

theorem erase_move_relink_len {s s' : TState} {n x : Nat}
    (h : erase_move_relink s n x = .ok s') : s'.nodes.length = s.nodes.length := by
  unfold erase_move_relink at h
  try dsimp only at h
  split at h
  · cases Except.ok.inj h; simp [setN, List.length_set]
  split at h
  · cases Except.ok.inj h; simp [setN, List.length_set]
  · exact Except.noConfusion h

theorem erase_move_step_len {c : Ctx} {s s' : TState} {del n x : Nat}
    (h : erase_move_step c s del n x = .ok s') : s'.nodes.length = s.nodes.length := by
  unfold erase_move_step at h
  split at h
  · try dsimp only at h
    obtain ⟨a, ha, h⟩ := exceptBind_ok h
    try dsimp only at h
    have h2 := congrArg List.length (update_sum_r_nodes _ _ _ _ h)
    have h3 := erase_move_relink_len ha
    simp only [apply_ite (fun t : TState => t.nodes.length), setN, List.length_set,
      ite_self] at h3
    rw [h2]
    simp only [apply_ite (fun t : TState => t.nodes.length), setN, List.length_set,
      ite_self]
    exact h3
  · cases Except.ok.inj h; rfl

theorem erase_len {c : Ctx} {s s' : TState} {n x : Nat}
    (h : erase c s n = .ok (s', x)) : s'.nodes.length = s.nodes.length := by
  unfold erase at h
  obtain ⟨x1, hx, h⟩ := exceptBind_ok h
  dsimp only at h
  obtain ⟨s2, h2, h⟩ := exceptBind_ok h
  obtain ⟨s3, h3, h⟩ := exceptBind_ok h
  obtain ⟨s4, h4, h⟩ := exceptBind_ok h
  split at h
  · exact Except.noConfusion h
  · injection h with h'
    rw [Prod.ext_iff] at h'
    obtain ⟨ha, hb⟩ := h'
    subst ha
    show (free_node s4 n).nodes.length = _
    rw [free_node_len, erase_move_step_len h4, erase_fix_step_len h3,
      congrArg List.length (sum_sub_loop_nodes _ _ _ _ _ h2), erase_splice_len]

theorem update_value_len {c : Ctx} {s s' : TState} {n : Nat} {v : Int}
    (h : update_value c s n v = .ok s') : s'.nodes.length = s.nodes.length := by
  unfold update_value at h
  have := congrArg List.length (update_sum_r_nodes _ _ _ _ h)
  simpa [setN, List.length_set] using this

theorem clear_len (s : TState) : (clear s).nodes.length = 2 := by
  unfold clear create_sentinels clear_tree resizeL
  simp [setN, List.length_set, List.length_take]
  omega

theorem move_node_parent_fix_len {s s' : TState} {x y : Nat}
    (h : move_node_parent_fix s x y = .ok s') : s'.nodes.length = s.nodes.length := by
  unfold move_node_parent_fix at h
  try dsimp only at h
  split at h
  · split at h
    · cases Except.ok.inj h; simp [setN, List.length_set]
    · split at h
      · cases Except.ok.inj h; simp [setN, List.length_set]
      · exact Except.noConfusion h
  · exact Except.noConfusion h

theorem move_node_left_fix_len {s s' : TState} {x y : Nat}
    (h : move_node_left_fix s x y = .ok s') : s'.nodes.length = s.nodes.length := by
  unfold move_node_left_fix at h
  split at h
  · split at h
    · exact Except.noConfusion h
    · cases Except.ok.inj h; simp [setN, List.length_set]
  · cases Except.ok.inj h; rfl

theorem move_node_right_fix_len {s s' : TState} {x y : Nat}
    (h : move_node_right_fix s x y = .ok s') : s'.nodes.length = s.nodes.length := by
  unfold move_node_right_fix at h
  split at h
  · split at h
    · exact Except.noConfusion h
    · cases Except.ok.inj h; simp [setN, List.length_set]
  · cases Except.ok.inj h; rfl

theorem move_node_len {c : Ctx} {s s' : TState} {a b : Nat}
    (h : move_node c s a b = .ok s') : s'.nodes.length = s.nodes.length := by
  unfold move_node at h
  try dsimp only at h
  split at h
  · exact Except.noConfusion h
  · obtain ⟨s1, h1, h⟩ := exceptBind_ok h
    obtain ⟨s2, h2, h⟩ := exceptBind_ok h
    obtain ⟨s3, h3, h⟩ := exceptBind_ok h
    cases Except.ok.inj h
    rw [move_node_right_fix_len h3, move_node_left_fix_len h2,
      move_node_parent_fix_len h1]
    simp [setN, List.length_set, move_nv]

theorem shrink_loop_len {c : Ctx} : ∀ (fuel : Nat) (s s' : TState),
    shrink_loop c fuel s = .ok s' → s'.nodes.length ≤ s.nodes.length := by
  intro fuel
  induction fuel with
  | zero =>
    intro s s' h
    unfold shrink_loop at h
    split at h
    · cases Except.ok.inj h; exact le_rfl
    · exact Except.noConfusion h
  | succ fuel ih =>
    intro s s' h
    unfold shrink_loop at h
    split at h
    · cases Except.ok.inj h; exact le_rfl
    split at h
    · exact Except.noConfusion h
    · try dsimp only at h
      split at h
      · exact Except.noConfusion h
      · rename_i hstep heq
        split at h
        · exact Except.noConfusion h
        · have := ih _ _ h
          simp only [List.length_take] at this
          omega



theorem insert_hint_len_le {c : Ctx} {s s' : TState} {hint n : Nat} {k v : Int}
    (h : insert_hint c s hint k v = .ok (s', n)) (hle : s.nodes.length ≤ max_nodes) :
    s'.nodes.length ≤ max_nodes := by
  unfold insert_hint at h
  obtain ⟨r, hr, h⟩ := exceptBind_ok h
  dsimp only at h
  cases r with
  | noins m => cases Except.ok.inj h; exact hle
  | returnP p => exact Except.noConfusion h
  | ins m il =>
    obtain ⟨a, hnew, h⟩ := exceptBind_ok h
    obtain ⟨n1', sA⟩ := a
    dsimp only at h
    obtain ⟨sB, hh, h⟩ := exceptBind_ok h
    cases Except.ok.inj h
    have h1 := insert_helper_len hh
    have h2 := new_node_len hnew
    simp only [h1]
    rcases h2 with h2 | ⟨h2a, h2b⟩
    · omega
    · unfold max_nodes redbit at *
      omega

theorem emptyTree_len (c : Ctx) : (emptyTree c).nodes.length = 2 := by
  simp [emptyTree, create_sentinels, setN]

theorem shrink_to_fit_len_le {c : Ctx} {s s' : TState}
    (h : shrink_to_fit c s = .ok s') : s'.nodes.length ≤ s.nodes.length :=
  shrink_loop_len _ _ _ h

theorem reachA_len_le_max (c : Ctx) (s : TState) (h : ReachA c s) :
    s.nodes.length ≤ max_nodes := by
  induction h with
  | init =>
    rw [emptyTree_len]
    unfold max_nodes redbit
    omega
  | insert _ hstep ih => exact insert_len_le hstep ih
  | insert_hint _ hstep ih => exact insert_hint_len_le hstep ih
  | erase _ hstep ih => rw [erase_len hstep]; exact ih
  | update_value _ hstep ih => rw [update_value_len hstep]; exact ih
  | clear _ ih =>
    rw [clear_len]
    unfold max_nodes redbit
    omega
  | shrink _ hstep ih => exact le_trans (shrink_to_fit_len_le hstep) ih

theorem filter_range_two_le (n : Nat) :
    ((List.range n).filter fun i => decide (2 ≤ i)).length = n - 2 := by
  induction n with
  | zero => rfl
  | succ n ih =>
    rw [List.range_succ, List.filter_append]
    simp only [List.length_append, ih]
    by_cases h : 2 ≤ n
    · simp [h]
      omega
    · simp [h]
      omega

theorem live_count_le (s : TState) : live_count s ≤ s.nodes.length - 2 := by
  unfold live_count
  have hsub : ((List.range s.nodes.length).filter fun i =>
      decide (2 ≤ i ∧ ¬(getN s i).is_deleted = true)).Sublist
      ((List.range s.nodes.length).filter fun i => decide (2 ≤ i)) := by
    apply List.monotone_filter_right
    intro a ha
    simp only [decide_eq_true_eq] at ha ⊢
    exact ha.1
  calc _ ≤ _ := hsub.length_le
    _ = _ := filter_range_two_le _



/-- C8, counterexample (negation of the claim's exact count): no state
reachable by any operation sequence can hold `2^31 - 2` entries.  The claim
says that with a 32-bit index exactly `2^31 - 2` entries can be stored, but
`new_node` refuses to append once the node vector holds `max_nodes =
2^31 - 1` slots (the next index would be the reserved `Invalid` value), and
two of those slots are the sentinels, so at most `2^31 - 3` entries ever
exist. -/
theorem C8_no_state_holds_2pow31_minus_2_entries :
    ¬ ∃ s : TState, ReachA ctxRank s ∧ live_count s = 2 ^ 31 - 2 := by
  rintro ⟨s, hr, hc⟩
  have h1 := reachA_len_le_max ctxRank s hr
  have h2 := live_count_le s
  unfold max_nodes redbit at h1
  omega

/-- C8, as amended: the number of live entries of any reachable state is
at most `2^31 - 3` (the arena is capped at `max_nodes = 2^31 - 1` slots --
half the index range minus one, for the reserved `Invalid`/red-bit
patterns -- including the two sentinels), and `new_node` raises the
capacity error exactly when the free list is empty and the node vector
already holds `max_nodes` slots, i.e. exactly when an append would create
the reserved index. -/
theorem C8_capacity_bound (s : TState) (h : ReachA ctxRank s) :
    live_count s ≤ 2 ^ 31 - 3 ∧
    ∀ k v : Int, (new_node ctxRank s k v = .error .capacity ↔
      s.deleted_nodes_head = Invalid ∧ s.nodes.length = max_nodes) := by
  constructor
  · have h1 := reachA_len_le_max ctxRank s h
    have h2 := live_count_le s
    unfold max_nodes redbit at h1
    omega
  · intro k v
    constructor
    · intro he
      unfold new_node try_get_node at he
      try dsimp only at he
      split at he
      · split at he
        · exact absurd (Except.error.inj he) (by simp)
        · try dsimp only at he
          split at he <;> exact Except.noConfusion he
      · try dsimp only at he
        split at he
        · rename_i hne hlen
          refine ⟨by simpa using hne, hlen⟩
        · exact Except.noConfusion he
    · rintro ⟨h1, h2⟩
      simp only [new_node, try_get_node, h1, h2]
      rfl


/-- Witness for C8: the capacity facts instantiated at the freshly
constructed container (reachable by `ReachA.init`). -/
theorem C8_capacity_bound_witness :
    live_count (emptyTree ctxRank) ≤ 2 ^ 31 - 3 ∧
    (new_node ctxRank (emptyTree ctxRank) 7 0 = .error .capacity ↔
      (emptyTree ctxRank).deleted_nodes_head = Invalid ∧
        (emptyTree ctxRank).nodes.length = max_nodes) :=
  ⟨(C8_capacity_bound _ .init).1, (C8_capacity_bound _ .init).2 7 0⟩


theorem IsT_nodup {s : TState} {h p : Nat} {A : List Nat} (hA : IsT s h p A) :
    A.Nodup := by
  cases hA with
  | nil => exact List.nodup_nil
  | node h1 h2 h3 h4 h5 h6 h7 => exact h7

theorem IsT_mem {s : TState} {h p : Nat} {A : List Nat} (hA : IsT s h p A) :
    ∀ i ∈ A, 2 ≤ i ∧ i < s.nodes.length ∧ (getN s i).is_deleted = false := by
  induction hA with
  | nil => intro i hi; simp at hi
  | node h1 h2 h3 h4 h5 h6 h7 ihl ihr =>
    intro i hi
    rcases List.mem_cons.mp hi with rfl | hi
    · exact ⟨h1, h2, h3⟩
    · rcases List.mem_append.mp hi with hi | hi
      · exact ihl i hi
      · exact ihr i hi

theorem IsT_root_mem {s : TState} {h p : Nat} {A : List Nat} (hA : IsT s h p A)
    (hne : h ≠ NIL) : h ∈ A := by
  cases hA with
  | nil => exact absurd rfl hne
  | node h1 h2 h3 h4 h5 h6 h7 => exact List.mem_cons_self ..

theorem IsT_nil_iff {s : TState} {h p : Nat} {A : List Nat} (hA : IsT s h p A) :
    h = NIL ↔ A = [] := by
  cases hA with
  | nil => simp
  | node h1 h2 h3 h4 h5 h6 h7 =>
    constructor
    · intro hh; exact absurd hh (by unfold NIL; omega)
    · intro hh; exact List.noConfusion hh

theorem IsT_pidx {s : TState} {h p : Nat} {A : List Nat} (hA : IsT s h p A)
    (hne : h ≠ NIL) : (getN s h).pidx = p := by
  cases hA with
  | nil => exact absurd rfl hne
  | node h1 h2 h3 h4 h5 h6 h7 => exact h4

theorem IsT_unique {s : TState} {h p : Nat} {A : List Nat} (hA : IsT s h p A) :
    ∀ {p' : Nat} {A' : List Nat}, IsT s h p' A' → A = A' := by
  induction hA with
  | nil =>
    intro p' A' hA'
    cases hA' with
    | nil => rfl
    | node h1 h2 h3 h4 h5 h6 h7 => exact absurd h1 (by decide)
  | node h1 h2 h3 h4 h5 h6 h7 ihl ihr =>
    intro p' A' hA'
    cases hA' with
    | nil => exact absurd h1 (by decide)
    | node g1 g2 g3 g4 g5 g6 g7 =>
      rw [ihl g5, ihr g6]

theorem IsT_congr {s s' : TState} {h p : Nat} {A : List Nat} (hA : IsT s h p A)
    (hlen : s.nodes.length ≤ s'.nodes.length)
    (hagree : ∀ i ∈ A, (getN s' i).left = (getN s i).left ∧
      (getN s' i).right = (getN s i).right ∧ (getN s' i).pidx = (getN s i).pidx ∧
      (getN s' i).is_deleted = false) : IsT s' h p A := by
  induction hA with
  | nil => exact IsT.nil _
  | node h1 h2 h3 h4 h5 h6 h7 ihl ihr =>
    rename_i h p A B
    obtain ⟨el, er, ep, ed⟩ := hagree h (List.mem_cons_self ..)
    have hl' : IsT s' (getN s' h).left h A := by
      rw [el]
      exact ihl fun i hi => hagree i (by simp [hi])
    have hr' : IsT s' (getN s' h).right h B := by
      rw [er]
      exact ihr fun i hi => hagree i (by simp [hi])
    exact IsT.node h1 (lt_of_lt_of_le h2 hlen) ed (by rw [ep, h4]) hl' hr' h7

theorem IsT_sub {s : TState} {h p : Nat} {A : List Nat} (hA : IsT s h p A) :
    ∀ x ∈ A, ∃ Sx, IsT s x ((getN s x).pidx) Sx ∧ (∀ i ∈ Sx, i ∈ A) ∧ x ∈ Sx := by
  induction hA with
  | nil => intro x hx; simp at hx
  | node h1 h2 h3 h4 h5 h6 h7 ihl ihr =>
    rename_i h p A B
    intro x hx
    rcases List.mem_cons.mp hx with rfl | hx
    · refine ⟨x :: (A ++ B), ?_, fun i hi => hi, List.mem_cons_self ..⟩
      exact IsT.node h1 h2 h3 rfl h5 h6 h7
    · rcases List.mem_append.mp hx with hx | hx
      · obtain ⟨Sx, h1', h2', h3'⟩ := ihl x hx
        exact ⟨Sx, h1', fun i hi => by simp [h2' i hi], h3'⟩
      · obtain ⟨Sx, h1', h2', h3'⟩ := ihr x hx
        exact ⟨Sx, h1', fun i hi => by simp [h2' i hi], h3'⟩

theorem IsT_coherent_child {s : TState} {h p : Nat} {A : List Nat} (hA : IsT s h p A) :
    ∀ q ∈ A, ∀ o, ((getN s q).left = o ∨ (getN s q).right = o) → o ≠ NIL →
      o ∈ A ∧ (getN s o).pidx = q := by
  induction hA with
  | nil => intro q hq; simp at hq
  | node h1 h2 h3 h4 h5 h6 h7 ihl ihr =>
    rename_i h p A B
    intro q hq o ho hne
    rcases List.mem_cons.mp hq with rfl | hq
    · rcases ho with ho | ho
      · rw [ho] at h5
        exact ⟨by simp [IsT_root_mem h5 hne], IsT_pidx h5 hne⟩
      · rw [ho] at h6
        exact ⟨by simp [IsT_root_mem h6 hne], IsT_pidx h6 hne⟩
    · rcases List.mem_append.mp hq with hq | hq
      · obtain ⟨hm, hp'⟩ := ihl q hq o ho hne
        exact ⟨by simp [hm], hp'⟩
      · obtain ⟨hm, hp'⟩ := ihr q hq o ho hne
        exact ⟨by simp [hm], hp'⟩

theorem IsT_parent_child {s : TState} {h p : Nat} {A : List Nat} (hA : IsT s h p A) :
    ∀ i ∈ A, i = h ∨ ((getN s i).pidx ∈ A ∧
      ((getN s (getN s i).pidx).left = i ∨ (getN s (getN s i).pidx).right = i)) := by
  induction hA with
  | nil => intro i hi; simp at hi
  | node h1 h2 h3 h4 h5 h6 h7 ihl ihr =>
    rename_i h p A B
    intro i hi
    rcases List.mem_cons.mp hi with rfl | hi
    · exact Or.inl rfl
    · right
      rcases List.mem_append.mp hi with hi' | hi'
      · rcases ihl i hi' with hieq | ⟨hm, hpo⟩
        · have hne : i ≠ NIL := by
            have := IsT_mem h5 i hi'
            simp only [NIL]
            omega
          subst hieq
          rw [IsT_pidx h5 hne]
          exact ⟨List.mem_cons_self .., Or.inl rfl⟩
        · exact ⟨by simp [hm], hpo⟩
      · rcases ihr i hi' with hieq | ⟨hm, hpo⟩
        · have hne : i ≠ NIL := by
            have := IsT_mem h6 i hi'
            simp only [NIL]
            omega
          subst hieq
          rw [IsT_pidx h6 hne]
          exact ⟨List.mem_cons_self .., Or.inr rfl⟩
        · exact ⟨by simp [hm], hpo⟩

theorem UpPath_snoc {s : TState} {n m : Nat} {L : List Nat} (hL : UpPath s n m L) :
    ∀ {t : Nat}, (∀ i ∈ L, i ≠ t) → (getN s m).pidx = t → UpPath s n t (L ++ [t]) := by
  induction hL with
  | self m =>
    intro t hall hp
    refine UpPath.step (hall m (by simp)) ?_
    rw [hp]
    exact UpPath.self t
  | step hne hL ih =>
    rename_i n m L
    intro t hall hp
    exact UpPath.step (hall n (by simp)) (ih (fun i hi => hall i (by simp [hi])) hp)

theorem UpPath_head_mem {s : TState} {n t : Nat} {L : List Nat} (hL : UpPath s n t L) :
    n ∈ L := by
  cases hL with
  | self => exact List.mem_cons_self ..
  | step hne hL => exact List.mem_cons_self ..

theorem UpPath_succ_mem {s : TState} {n t : Nat} {L : List Nat} (hL : UpPath s n t L) :
    ∀ o ∈ L, o = t ∨ (getN s o).pidx ∈ L := by
  induction hL with
  | self m => intro o ho; simp at ho; simp [ho]
  | step hne hL ih =>
    rename_i n t L
    intro o ho
    rcases List.mem_cons.mp ho with rfl | ho
    · right
      simp [List.mem_cons.mpr (Or.inl rfl), UpPath_head_mem hL]
    · rcases ih o ho with rfl | hm
      · exact Or.inl rfl
      · exact Or.inr (by simp [hm])

theorem IsT_path {s : TState} {h p : Nat} {A : List Nat} (hA : IsT s h p A) :
    ∀ n ∈ A, ∃ L, UpPath s n h L ∧ (∀ i ∈ L, i ∈ A) ∧ L.Nodup := by
  induction hA with
  | nil => intro n hn; simp at hn
  | node h1 h2 h3 h4 h5 h6 h7 ihl ihr =>
    rename_i h p A B
    intro n hn
    rcases List.mem_cons.mp hn with rfl | hn
    · exact ⟨[n], UpPath.self n, by simp, List.nodup_singleton n⟩
    · have hnotA : h ∉ A ++ B := (List.nodup_cons.mp h7).1
      rcases List.mem_append.mp hn with hn' | hn'
      · obtain ⟨L1, hp1, hs1, hn1⟩ := ihl n hn'
        have hlne : (getN s h).left ≠ NIL := by
          intro hz
          rw [(IsT_nil_iff h5).mp hz] at hn'
          simp at hn'
        refine ⟨L1 ++ [h], ?_, ?_, ?_⟩
        · exact UpPath_snoc hp1
            (fun i hi hz => hnotA (hz ▸ List.mem_append.mpr (Or.inl (hs1 i hi))))
            (IsT_pidx h5 hlne)
        · intro i hi
          rcases List.mem_append.mp hi with hi | hi
          · simp [List.mem_append.mpr (Or.inl (hs1 i hi))]
          · simp at hi
            simp [hi]
        · rw [List.nodup_append]
          exact ⟨hn1, List.nodup_singleton h,
            fun i hi hz => hnotA ((List.mem_singleton.mp hz) ▸
              List.mem_append.mpr (Or.inl (hs1 i hi)))⟩
      · obtain ⟨L1, hp1, hs1, hn1⟩ := ihr n hn'
        have hlne : (getN s h).right ≠ NIL := by
          intro hz
          rw [(IsT_nil_iff h6).mp hz] at hn'
          simp at hn'
        refine ⟨L1 ++ [h], ?_, ?_, ?_⟩
        · exact UpPath_snoc hp1
            (fun i hi hz => hnotA (hz ▸ List.mem_append.mpr (Or.inr (hs1 i hi))))
            (IsT_pidx h6 hlne)
        · intro i hi
          rcases List.mem_append.mp hi with hi | hi
          · simp [List.mem_append.mpr (Or.inr (hs1 i hi))]
          · simp at hi
            simp [hi]
        · rw [List.nodup_append]
          exact ⟨hn1, List.nodup_singleton h,
            fun i hi hz => hnotA ((List.mem_singleton.mp hz) ▸
              List.mem_append.mpr (Or.inr (hs1 i hi)))⟩

theorem FreeL_mem {s : TState} {pr h : Nat} {F : List Nat} (hF : FreeL s pr h F) :
    ∀ i ∈ F, 2 ≤ i ∧ i < s.nodes.length ∧ (getN s i).is_deleted = true := by
  induction hF with
  | nil => intro i hi; simp at hi
  | cons h1 h2 h3 h4 h5 h6 ih =>
    intro i hi
    rcases List.mem_cons.mp hi with rfl | hi
    · exact ⟨h1, h2, h3⟩
    · exact ih i hi

theorem FreeL_congr {s s' : TState} {pr h : Nat} {F : List Nat} (hF : FreeL s pr h F)
    (hlen : s.nodes.length ≤ s'.nodes.length)
    (hagree : ∀ i ∈ F, (getN s' i).left = (getN s i).left ∧
      (getN s' i).right = (getN s i).right ∧ (getN s' i).is_deleted = true) :
    FreeL s' pr h F := by
  induction hF with
  | nil => exact FreeL.nil _
  | cons h1 h2 h3 h4 h5 h6 ih =>
    rename_i pr h L
    obtain ⟨el, er, ed⟩ := hagree h (List.mem_cons_self ..)
    refine FreeL.cons h1 (lt_of_lt_of_le h2 hlen) ed (by rw [er, h4]) ?_ h6
    rw [el]
    exact ih fun i hi => hagree i (by simp [hi])

/-- Length of a child's counted sum: always the weight arity. -/
theorem csum_length (c : Ctx) (s : TState) (h : Nat) : (csum c s h).length = c.D := by
  unfold csum
  split
  · simp
  · exact get_node_sum_length ..

/-- `set_node_sum` at another handle leaves a counted child sum
unchanged. -/
theorem csum_set_ne {c : Ctx} {s : TState} {m o : Nat} {xs : List Int}
    (hne : o ≠ m) (hx : xs.length ≤ c.D) :
    csum c (set_node_sum c s m xs) o = csum c s o := by
  unfold csum
  split
  · rfl
  · exact get_node_sum_set_ne hne hx

/-- The value a successful `update_sum` writes: the node's own weight plus
the counted sums of its children, and nothing else changes. -/
theorem update_sum_ok {c : Ctx} (hf : ∀ k v, (c.f k v).length = c.D)
    {s s' : TState} {n : Nat} (h : update_sum c s n = .ok s') :
    s' = set_node_sum c s n
      (addL (addL (get_node_grvalue c s n) (csum c s (getN s n).left))
        (csum c s (getN s n).right)) := by
  have hzl : ∀ m : Nat, m = NIL → csum c s m = List.replicate c.D 0 := by
    intro m hm
    unfold csum
    rw [if_pos hm]
  have hglen : (get_node_grvalue c s n).length = c.D := by
    unfold get_node_grvalue
    rw [hf]
  unfold update_sum at h
  dsimp only at h
  split at h
  case isTrue hl =>
    obtain ⟨u, hu, h⟩ := exceptBind_ok h
    have hu' : u = addL (get_node_grvalue c s n) (csum c s (getN s n).left) := by
      rw [NVAdd_ok_eq hu]
      unfold csum
      rw [if_neg hl]
    have hulen : u.length = c.D := by
      rw [hu', addL_length, hglen, csum_length]
      simp
    split at h
    case isTrue hr =>
      obtain ⟨w, hw, h⟩ := exceptBind_ok h
      cases Except.ok.inj h
      have hw' : w = addL u (csum c s (getN s n).right) := by
        rw [NVAdd_ok_eq hw]
        unfold csum
        rw [if_neg hr]
      rw [hw', hu']
    case isFalse hr =>
      obtain ⟨w, hw, h⟩ := exceptBind_ok h
      cases Except.ok.inj hw
      cases Except.ok.inj h
      rw [hzl ((getN s n).right) (by simpa using hr),
        addL_zero_right _ _ (by rw [addL_length, hglen, csum_length]; simp), hu']
  case isFalse hl =>
    obtain ⟨u, hu, h⟩ := exceptBind_ok h
    cases Except.ok.inj hu
    have hu' : get_node_grvalue c s n =
        addL (get_node_grvalue c s n) (csum c s (getN s n).left) := by
      rw [hzl _ (by simpa using hl), addL_zero_right _ _ hglen]
    split at h
    case isTrue hr =>
      obtain ⟨w, hw, h⟩ := exceptBind_ok h
      cases Except.ok.inj h
      have hw' : w = addL (get_node_grvalue c s n) (csum c s (getN s n).right) := by
        rw [NVAdd_ok_eq hw]
        unfold csum
        rw [if_neg hr]
      rw [hw', hzl ((getN s n).left) (by simpa using hl), addL_zero_right _ _ hglen]
    case isFalse hr =>
      obtain ⟨w, hw, h⟩ := exceptBind_ok h
      cases Except.ok.inj hw
      cases Except.ok.inj h
      rw [hzl ((getN s n).left) (by simpa using hl),
        hzl ((getN s n).right) (by simpa using hr),
        addL_zero_right _ _ hglen, addL_zero_right _ _ hglen]

/-- Parent chains only read the `pidx` fields of their members. -/
theorem UpPath_congr {s s' : TState} {n t : Nat} {L : List Nat} (h : UpPath s n t L)
    (hag : ∀ i ∈ L, (getN s' i).pidx = (getN s i).pidx) : UpPath s' n t L := by
  induction h with
  | self t => exact UpPath.self t
  | step hne hL ih =>
    rename_i n t L
    refine UpPath.step hne ?_
    rw [hag n (by simp)]
    exact ih fun i hi => hag i (by simp [hi])

/-- Inversion principle for parent chains. -/
theorem UpPath_cases {s : TState} {n t : Nat} {L : List Nat} (h : UpPath s n t L) :
    (n = t ∧ L = [n]) ∨
    (n ≠ t ∧ ∃ L', L = n :: L' ∧ UpPath s ((getN s n).pidx) t L') := by
  cases h with
  | self => exact Or.inl ⟨rfl, rfl⟩
  | step hne h => exact Or.inr ⟨hne, _, rfl, h⟩

/-- Characterization of a successful bottom-up sum rebuild
(`update_sum_r`) along a parent chain ending below the root sentinel: the
node arena is untouched, sums off the chain are untouched, and every chain
member ends up satisfying its augmentation equation with respect to the
final child sums. -/
theorem update_sum_r_chain {c : Ctx} (hf : ∀ k v, (c.f k v).length = c.D) :
    ∀ (fuel : Nat) (s s'' : TState) (n t : Nat) (L : List Nat),
    UpPath s n t L → L.Nodup → (getN s t).pidx = ROOT →
    (∀ m ∈ L, 2 ≤ m ∧ m < s.nodes.length) →
    (∀ m ∈ L, ∀ o, ((getN s m).left = o ∨ (getN s m).right = o) → o ∈ L →
      o ≠ NIL ∧ (getN s o).pidx = m) →
    s.nvarray.length = s.nodes.length * c.D →
    update_sum_r c fuel s n = .ok s'' →
    s''.nodes = s.nodes ∧ s''.nvarray.length = s.nvarray.length ∧
    s''.n_del = s.n_del ∧ s''.deleted_nodes_head = s.deleted_nodes_head ∧
    s''.size1 = s.size1 ∧
    (∀ i, i ∉ L → get_node_sum c s'' i = get_node_sum c s i) ∧
    (∀ m ∈ L, get_node_sum c s'' m =
      addL (addL (get_node_grvalue c s m) (csum c s'' (getN s m).left))
        (csum c s'' (getN s m).right)) := by
  intro fuel
  induction fuel with
  | zero =>
    intro s s'' n t L hL hnd htop hmem hsep hnv h
    unfold update_sum_r at h
    have h2 : 2 ≤ n := (hmem n (UpPath_head_mem hL)).1
    rw [if_neg (by unfold ROOT; omega)] at h
    exact Except.noConfusion h
  | succ fuel ih =>
    intro s s'' n t L hL hnd htop hmem hsep hnv h
    have h2 : 2 ≤ n := (hmem n (UpPath_head_mem hL)).1
    have hblt : n < s.nodes.length := (hmem n (UpPath_head_mem hL)).2
    unfold update_sum_r at h
    rw [if_neg (by unfold ROOT; omega)] at h
    obtain ⟨s1, hs1, h⟩ := exceptBind_ok h
    have hs1' := update_sum_ok hf hs1
    subst hs1'
    set v := addL (addL (get_node_grvalue c s n) (csum c s (getN s n).left))
      (csum c s (getN s n).right) with hv
    have hvlen : v.length = c.D := by
      rw [hv, addL_length, addL_length]
      unfold get_node_grvalue
      rw [hf, csum_length, csum_length]
      simp
    have hsum_frame : ∀ i, i ≠ n →
        get_node_sum c (set_node_sum c s n v) i = get_node_sum c s i :=
      fun i hi => get_node_sum_set_ne hi (le_of_eq hvlen)
    have hsum_n : get_node_sum c (set_node_sum c s n v) n = v :=
      get_node_sum_set_eq (by rw [hnv]; exact Nat.mul_le_mul_right _ hblt) hvlen
    rcases UpPath_cases hL with ⟨heq, hLeq⟩ | ⟨hne, L', hLeq, hL'⟩
    · -- n = t: the next stop is the root sentinel, where the walk ends
      subst heq
      subst hLeq
      have hpid : (getN (set_node_sum c s n v) n).get_parent = ROOT := htop
      rw [hpid] at h
      have hstop : s'' = set_node_sum c s n v := by
        cases fuel with
        | zero =>
          unfold update_sum_r at h
          rw [if_pos rfl] at h
          exact (Except.ok.inj h).symm
        | succ fuel' =>
          unfold update_sum_r at h
          rw [if_pos rfl] at h
          exact (Except.ok.inj h).symm
      subst hstop
      refine ⟨rfl, set_node_sum_nvlen .., rfl, rfl, rfl, ?_, ?_⟩
      · intro i hi
        exact hsum_frame i (by simp at hi; exact hi)
      · intro m hm
        rw [List.mem_singleton] at hm
        rw [hm]
        have hchild : ∀ o, ((getN s n).left = o ∨ (getN s n).right = o) → o ≠ n := by
          intro o ho hom
          rw [hom] at ho
          have hco := (hsep n (by simp) n ho (by simp)).2
          unfold ROOT at htop
          omega
        rw [hsum_n, hv]
        rw [csum_set_ne (hchild _ (Or.inl rfl)) (le_of_eq hvlen),
          csum_set_ne (hchild _ (Or.inr rfl)) (le_of_eq hvlen)]
    · -- the walk continues at the parent
      subst hLeq
      have hpid : (getN (set_node_sum c s n v) n).get_parent = (getN s n).pidx := rfl
      rw [hpid] at h
      have hLs1 : UpPath (set_node_sum c s n v) ((getN s n).pidx) t L' :=
        UpPath_congr hL' fun i hi => rfl
      have hnotn : n ∉ L' := (List.nodup_cons.mp hnd).1
      obtain ⟨e1, e2, e3, e4, e5, hframe, hchain⟩ :=
        ih (set_node_sum c s n v) s'' ((getN s n).pidx) t L' hLs1
          ((List.nodup_cons.mp hnd).2) htop
          (fun m hm => hmem m (by simp [hm]))
          (fun m hm o ho hoL => hsep m (by simp [hm]) o ho (by simp [hoL]))
          (by rw [set_node_sum_nvlen]; exact hnv)
          h
      have hchild_off : ∀ o, ((getN s n).left = o ∨ (getN s n).right = o) →
          o ∈ (n :: L') → False := by
        intro o ho hoL
        obtain ⟨honil, hop⟩ := hsep n (by simp) o ho hoL
        rcases List.mem_cons.mp hoL with hon | hoL'
        · rw [hon] at hop
          have hmem' : (getN s n).pidx ∈ L' := UpPath_head_mem hL'
          rw [hop] at hmem'
          exact hnotn hmem'
        · rcases UpPath_succ_mem hL' o hoL' with hot | hm
          · rw [hot, htop] at hop
            unfold ROOT at hop
            omega
          · rw [hop] at hm
            exact hnotn hm
      refine ⟨by rw [e1]; rfl, by rw [e2, set_node_sum_nvlen], by rw [e3]; rfl,
        by rw [e4]; rfl, by rw [e5]; rfl, ?_, ?_⟩
      · intro i hi
        simp at hi
        rw [hframe i hi.2, hsum_frame i hi.1]
      · intro m hm
        rcases List.mem_cons.mp hm with rfl | hm'
        · rw [hframe m hnotn, hsum_n, hv]
          have hl : csum c s'' (getN s m).left = csum c s (getN s m).left := by
            by_cases hz : (getN s m).left = NIL
            · rw [hz]; rfl
            · unfold csum
              rw [if_neg hz, if_neg hz]
              have hoff : (getN s m).left ∉ (m :: L') :=
                fun hc => hchild_off _ (Or.inl rfl) hc
              rw [hframe _ (fun hc => hoff (by simp [hc])),
                hsum_frame _ (fun hc => hoff (by simp [hc]))]
          have hr : csum c s'' (getN s m).right = csum c s (getN s m).right := by
            by_cases hz : (getN s m).right = NIL
            · rw [hz]; rfl
            · unfold csum
              rw [if_neg hz, if_neg hz]
              have hoff : (getN s m).right ∉ (m :: L') :=
                fun hc => hchild_off _ (Or.inr rfl) hc
              rw [hframe _ (fun hc => hoff (by simp [hc])),
                hsum_frame _ (fun hc => hoff (by simp [hc]))]
          rw [hl, hr]
        · exact hchain m hm'

/-- Length of a componentwise difference. -/
theorem subL_length (xs ys : List Int) : (subL xs ys).length = min xs.length ys.length :=
  List.length_zipWith ..

/-- Characterization of a successful ancestor sum increment
(`sum_add_loop` of `insert_helper`) along a parent chain ending below the
root sentinel: every chain member's stored sum gains `d`, nothing else
changes. -/
theorem sum_add_loop_char {c : Ctx} :
    ∀ (fuel : Nat) (s s' : TState) (n t : Nat) (L : List Nat) (d : List Int),
    UpPath s n t L → L.Nodup → (getN s t).pidx = ROOT →
    (∀ m ∈ L, 2 ≤ m ∧ m < s.nodes.length) →
    s.nvarray.length = s.nodes.length * c.D → d.length = c.D →
    sum_add_loop c fuel s n d = .ok s' →
    s'.nodes = s.nodes ∧ s'.nvarray.length = s.nvarray.length ∧
    s'.n_del = s.n_del ∧ s'.deleted_nodes_head = s.deleted_nodes_head ∧
    s'.size1 = s.size1 ∧
    (∀ i, i ∉ L → get_node_sum c s' i = get_node_sum c s i) ∧
    (∀ m ∈ L, get_node_sum c s' m = addL (get_node_sum c s m) d) := by
  intro fuel
  induction fuel with
  | zero =>
    intro s s' n t L d hL hnd htop hmem hnv hd h
    unfold sum_add_loop at h
    have h2 : 2 ≤ n := (hmem n (UpPath_head_mem hL)).1
    rw [if_neg (by unfold ROOT; omega)] at h
    exact Except.noConfusion h
  | succ fuel ih =>
    intro s s' n t L d hL hnd htop hmem hnv hd h
    have h2 : 2 ≤ n := (hmem n (UpPath_head_mem hL)).1
    have hblt : n < s.nodes.length := (hmem n (UpPath_head_mem hL)).2
    unfold sum_add_loop at h
    rw [if_neg (by unfold ROOT; omega)] at h
    obtain ⟨tmp, htmp, h⟩ := exceptBind_ok h
    dsimp only at h
    have htmp' : tmp = addL (get_node_sum c s n) d := NVAdd_ok_eq htmp
    have htlen : tmp.length = c.D := by
      rw [htmp', addL_length, get_node_sum_length, hd]
      simp
    have hsum_frame : ∀ i, i ≠ n →
        get_node_sum c (set_node_sum c s n tmp) i = get_node_sum c s i :=
      fun i hi => get_node_sum_set_ne hi (le_of_eq htlen)
    have hsum_n : get_node_sum c (set_node_sum c s n tmp) n = tmp :=
      get_node_sum_set_eq (by rw [hnv]; exact Nat.mul_le_mul_right _ hblt) htlen
    rcases UpPath_cases hL with ⟨heq, hLeq⟩ | ⟨hne, L', hLeq, hL'⟩
    · subst heq
      subst hLeq
      have hpid : (getN (set_node_sum c s n tmp) n).get_parent = ROOT := htop
      rw [hpid] at h
      have hstop : s' = set_node_sum c s n tmp := by
        cases fuel with
        | zero =>
          unfold sum_add_loop at h
          rw [if_pos rfl] at h
          exact (Except.ok.inj h).symm
        | succ fuel' =>
          unfold sum_add_loop at h
          rw [if_pos rfl] at h
          exact (Except.ok.inj h).symm
      subst hstop
      refine ⟨rfl, set_node_sum_nvlen .., rfl, rfl, rfl, ?_, ?_⟩
      · intro i hi
        exact hsum_frame i (by simp at hi; exact hi)
      · intro m hm
        rw [List.mem_singleton] at hm
        rw [hm, hsum_n, htmp']
    · subst hLeq
      have hpid : (getN (set_node_sum c s n tmp) n).get_parent = (getN s n).pidx := rfl
      rw [hpid] at h
      have hnotn : n ∉ L' := (List.nodup_cons.mp hnd).1
      obtain ⟨e1, e2, e3, e4, e5, hframe, hchain⟩ :=
        ih (set_node_sum c s n tmp) s' ((getN s n).pidx) t L' d
          (UpPath_congr hL' fun i hi => rfl)
          ((List.nodup_cons.mp hnd).2) htop
          (fun m hm => hmem m (by simp [hm]))
          (by rw [set_node_sum_nvlen]; exact hnv) hd
          h
      refine ⟨by rw [e1]; rfl, by rw [e2, set_node_sum_nvlen], by rw [e3]; rfl,
        by rw [e4]; rfl, by rw [e5]; rfl, ?_, ?_⟩
      · intro i hi
        simp at hi
        rw [hframe i hi.2, hsum_frame i hi.1]
      · intro m hm
        rcases List.mem_cons.mp hm with hmn | hm'
        · rw [hmn, hframe n hnotn, hsum_n, htmp']
        · rw [hchain m hm', hsum_frame m (by intro hc; rw [hc] at hm'; exact hnotn hm')]

/-- Characterization of a successful ancestor sum decrement (`sum_sub_loop`
of `erase`), the mirror image of `sum_add_loop_char`. -/
theorem sum_sub_loop_char {c : Ctx} :
    ∀ (fuel : Nat) (s s' : TState) (n t : Nat) (L : List Nat) (d : List Int),
    UpPath s n t L → L.Nodup → (getN s t).pidx = ROOT →
    (∀ m ∈ L, 2 ≤ m ∧ m < s.nodes.length) →
    s.nvarray.length = s.nodes.length * c.D → d.length = c.D →
    sum_sub_loop c fuel s n d = .ok s' →
    s'.nodes = s.nodes ∧ s'.nvarray.length = s.nvarray.length ∧
    s'.n_del = s.n_del ∧ s'.deleted_nodes_head = s.deleted_nodes_head ∧
    s'.size1 = s.size1 ∧
    (∀ i, i ∉ L → get_node_sum c s' i = get_node_sum c s i) ∧
    (∀ m ∈ L, get_node_sum c s' m = subL (get_node_sum c s m) d) := by
  intro fuel
  induction fuel with
  | zero =>
    intro s s' n t L d hL hnd htop hmem hnv hd h
    unfold sum_sub_loop at h
    have h2 : 2 ≤ n := (hmem n (UpPath_head_mem hL)).1
    rw [if_neg (by unfold ROOT; omega)] at h
    exact Except.noConfusion h
  | succ fuel ih =>
    intro s s' n t L d hL hnd htop hmem hnv hd h
    have h2 : 2 ≤ n := (hmem n (UpPath_head_mem hL)).1
    have hblt : n < s.nodes.length := (hmem n (UpPath_head_mem hL)).2
    unfold sum_sub_loop at h
    rw [if_neg (by unfold ROOT; omega)] at h
    obtain ⟨tmp, htmp, h⟩ := exceptBind_ok h
    dsimp only at h
    have htmp' : tmp = subL (get_node_sum c s n) d := NVSubtract_ok_eq htmp
    have htlen : tmp.length = c.D := by
      rw [htmp', subL_length, get_node_sum_length, hd]
      simp
    have hsum_frame : ∀ i, i ≠ n →
        get_node_sum c (set_node_sum c s n tmp) i = get_node_sum c s i :=
      fun i hi => get_node_sum_set_ne hi (le_of_eq htlen)
    have hsum_n : get_node_sum c (set_node_sum c s n tmp) n = tmp :=
      get_node_sum_set_eq (by rw [hnv]; exact Nat.mul_le_mul_right _ hblt) htlen
    rcases UpPath_cases hL with ⟨heq, hLeq⟩ | ⟨hne, L', hLeq, hL'⟩
    · subst heq
      subst hLeq
      have hpid : (getN (set_node_sum c s n tmp) n).get_parent = ROOT := htop
      rw [hpid] at h
      have hstop : s' = set_node_sum c s n tmp := by
        cases fuel with
        | zero =>
          unfold sum_sub_loop at h
          rw [if_pos rfl] at h
          exact (Except.ok.inj h).symm
        | succ fuel' =>
          unfold sum_sub_loop at h
          rw [if_pos rfl] at h
          exact (Except.ok.inj h).symm
      subst hstop
      refine ⟨rfl, set_node_sum_nvlen .., rfl, rfl, rfl, ?_, ?_⟩
      · intro i hi
        exact hsum_frame i (by simp at hi; exact hi)
      · intro m hm
        rw [List.mem_singleton] at hm
        rw [hm, hsum_n, htmp']
    · subst hLeq
      have hpid : (getN (set_node_sum c s n tmp) n).get_parent = (getN s n).pidx := rfl
      rw [hpid] at h
      have hnotn : n ∉ L' := (List.nodup_cons.mp hnd).1
      obtain ⟨e1, e2, e3, e4, e5, hframe, hchain⟩ :=
        ih (set_node_sum c s n tmp) s' ((getN s n).pidx) t L' d
          (UpPath_congr hL' fun i hi => rfl)
          ((List.nodup_cons.mp hnd).2) htop
          (fun m hm => hmem m (by simp [hm]))
          (by rw [set_node_sum_nvlen]; exact hnv) hd
          h
      refine ⟨by rw [e1]; rfl, by rw [e2, set_node_sum_nvlen], by rw [e3]; rfl,
        by rw [e4]; rfl, by rw [e5]; rfl, ?_, ?_⟩
      · intro i hi
        simp at hi
        rw [hframe i hi.2, hsum_frame i hi.1]
      · intro m hm
        rcases List.mem_cons.mp hm with hmn | hm'
        · rw [hmn, hframe n hnotn, hsum_n, htmp']
        · rw [hchain m hm', hsum_frame m (by intro hc; rw [hc] at hm'; exact hnotn hm')]

/-- A real handle cannot be both children of one tree node. -/
theorem IsT_child_unique {s : TState} {h p : Nat} {A : List Nat} (hA : IsT s h p A)
    {q x : Nat} (hq : q ∈ A) (hx : x ≠ NIL)
    (hl : (getN s q).left = x) (hr : (getN s q).right = x) : False := by
  obtain ⟨Sq, hSq, hsub, hself⟩ := IsT_sub hA q hq
  cases hSq with
  | nil pq =>
    have hb := (IsT_mem hA NIL hq).1
    simp only [NIL] at hb
    omega
  | node h1 h2 h3 h4 h5 h6 h7 =>
    rw [hl] at h5
    rw [hr] at h6
    have hxl := IsT_root_mem h5 hx
    have hxr := IsT_root_mem h6 hx
    rw [List.nodup_cons, List.nodup_append] at h7
    exact h7.2.2.2 hxl hxr

/-- Grafting a replacement subtree into a well-formed tree: if `x`'s
subtree (listing `Sx`) is replaced in the new state `s'` by a tree rooted
at `x'` (listing `S'`, hanging off the same parent), every other tree node
keeps its links -- except the parent, whose child pointer to `x` now names
`x'` -- and the replacement handles are either recycled from `Sx` or fresh,
then the whole tree is again well formed, with `Sx` swapped out for `S'`
in its handle list. -/
theorem IsT_graft {s s' : TState} {h p : Nat} {A : List Nat} (hA : IsT s h p A) :
    ∀ {x : Nat} {Sx : List Nat}, x ∈ A → IsT s x ((getN s x).pidx) Sx →
    ∀ {x' : Nat} {S' : List Nat}, IsT s' x' ((getN s x).pidx) S' →
    (∀ i ∈ S', i ∈ Sx ∨ i ∉ A) →
    s.nodes.length ≤ s'.nodes.length →
    (∀ i ∈ A, i ∉ Sx → i ≠ (getN s x).pidx →
      (getN s' i).left = (getN s i).left ∧ (getN s' i).right = (getN s i).right ∧
      (getN s' i).pidx = (getN s i).pidx ∧ (getN s' i).is_deleted = false) →
    (x = h ∨
      ((getN s' ((getN s x).pidx)).left =
          (if (getN s ((getN s x).pidx)).left = x then x'
            else (getN s ((getN s x).pidx)).left) ∧
       (getN s' ((getN s x).pidx)).right =
          (if (getN s ((getN s x).pidx)).right = x then x'
            else (getN s ((getN s x).pidx)).right) ∧
       (getN s' ((getN s x).pidx)).pidx = (getN s ((getN s x).pidx)).pidx ∧
       (getN s' ((getN s x).pidx)).is_deleted = false)) →
    ∃ A', IsT s' (if x = h then x' else h) p A' ∧
      (∀ i, i ∈ A' ↔ (i ∈ A ∧ i ∉ Sx) ∨ i ∈ S') := by
  induction hA with
  | nil => intro x Sx hx; simp at hx
  | node h1 h2 h3 h4 h5 h6 h7 ihl ihr =>
    rename_i h p AL AR
    intro x Sx hx hsub x' S' hS' hfresh hlen hframe hq
    by_cases hxh : x = h
    · -- the whole tree is replaced
      subst hxh
      have hSxA : Sx = x :: (AL ++ AR) :=
        (IsT_unique hsub (IsT.node h1 h2 h3 rfl h5 h6 h7)).symm ▸ rfl
      have hpx : (getN s x).pidx = p := h4
      rw [if_pos rfl]
      refine ⟨S', by rw [← hpx]; exact hS', ?_⟩
      intro i
      constructor
      · intro hi; exact Or.inr hi
      · intro hi
        rcases hi with ⟨hiA, hiSx⟩ | hi
        · exact absurd (by rw [hSxA]; exact hiA) hiSx
        · exact hi
    · rw [if_neg hxh]
      have hxAB : x ∈ AL ++ AR := by
        rcases List.mem_cons.mp hx with hc | hc
        · exact absurd hc hxh
        · exact hc
      have hnd := h7
      rw [List.nodup_cons, List.nodup_append] at hnd
      obtain ⟨hhAB, hALnd, hARnd, hdisj⟩ := hnd
      have hhAL : h ∉ AL := fun hc => hhAB (List.mem_append.mpr (Or.inl hc))
      have hhAR : h ∉ AR := fun hc => hhAB (List.mem_append.mpr (Or.inr hc))
      rcases List.mem_append.mp hxAB with hxL | hxR
      · -- x lives in the left subtree
        obtain ⟨Sx0, hSx0, hSx0sub, _⟩ := IsT_sub h5 x hxL
        have hSxeq : Sx = Sx0 := IsT_unique hsub hSx0
        have hSxAL : ∀ i ∈ Sx, i ∈ AL := fun i hi => hSx0sub i (hSxeq ▸ hi)
        have hfreshL : ∀ i ∈ S', i ∈ Sx ∨ i ∉ AL := by
          intro i hi
          rcases hfresh i hi with hm | hm
          · exact Or.inl hm
          · exact Or.inr fun hc => hm (by simp [hc])
        have hqL : x = (getN s h).left ∨
            ((getN s' ((getN s x).pidx)).left =
                (if (getN s ((getN s x).pidx)).left = x then x'
                  else (getN s ((getN s x).pidx)).left) ∧
             (getN s' ((getN s x).pidx)).right =
                (if (getN s ((getN s x).pidx)).right = x then x'
                  else (getN s ((getN s x).pidx)).right) ∧
             (getN s' ((getN s x).pidx)).pidx = (getN s ((getN s x).pidx)).pidx ∧
             (getN s' ((getN s x).pidx)).is_deleted = false) := by
          rcases hq with hc | hc
          · exact absurd hc hxh
          · exact Or.inr hc
        obtain ⟨AL', hAL', hALmem⟩ :=
          ihl hxL hsub hS' hfreshL hlen
            (fun i hi hi2 hi3 => hframe i (by simp [hi]) hi2 hi3) hqL
        -- the untouched right subtree
        have hxnotAR : ∀ i ∈ Sx, i ∉ AR := fun i hi hc => hdisj (hSxAL i hi) hc
        have hqne : ∀ i ∈ AR, i ≠ (getN s x).pidx := by
          intro i hi hc
          have hxne : x ≠ NIL := by
            have := (IsT_mem h5 x hxL).1
            simp only [NIL]
            omega
          rcases IsT_parent_child h5 x hxL with hc2 | ⟨hc2, _⟩
          · -- x is the left child of h itself
            have : (getN s x).pidx = h := by
              rw [hc2] at hxL ⊢
              exact IsT_pidx h5 (by rw [← hc2]; exact hxne)
            rw [this] at hc
            exact hhAR (hc ▸ hi)
          · rw [← hc] at hc2
            exact hdisj hc2 hi
        have hAR' : IsT s' ((getN s h).right) h AR :=
          IsT_congr h6 hlen fun i hi =>
            (fun e => ⟨e.1, e.2.1, e.2.2.1, e.2.2.2⟩)
              (hframe i (by simp [hi]) (fun hc => hxnotAR i hc hi) (hqne i hi))
        -- rebuild the root node
        have hxne : x ≠ NIL := by
          have := (IsT_mem h5 x hxL).1
          simp only [NIL]
          omega
        have hnd' : (h :: (AL' ++ AR)).Nodup := by
          have hhAL' : h ∉ AL' := by
            intro hc
            rcases (hALmem h).mp hc with ⟨hc1, _⟩ | hc1
            · exact hhAL hc1
            · rcases hfresh h hc1 with hc2 | hc2
              · exact hhAL (hSxAL h hc2)
              · exact hc2 (List.mem_cons_self ..)
          have hdisj' : ∀ i ∈ AL', i ∉ AR := by
            intro i hi hc
            rcases (hALmem i).mp hi with ⟨hc1, _⟩ | hc1
            · exact hdisj hc1 hc
            · rcases hfresh i hc1 with hc2 | hc2
              · exact hdisj (hSxAL i hc2) hc
              · exact hc2 (by simp [hc])
          rw [List.nodup_cons, List.nodup_append]
          exact ⟨by
            intro hc
            rcases List.mem_append.mp hc with hc | hc
            · exact hhAL' hc
            · exact hhAR hc,
            IsT_nodup hAL', hARnd, hdisj'⟩
        have hmem_final : ∀ i, i ∈ (h :: (AL' ++ AR)) ↔
            ((i ∈ h :: (AL ++ AR) ∧ i ∉ Sx) ∨ i ∈ S') := by
          intro i
          constructor
          · intro hi
            rcases List.mem_cons.mp hi with rfl | hi
            · exact Or.inl ⟨List.mem_cons_self .., fun hc => hhAL (hSxAL _ hc)⟩
            · rcases List.mem_append.mp hi with hi | hi
              · rcases (hALmem i).mp hi with ⟨hc1, hc2⟩ | hc1
                · exact Or.inl ⟨by simp [hc1], hc2⟩
                · exact Or.inr hc1
              · exact Or.inl ⟨by simp [hi], fun hc => hdisj (hSxAL i hc) hi⟩
          · intro hi
            rcases hi with ⟨hi1, hi2⟩ | hi1
            · rcases List.mem_cons.mp hi1 with rfl | hi1
              · exact List.mem_cons_self ..
              · rcases List.mem_append.mp hi1 with hi1 | hi1
                · exact List.mem_cons.mpr (Or.inr (List.mem_append.mpr
                    (Or.inl ((hALmem i).mpr (Or.inl ⟨hi1, hi2⟩)))))
                · exact List.mem_cons.mpr (Or.inr (List.mem_append.mpr (Or.inr hi1)))
            · exact List.mem_cons.mpr (Or.inr (List.mem_append.mpr
                (Or.inl ((hALmem i).mpr (Or.inr hi1)))))
        by_cases hxl : x = (getN s h).left
        · -- the parent of the replaced subtree is the root itself
          have hpx : (getN s x).pidx = h := by
            rw [hxl]
            exact IsT_pidx h5 (by rw [← hxl]; exact hxne)
          rcases hq with hc | ⟨ql, qr, qp, qd⟩
          · exact absurd hc hxh
          · rw [hpx] at ql qr qp qd
            have hrne : (getN s h).right ≠ x := by
              intro hc
              exact IsT_child_unique (IsT.node h1 h2 h3 h4 h5 h6 h7)
                (List.mem_cons_self ..) hxne hxl.symm hc
            rw [if_pos hxl.symm] at ql
            rw [if_neg hrne] at qr
            refine ⟨h :: (AL' ++ AR), ?_, fun i => hmem_final i⟩
            refine IsT.node h1 (lt_of_lt_of_le h2 hlen) qd (by rw [qp, h4]) ?_ ?_ hnd'
            · rw [ql]
              rw [if_pos hxl] at hAL'
              exact hAL'
            · rw [qr]
              exact hAR'
        · -- the parent lies strictly inside the left subtree
          have hqAL : (getN s x).pidx ∈ AL := by
            rcases IsT_parent_child h5 x hxL with hc | ⟨hc, _⟩
            · exact absurd hc hxl
            · exact hc
          obtain ⟨fl, fr, fp, fd⟩ := hframe h (List.mem_cons_self ..)
            (fun hc => hhAL (hSxAL h hc)) (fun hc => hhAL (hc ▸ hqAL))
          refine ⟨h :: (AL' ++ AR), ?_, fun i => hmem_final i⟩
          refine IsT.node h1 (lt_of_lt_of_le h2 hlen) fd (by rw [fp, h4]) ?_ ?_ hnd'
          · rw [fl]
            rw [if_neg hxl] at hAL'
            exact hAL'
          · rw [fr]
            exact hAR'
      · -- x lives in the right subtree (mirror image)
        obtain ⟨Sx0, hSx0, hSx0sub, _⟩ := IsT_sub h6 x hxR
        have hSxeq : Sx = Sx0 := IsT_unique hsub hSx0
        have hSxAR : ∀ i ∈ Sx, i ∈ AR := fun i hi => hSx0sub i (hSxeq ▸ hi)
        have hfreshR : ∀ i ∈ S', i ∈ Sx ∨ i ∉ AR := by
          intro i hi
          rcases hfresh i hi with hm | hm
          · exact Or.inl hm
          · exact Or.inr fun hc => hm (by simp [hc])
        have hqR : x = (getN s h).right ∨
            ((getN s' ((getN s x).pidx)).left =
                (if (getN s ((getN s x).pidx)).left = x then x'
                  else (getN s ((getN s x).pidx)).left) ∧
             (getN s' ((getN s x).pidx)).right =
                (if (getN s ((getN s x).pidx)).right = x then x'
                  else (getN s ((getN s x).pidx)).right) ∧
             (getN s' ((getN s x).pidx)).pidx = (getN s ((getN s x).pidx)).pidx ∧
             (getN s' ((getN s x).pidx)).is_deleted = false) := by
          rcases hq with hc | hc
          · exact absurd hc hxh
          · exact Or.inr hc
        obtain ⟨AR', hAR', hARmem⟩ :=
          ihr hxR hsub hS' hfreshR hlen
            (fun i hi hi2 hi3 => hframe i (by simp [hi]) hi2 hi3) hqR
        have hxnotAL : ∀ i ∈ Sx, i ∉ AL := fun i hi hc => hdisj hc (hSxAR i hi)
        have hqne : ∀ i ∈ AL, i ≠ (getN s x).pidx := by
          intro i hi hc
          have hxne : x ≠ NIL := by
            have := (IsT_mem h6 x hxR).1
            simp only [NIL]
            omega
          rcases IsT_parent_child h6 x hxR with hc2 | ⟨hc2, _⟩
          · have hpxh : (getN s x).pidx = h := by
              rw [hc2] at hxR ⊢
              exact IsT_pidx h6 (by rw [← hc2]; exact hxne)
            rw [hpxh] at hc
            exact hhAL (hc ▸ hi)
          · rw [← hc] at hc2
            exact hdisj hi hc2
        have hAL2 : IsT s' ((getN s h).left) h AL :=
          IsT_congr h5 hlen fun i hi =>
            (fun e => ⟨e.1, e.2.1, e.2.2.1, e.2.2.2⟩)
              (hframe i (by simp [hi]) (fun hc => hxnotAL i hc hi) (hqne i hi))
        have hxne : x ≠ NIL := by
          have := (IsT_mem h6 x hxR).1
          simp only [NIL]
          omega
        have hnd' : (h :: (AL ++ AR')).Nodup := by
          have hhAR' : h ∉ AR' := by
            intro hc
            rcases (hARmem h).mp hc with ⟨hc1, _⟩ | hc1
            · exact hhAR hc1
            · rcases hfresh h hc1 with hc2 | hc2
              · exact hhAR (hSxAR h hc2)
              · exact hc2 (List.mem_cons_self ..)
          have hdisj' : ∀ i ∈ AL, i ∉ AR' := by
            intro i hi hc
            rcases (hARmem i).mp hc with ⟨hc1, _⟩ | hc1
            · exact hdisj hi hc1
            · rcases hfresh i hc1 with hc2 | hc2
              · exact hdisj hi (hSxAR i hc2)
              · exact hc2 (by simp [hi])
          rw [List.nodup_cons, List.nodup_append]
          exact ⟨by
            intro hc
            rcases List.mem_append.mp hc with hc | hc
            · exact hhAL hc
            · exact hhAR' hc,
            hALnd, IsT_nodup hAR', hdisj'⟩
        have hmem_final : ∀ i, i ∈ (h :: (AL ++ AR')) ↔
            ((i ∈ h :: (AL ++ AR) ∧ i ∉ Sx) ∨ i ∈ S') := by
          intro i
          constructor
          · intro hi
            rcases List.mem_cons.mp hi with rfl | hi
            · exact Or.inl ⟨List.mem_cons_self .., fun hc => hhAR (hSxAR _ hc)⟩
            · rcases List.mem_append.mp hi with hi | hi
              · exact Or.inl ⟨by simp [hi], fun hc => hdisj hi (hSxAR i hc)⟩
              · rcases (hARmem i).mp hi with ⟨hc1, hc2⟩ | hc1
                · exact Or.inl ⟨by simp [hc1], hc2⟩
                · exact Or.inr hc1
          · intro hi
            rcases hi with ⟨hi1, hi2⟩ | hi1
            · rcases List.mem_cons.mp hi1 with rfl | hi1
              · exact List.mem_cons_self ..
              · rcases List.mem_append.mp hi1 with hi1 | hi1
                · exact List.mem_cons.mpr (Or.inr (List.mem_append.mpr (Or.inl hi1)))
                · exact List.mem_cons.mpr (Or.inr (List.mem_append.mpr
                    (Or.inr ((hARmem i).mpr (Or.inl ⟨hi1, hi2⟩)))))
            · exact List.mem_cons.mpr (Or.inr (List.mem_append.mpr
                (Or.inr ((hARmem i).mpr (Or.inr hi1)))))
        by_cases hxr : x = (getN s h).right
        · have hpx : (getN s x).pidx = h := by
            rw [hxr]
            exact IsT_pidx h6 (by rw [← hxr]; exact hxne)
          rcases hq with hc | ⟨ql, qr, qp, qd⟩
          · exact absurd hc hxh
          · rw [hpx] at ql qr qp qd
            have hlne : (getN s h).left ≠ x := by
              intro hc
              exact IsT_child_unique (IsT.node h1 h2 h3 h4 h5 h6 h7)
                (List.mem_cons_self ..) hxne hc hxr.symm
            rw [if_neg hlne] at ql
            rw [if_pos hxr.symm] at qr
            refine ⟨h :: (AL ++ AR'), ?_, fun i => hmem_final i⟩
            refine IsT.node h1 (lt_of_lt_of_le h2 hlen) qd (by rw [qp, h4]) ?_ ?_ hnd'
            · rw [ql]
              exact hAL2
            · rw [qr]
              rw [if_pos hxr] at hAR'
              exact hAR'
        · have hqAR : (getN s x).pidx ∈ AR := by
            rcases IsT_parent_child h6 x hxR with hc | ⟨hc, _⟩
            · exact absurd hc hxr
            · exact hc
          obtain ⟨fl, fr, fp, fd⟩ := hframe h (List.mem_cons_self ..)
            (fun hc => hhAR (hSxAR h hc)) (fun hc => hhAR (hc ▸ hqAR))
          refine ⟨h :: (AL ++ AR'), ?_, fun i => hmem_final i⟩
          refine IsT.node h1 (lt_of_lt_of_le h2 hlen) fd (by rw [fp, h4]) ?_ ?_ hnd'
          · rw [fl]
            exact hAL2
          · rw [fr]
            rw [if_neg hxr] at hAR'
            exact hAR'


/-- Node reads agree between states with equal arenas. -/
theorem getN_eq_of_nodes {s s' : TState} (h : s'.nodes = s.nodes) (i : Nat) :
    getN s' i = getN s i := by
  unfold getN
  rw [h]

/-- Transfer of the augmentation equation between states that agree on the
node and the relevant sum slots. -/
theorem sumEq_congr {c : Ctx} {s s' : TState} {h : Nat}
    (he : getN s' h = getN s h)
    (h0 : get_node_sum c s' h = get_node_sum c s h)
    (hl : csum c s' ((getN s h).left) = csum c s ((getN s h).left))
    (hr : csum c s' ((getN s h).right) = csum c s ((getN s h).right))
    (heq : sumEq c s h) : sumEq c s' h := by
  unfold sumEq get_node_grvalue at heq ⊢
  rw [he, h0, hl, hr]
  exact heq

/-- A stored-entry handle is a tree node. -/
theorem liveHandle_mem_A {c : Ctx} {s : TState} {A F : List Nat} {n : Nat}
    (hI : InvAt c s A F) (hlive : liveHandle s n) : n ∈ A := by
  obtain ⟨-, -, -, -, -, -, hF, hcover, -⟩ := hI
  rcases hcover n hlive.1 hlive.2.1 with hA | hFm
  · exact hA
  · have := (FreeL_mem hF n hFm).2.2
    rw [hlive.2.2] at this
    exact Bool.noConfusion this

/-- Tree nodes are not on the free list. -/
theorem memA_not_memF {c : Ctx} {s : TState} {A F : List Nat} (hI : InvAt c s A F)
    {i : Nat} (hA : i ∈ A) (hF : i ∈ F) : False := by
  obtain ⟨-, -, -, -, -, hT, hFL, -, -⟩ := hI
  have h1 := (IsT_mem hT i hA).2.2
  have h2 := (FreeL_mem hFL i hF).2.2
  rw [h1] at h2
  exact Bool.noConfusion h2

/-- `update_value` on a stored entry preserves the global invariant: the
new value is written and `update_sum_r` rebuilds exactly the ancestor
sums. -/
theorem update_value_inv {c : Ctx} (hf : ∀ k v, (c.f k v).length = c.D)
    {s s' : TState} {n : Nat} {v : Int} (hlive : liveHandle s n)
    {A F : List Nat} (hI : InvAt c s A F)
    (h : update_value c s n v = .ok s') : InvAt c s' A F := by
  have hnA : n ∈ A := liveHandle_mem_A hI hlive
  obtain ⟨hnv, hlen2, hlenM, hrl, hnb, hT, hF, hcover, hsums⟩ := hI
  unfold update_value at h
  set s1 := setN s n { getN s n with val := v } with hs1
  have hn1len : s1.nodes.length = s.nodes.length := setN_nodes_length ..
  have hg1 : ∀ i, i ≠ n → getN s1 i = getN s i := fun i hi => getN_setN_ne hi _
  have hgn : getN s1 n = { getN s n with val := v } := getN_setN_eq hlive.2.1 _
  have hfields : ∀ i, (getN s1 i).left = (getN s i).left ∧
      (getN s1 i).right = (getN s i).right ∧ (getN s1 i).pidx = (getN s i).pidx ∧
      (getN s1 i).key = (getN s i).key ∧ (getN s1 i).pred = (getN s i).pred := by
    intro i
    by_cases hi : i = n
    · rw [hi, hgn]
      exact ⟨rfl, rfl, rfl, rfl, rfl⟩
    · rw [hg1 i hi]
      exact ⟨rfl, rfl, rfl, rfl, rfl⟩
  have hdel : ∀ i, (getN s1 i).is_deleted = (getN s i).is_deleted := by
    intro i
    unfold Node.is_deleted
    rw [(hfields i).2.2.1, (hfields i).2.2.2.2]
  have hsum1 : ∀ i, get_node_sum c s1 i = get_node_sum c s i := fun i => rfl
  have hT1 : IsT s1 ((getN s1 ROOT).right) ROOT A := by
    rw [(hfields ROOT).2.1]
    exact IsT_congr hT (le_of_eq hn1len.symm) fun i hi =>
      ⟨(hfields i).1, (hfields i).2.1, (hfields i).2.2.1,
        by rw [hdel i]; exact (IsT_mem hT i hi).2.2⟩
  have htne : (getN s ROOT).right ≠ NIL := by
    intro hc
    rw [(IsT_nil_iff hT).mp hc] at hnA
    simp at hnA
  obtain ⟨L, hL, hLA, hLnd⟩ := IsT_path hT1 n (by exact hnA)
  have htop : (getN s1 ((getN s1 ROOT).right)).pidx = ROOT :=
    IsT_pidx hT1 (by rw [(hfields ROOT).2.1]; exact htne)
  have hmemL : ∀ m ∈ L, 2 ≤ m ∧ m < s1.nodes.length := by
    intro m hm
    have := IsT_mem hT1 m (hLA m hm)
    exact ⟨this.1, this.2.1⟩
  have hsep : ∀ m ∈ L, ∀ o, ((getN s1 m).left = o ∨ (getN s1 m).right = o) → o ∈ L →
      o ≠ NIL ∧ (getN s1 o).pidx = m := by
    intro m hm o ho hoL
    have honil : o ≠ NIL := by
      have := (IsT_mem hT1 o (hLA o hoL)).1
      simp only [NIL]
      omega
    exact ⟨honil, (IsT_coherent_child hT1 m (hLA m hm) o ho honil).2⟩
  obtain ⟨e1, e2, e3, e4, e5, hframe, hchain⟩ :=
    update_sum_r_chain hf s.nodes.length s1 s' n ((getN s1 ROOT).right) L hL hLnd htop
      hmemL hsep (by rw [hn1len]; exact hnv) h
  have hg' : ∀ i, getN s' i = getN s1 i := getN_eq_of_nodes e1
  have hnL : n ∈ L := UpPath_head_mem hL
  have hchild_off : ∀ hh, hh ∈ A → hh ∉ L → ∀ o,
      ((getN s hh).left = o ∨ (getN s hh).right = o) → o ≠ NIL → o ∉ L := by
    intro hh hhA hhL o ho honil hoL
    have hco := (IsT_coherent_child hT1 hh hhA o
      (by rw [(hfields hh).1, (hfields hh).2.1]; exact ho) honil).2
    rcases UpPath_succ_mem hL o hoL with hot | hpm
    · rw [hot] at hco
      rw [htop] at hco
      have := (IsT_mem hT hh hhA).1
      rw [← hco] at this
      unfold ROOT at this
      omega
    · rw [hco] at hpm
      exact hhL hpm
  refine ⟨by rw [e2, e1, hn1len]; exact hnv, ?_, ?_, ?_, ?_, ?_, ?_, ?_, ?_⟩
  · rw [e1, hn1len]; exact hlen2
  · rw [e1, hn1len]; exact hlenM
  · rw [hg', hg1 ROOT (by have h2n := hlive.1; unfold ROOT; omega), hrl]
  · rw [hg', hg1 NIL (by have := hlive.1; simp only [NIL]; omega)]
    exact hnb
  · rw [hg' ROOT]
    exact IsT_congr hT1 (le_of_eq (e1 ▸ rfl)) fun i hi =>
      ⟨by rw [hg'], by rw [hg'], by rw [hg'],
        by rw [hg', hdel i]; exact (IsT_mem hT i hi).2.2⟩
  · rw [e4]
    refine FreeL_congr hF (by rw [e1, hn1len]) fun i hi => ?_
    have hin : i ≠ n := by
      intro hc
      exact memA_not_memF ⟨hnv, hlen2, hlenM, hrl, hnb, hT, hF, hcover, hsums⟩
        (hc ▸ hnA) hi
    rw [hg', hg1 i hin]
    exact ⟨rfl, rfl, (FreeL_mem hF i hi).2.2⟩
  · intro i hi2 hilt
    rw [e1, hn1len] at hilt
    exact hcover i hi2 hilt
  · -- the augmentation equations
    intro hh hhA
    by_cases hhL : hh ∈ L
    · -- on the rebuilt chain
      unfold sumEq get_node_grvalue
      rw [hg' hh, hchain hh hhL]
      rfl
    · -- off the chain: everything it reads is untouched
      have hhn : hh ≠ n := fun hc => hhL (hc ▸ hnL)
      refine sumEq_congr ?_ ?_ ?_ ?_ (hsums hh hhA)
      · rw [hg', hg1 hh hhn]
      · rw [hframe hh hhL]
        exact hsum1 hh
      · by_cases hz : (getN s hh).left = NIL
        · rw [hz]; rfl
        · have hoff := hchild_off hh hhA hhL _ (Or.inl rfl) hz
          unfold csum
          rw [if_neg hz, if_neg hz, hframe _ hoff]
          exact hsum1 _
      · by_cases hz : (getN s hh).right = NIL
        · rw [hz]; rfl
        · have hoff := hchild_off hh hhA hhL _ (Or.inr rfl) hz
          unfold csum
          rw [if_neg hz, if_neg hz, hframe _ hoff]
          exact hsum1 _

/-- A node whose parent word is a real slot index is not marked deleted. -/
theorem is_deleted_false_of_pidx {n : Node} (h : n.pidx ≠ Invalid) :
    n.is_deleted = false := by
  unfold Node.is_deleted
  simp [h]

/-- Pointer-level description of a successful `rotate_left c s x` (writing
`y` for `x`'s right child, `ly` for `y`'s left child and `p` for `x`'s
parent, all read in the entry state): the six link writes of the source
followed by the two sum recomputations, with every other slot and sum
untouched. -/
theorem rotate_left_ok {c : Ctx} {s s' : TState} {x : Nat}
    (hxb : x < s.nodes.length) (hx2 : 2 ≤ x)
    (hyb : (getN s x).right < s.nodes.length) (hy2 : 2 ≤ (getN s x).right)
    (hxy : x ≠ (getN s x).right)
    (hlyx : (getN s (getN s x).right).left ≠ x)
    (hlyy : (getN s (getN s x).right).left ≠ (getN s x).right)
    (hlyb : (getN s (getN s x).right).left ≠ NIL →
      (getN s (getN s x).right).left < s.nodes.length)
    (hpx : (getN s x).pidx ≠ x)
    (hpy : (getN s x).pidx ≠ (getN s x).right)
    (hply : (getN s x).pidx ≠ (getN s (getN s x).right).left)
    (hpb : (getN s x).pidx < s.nodes.length)
    (hryx : (getN s (getN s x).right).right ≠ x)
    (hnv : s.nvarray.length = s.nodes.length * c.D)
    (hf : ∀ k v, (c.f k v).length = c.D)
    (h : rotate_left c s x = .ok s') :
    s'.nodes.length = s.nodes.length ∧ s'.nvarray.length = s.nvarray.length ∧
    s'.n_del = s.n_del ∧ s'.deleted_nodes_head = s.deleted_nodes_head ∧
    s'.size1 = s.size1 ∧
    getN s' x = { getN s x with right := (getN s (getN s x).right).left, pidx := (getN s x).right } ∧
    getN s' ((getN s x).right) = { getN s (getN s x).right with left := x, pidx := (getN s x).pidx } ∧
    ((getN s (getN s x).right).left ≠ NIL →
      getN s' ((getN s (getN s x).right).left) = { getN s (getN s (getN s x).right).left with pidx := x }) ∧
    getN s' ((getN s x).pidx) =
      (if (getN s (getN s x).pidx).right = x then { getN s (getN s x).pidx with right := (getN s x).right }
      else { getN s (getN s x).pidx with left := (getN s x).right }) ∧
    (∀ i, i ≠ x → i ≠ (getN s x).right → i ≠ (getN s x).pidx →
      ((getN s (getN s x).right).left ≠ NIL → i ≠ (getN s (getN s x).right).left) →
      getN s' i = getN s i) ∧
    (∀ i, i ≠ x → i ≠ (getN s x).right →
      get_node_sum c s' i = get_node_sum c s i) ∧
    get_node_sum c s' x =
      addL (addL (get_node_grvalue c s x) (csum c s (getN s x).left))
        (csum c s (getN s (getN s x).right).left) ∧
    get_node_sum c s' ((getN s x).right) =
      addL (addL (get_node_grvalue c s (getN s x).right) (get_node_sum c s' x))
        (csum c s (getN s (getN s x).right).right) := by
  set y := (getN s x).right with hy
  set ly := (getN s y).left with hly
  set p := (getN s x).pidx with hp
  unfold rotate_left at h
  dsimp only at h
  rw [← hy] at h
  obtain ⟨s7, h7, hB⟩ := exceptBind_ok h
  clear h
  -- step 1
  set t1 := rl1 s x y with ht1
  have t1x : getN t1 x = { getN s x with right := ly } := by
    rw [ht1]
    unfold rl1
    rw [getN_setN_eq hxb]
    rfl
  have t1o : ∀ i, i ≠ x → getN t1 i = getN s i := by
    intro i hi
    rw [ht1]
    unfold rl1
    exact getN_setN_ne hi _
  have t1len : t1.nodes.length = s.nodes.length := by
    rw [ht1]; unfold rl1; exact setN_nodes_length ..
  have t1nv : t1.nvarray = s.nvarray := rfl
  -- step 2
  set t2 := rl2 t1 x with ht2
  have t2cond : (getN t1 x).right = ly := by rw [t1x]
  have t2x : getN t2 x = { getN s x with right := ly } := by
    rw [ht2]
    unfold rl2
    rw [t2cond]
    split
    · rw [getN_setN_ne (by intro hcc; exact hlyx hcc.symm), t1x]
    · exact t1x
  have t2ly : ly ≠ NIL → getN t2 ly = { getN s ly with pidx := x } := by
    intro hne
    rw [ht2]
    unfold rl2
    rw [t2cond, if_pos hne, getN_setN_eq (by rw [t1len]; exact hlyb hne), t1o ly hlyx]
    rfl
  have t2o : ∀ i, i ≠ x → (ly ≠ NIL → i ≠ ly) → getN t2 i = getN s i := by
    intro i hi hi2
    rw [ht2]
    unfold rl2
    rw [t2cond]
    split
    · rename_i hne
      rw [getN_setN_ne (hi2 hne), t1o i hi]
    · exact t1o i hi
  have t2len : t2.nodes.length = s.nodes.length := by
    rw [ht2]
    unfold rl2
    rw [t2cond]
    split
    · rw [setN_nodes_length, t1len]
    · exact t1len
  have t2nv : t2.nvarray = s.nvarray := by
    rw [ht2]
    unfold rl2
    rw [t2cond]
    split
    · exact t1nv
    · exact t1nv
  -- step 3
  set t3 := rl3 t2 x y with ht3
  have t3p : (getN t2 x).get_parent = p := by rw [t2x]; rfl
  have t3y : getN t3 y = { getN s y with pidx := p } := by
    rw [ht3]
    unfold rl3
    rw [getN_setN_eq (by rw [t2len]; exact hyb), t3p,
      t2o y (fun hc => hxy hc.symm) (fun _ hc => hlyy hc.symm)]
    rfl
  have t3x : getN t3 x = { getN s x with right := ly } := by
    rw [ht3]
    unfold rl3
    rw [getN_setN_ne hxy, t2x]
  have t3ly : ly ≠ NIL → getN t3 ly = { getN s ly with pidx := x } := by
    intro hne
    rw [ht3]
    unfold rl3
    rw [getN_setN_ne hlyy, t2ly hne]
  have t3o : ∀ i, i ≠ x → i ≠ y → (ly ≠ NIL → i ≠ ly) → getN t3 i = getN s i := by
    intro i hi hi3 hi2
    rw [ht3]
    unfold rl3
    rw [getN_setN_ne hi3, t2o i hi hi2]
  have t3len : t3.nodes.length = s.nodes.length := by
    rw [ht3]
    unfold rl3
    rw [setN_nodes_length, t2len]
  have t3nv : t3.nvarray = s.nvarray := t2nv
  -- step 4
  set t4 := rot4 t3 x y with ht4
  have t4pn : getN t3 p = getN s p := t3o p hpx hpy (fun _ => hply)
  have t4pp : (getN t3 x).get_parent = p := by rw [t3x]; rfl
  have t4p : getN t4 p =
      (if (getN s p).right = x then { getN s p with right := y }
      else { getN s p with left := y }) := by
    rw [ht4]
    unfold rot4
    rw [t4pp, t4pn]
    split
    · rw [getN_setN_eq (by rw [t3len]; exact hpb)]
      rfl
    · rw [getN_setN_eq (by rw [t3len]; exact hpb)]
      rfl
  have t4o : ∀ i, i ≠ p → getN t4 i = getN t3 i := by
    intro i hi
    rw [ht4]
    unfold rot4
    rw [t4pp]
    split
    · exact getN_setN_ne hi _
    · exact getN_setN_ne hi _
  have t4len : t4.nodes.length = s.nodes.length := by
    rw [ht4]
    unfold rot4
    rw [t4pp]
    split
    · rw [setN_nodes_length, t3len]
    · rw [setN_nodes_length, t3len]
  have t4nv : t4.nvarray = s.nvarray := by
    rw [ht4]
    unfold rot4
    rw [t4pp]
    split
    · exact t3nv
    · exact t3nv
  -- step 5
  set t5 := rl5 t4 x y with ht5
  have t5y : getN t5 y = { getN s y with left := x, pidx := p } := by
    rw [ht5]
    unfold rl5
    rw [getN_setN_eq (by rw [t4len]; exact hyb), t4o y (fun hc => hpy hc.symm), t3y]
    rfl
  have t5o : ∀ i, i ≠ y → getN t5 i = getN t4 i := by
    intro i hi
    rw [ht5]
    unfold rl5
    exact getN_setN_ne hi _
  have t5len : t5.nodes.length = s.nodes.length := by
    rw [ht5]
    unfold rl5
    rw [setN_nodes_length, t4len]
  have t5nv : t5.nvarray = s.nvarray := t4nv
  -- step 6
  set t6 := rot6 t5 x y with ht6
  have t6x : getN t6 x = { getN s x with right := ly, pidx := y } := by
    rw [ht6]
    unfold rot6
    rw [getN_setN_eq (by rw [t5len]; exact hxb),
      t5o x hxy, t4o x (fun hc => hpx hc.symm), t3x]
    rfl
  have t6y : getN t6 y = { getN s y with left := x, pidx := p } := by
    rw [ht6]
    unfold rot6
    rw [getN_setN_ne (fun hc => hxy hc.symm), t5y]
  have t6ly : ly ≠ NIL → getN t6 ly = { getN s ly with pidx := x } := by
    intro hne
    rw [ht6]
    unfold rot6
    rw [getN_setN_ne hlyx, t5o ly hlyy, t4o ly (fun hc => hply hc.symm), t3ly hne]
  have t6p : getN t6 p =
      (if (getN s p).right = x then { getN s p with right := y }
      else { getN s p with left := y }) := by
    rw [ht6]
    unfold rot6
    rw [getN_setN_ne hpx, t5o p hpy, t4p]
  have t6o : ∀ i, i ≠ x → i ≠ y → i ≠ p → (ly ≠ NIL → i ≠ ly) →
      getN t6 i = getN s i := by
    intro i hi1 hi2 hi3 hi4
    rw [ht6]
    unfold rot6
    rw [getN_setN_ne hi1, t5o i hi2, t4o i hi3, t3o i hi1 hi2 hi4]
  have t6len : t6.nodes.length = s.nodes.length := by
    rw [ht6]
    unfold rot6
    rw [setN_nodes_length, t5len]
  have t6nv : t6.nvarray = s.nvarray := t5nv
  have t1sc : t1.n_del = s.n_del ∧ t1.deleted_nodes_head = s.deleted_nodes_head ∧
      t1.size1 = s.size1 := ⟨rfl, rfl, rfl⟩
  have t2sc : t2.n_del = s.n_del ∧ t2.deleted_nodes_head = s.deleted_nodes_head ∧
      t2.size1 = s.size1 := by
    rw [ht2]
    unfold rl2
    split
    · exact t1sc
    · exact t1sc
  have t4sc : t4.n_del = s.n_del ∧ t4.deleted_nodes_head = s.deleted_nodes_head ∧
      t4.size1 = s.size1 := by
    rw [ht4]
    unfold rot4
    split
    · exact t2sc
    · exact t2sc
  have t6sc : t6.n_del = s.n_del ∧ t6.deleted_nodes_head = s.deleted_nodes_head ∧
      t6.size1 = s.size1 := t4sc
  -- the two sum recomputations
  have hsum6 : ∀ z, get_node_sum c t6 z = get_node_sum c s z := by
    intro z
    unfold get_node_sum
    rw [t6nv]
  have hcsum6 : ∀ z, csum c t6 z = csum c s z := by
    intro z
    unfold csum
    split
    · rfl
    · exact hsum6 z
  have hs7 := update_sum_ok hf h7
  subst hs7
  have hs'2 := update_sum_ok hf hB
  subst hs'2
  have hxfields : (getN t6 x).left = (getN s x).left ∧ (getN t6 x).right = ly ∧
      (getN t6 x).key = (getN s x).key ∧ (getN t6 x).val = (getN s x).val := by
    rw [t6x]
    exact ⟨rfl, rfl, rfl, rfl⟩
  have hv1 : addL (addL (get_node_grvalue c t6 x) (csum c t6 (getN t6 x).left))
      (csum c t6 (getN t6 x).right) =
      addL (addL (get_node_grvalue c s x) (csum c s (getN s x).left)) (csum c s ly) := by
    unfold get_node_grvalue
    rw [hxfields.1, hxfields.2.1, hxfields.2.2.1, hxfields.2.2.2, hcsum6, hcsum6]
  rw [hv1]
  set v1 := addL (addL (get_node_grvalue c s x) (csum c s (getN s x).left)) (csum c s ly)
    with hv1def
  have hv1len : v1.length = c.D := by
    rw [hv1def, addL_length, addL_length, csum_length, csum_length]
    unfold get_node_grvalue
    rw [hf]
    simp
  set S7 := set_node_sum c t6 x v1 with hS7
  have hS7n : ∀ i, getN S7 i = getN t6 i := fun i => rfl
  have hS7len : S7.nvarray.length = s.nvarray.length := by
    rw [hS7, set_node_sum_nvlen, t6nv]
  have hS7x : get_node_sum c S7 x = v1 := by
    rw [hS7]
    exact get_node_sum_set_eq (by rw [t6nv, hnv]; exact Nat.mul_le_mul_right _ hxb) hv1len
  have hS7o : ∀ i, i ≠ x → get_node_sum c S7 i = get_node_sum c s i := by
    intro i hi
    rw [hS7, get_node_sum_set_ne hi (le_of_eq hv1len)]
    exact hsum6 i
  have hS7c : ∀ z, z ≠ x → csum c S7 z = csum c s z := by
    intro z hz
    unfold csum
    split
    · rfl
    · exact hS7o z hz
  have hyfields : (getN S7 y).left = x ∧ (getN S7 y).right = (getN s y).right ∧
      (getN S7 y).key = (getN s y).key ∧ (getN S7 y).val = (getN s y).val := by
    rw [hS7n, t6y]
    exact ⟨rfl, rfl, rfl, rfl⟩
  have hv2 : addL (addL (get_node_grvalue c S7 y) (csum c S7 (getN S7 y).left))
      (csum c S7 (getN S7 y).right) =
      addL (addL (get_node_grvalue c s y) v1) (csum c s (getN s y).right) := by
    unfold get_node_grvalue
    rw [hyfields.1, hyfields.2.1, hyfields.2.2.1, hyfields.2.2.2, hS7c _ hryx]
    have : csum c S7 x = v1 := by
      unfold csum
      rw [if_neg (by simp only [NIL]; omega), hS7x]
    rw [this]
  rw [hv2]
  set v2 := addL (addL (get_node_grvalue c s y) v1) (csum c s (getN s y).right) with hv2def
  have hv2len : v2.length = c.D := by
    rw [hv2def, addL_length, addL_length, csum_length, hv1len]
    unfold get_node_grvalue
    rw [hf]
    simp
  -- final state facts
  refine ⟨?_, ?_, ?_, ?_, ?_, ?_, ?_, ?_, ?_, ?_, ?_, ?_, ?_⟩
  · show (set_node_sum c S7 y v2).nodes.length = s.nodes.length
    rw [show (set_node_sum c S7 y v2).nodes.length = t6.nodes.length from rfl, t6len]
  · rw [set_node_sum_nvlen, hS7len]
  · exact t6sc.1
  · exact t6sc.2.1
  · exact t6sc.2.2
  · rw [show getN (set_node_sum c S7 y v2) x = getN t6 x from rfl, t6x]
  · rw [show getN (set_node_sum c S7 y v2) y = getN t6 y from rfl, t6y]
  · intro hne
    rw [show getN (set_node_sum c S7 y v2) ly = getN t6 ly from rfl, t6ly hne]
  · rw [show getN (set_node_sum c S7 y v2) p = getN t6 p from rfl, t6p]
  · intro i hi1 hi2 hi3 hi4
    rw [show getN (set_node_sum c S7 y v2) i = getN t6 i from rfl, t6o i hi1 hi2 hi3 hi4]
  · intro i hi1 hi2
    rw [get_node_sum_set_ne hi2 (le_of_eq hv2len)]
    exact hS7o i hi1
  · rw [get_node_sum_set_ne hxy (le_of_eq hv2len), hS7x]
  · rw [get_node_sum_set_eq ?_ hv2len]
    · rw [get_node_sum_set_ne hxy (le_of_eq hv2len), hS7x]
    · rw [hS7len, hnv]
      exact Nat.mul_le_mul_right _ hyb

/-- Pointer-level description of a successful `rotate_right c s x` (writing
`y` for `x`'s left child, `ry` for `y`'s right child and `p` for `x`'s
parent), the mirror image of `rotate_left_ok`. -/
theorem rotate_right_ok {c : Ctx} {s s' : TState} {x : Nat}
    (hxb : x < s.nodes.length) (hx2 : 2 ≤ x)
    (hyb : (getN s x).left < s.nodes.length)
    (hxy : x ≠ (getN s x).left)
    (hlyx : (getN s (getN s x).left).right ≠ x)
    (hlyy : (getN s (getN s x).left).right ≠ (getN s x).left)
    (hlyb : (getN s (getN s x).left).right ≠ NIL →
      (getN s (getN s x).left).right < s.nodes.length)
    (hpx : (getN s x).pidx ≠ x)
    (hpy : (getN s x).pidx ≠ (getN s x).left)
    (hply : (getN s x).pidx ≠ (getN s (getN s x).left).right)
    (hpb : (getN s x).pidx < s.nodes.length)
    (hryx : (getN s (getN s x).left).left ≠ x)
    (hnv : s.nvarray.length = s.nodes.length * c.D)
    (hf : ∀ k v, (c.f k v).length = c.D)
    (h : rotate_right c s x = .ok s') :
    s'.nodes.length = s.nodes.length ∧ s'.nvarray.length = s.nvarray.length ∧
    s'.n_del = s.n_del ∧ s'.deleted_nodes_head = s.deleted_nodes_head ∧
    s'.size1 = s.size1 ∧
    getN s' x = { getN s x with left := (getN s (getN s x).left).right, pidx := (getN s x).left } ∧
    getN s' ((getN s x).left) = { getN s (getN s x).left with right := x, pidx := (getN s x).pidx } ∧
    ((getN s (getN s x).left).right ≠ NIL →
      getN s' ((getN s (getN s x).left).right) = { getN s (getN s (getN s x).left).right with pidx := x }) ∧
    getN s' ((getN s x).pidx) =
      (if (getN s (getN s x).pidx).right = x then { getN s (getN s x).pidx with right := (getN s x).left }
      else { getN s (getN s x).pidx with left := (getN s x).left }) ∧
    (∀ i, i ≠ x → i ≠ (getN s x).left → i ≠ (getN s x).pidx →
      ((getN s (getN s x).left).right ≠ NIL → i ≠ (getN s (getN s x).left).right) →
      getN s' i = getN s i) ∧
    (∀ i, i ≠ x → i ≠ (getN s x).left →
      get_node_sum c s' i = get_node_sum c s i) ∧
    get_node_sum c s' x =
      addL (addL (get_node_grvalue c s x) (csum c s (getN s (getN s x).left).right))
        (csum c s (getN s x).right) ∧
    get_node_sum c s' ((getN s x).left) =
      addL (addL (get_node_grvalue c s (getN s x).left) (csum c s (getN s (getN s x).left).left))
        (get_node_sum c s' x) := by
  set y := (getN s x).left with hy
  set ry := (getN s y).right with hry
  set p := (getN s x).pidx with hp
  unfold rotate_right at h
  dsimp only at h
  rw [← hy] at h
  obtain ⟨s7, h7, hB⟩ := exceptBind_ok h
  clear h
  -- step 1
  set t1 := rr1 s x y with ht1
  have t1x : getN t1 x = { getN s x with left := ry } := by
    rw [ht1]
    unfold rr1
    rw [getN_setN_eq hxb]
    rfl
  have t1o : ∀ i, i ≠ x → getN t1 i = getN s i := by
    intro i hi
    rw [ht1]
    unfold rr1
    exact getN_setN_ne hi _
  have t1len : t1.nodes.length = s.nodes.length := by
    rw [ht1]; unfold rr1; exact setN_nodes_length ..
  have t1nv : t1.nvarray = s.nvarray := rfl
  -- step 2
  set t2 := rr2 t1 x with ht2
  have t2cond : (getN t1 x).left = ry := by rw [t1x]
  have t2x : getN t2 x = { getN s x with left := ry } := by
    rw [ht2]
    unfold rr2
    rw [t2cond]
    split
    · rw [getN_setN_ne (by intro hcc; exact hlyx hcc.symm), t1x]
    · exact t1x
  have t2ly : ry ≠ NIL → getN t2 ry = { getN s ry with pidx := x } := by
    intro hne
    rw [ht2]
    unfold rr2
    rw [t2cond, if_pos hne, getN_setN_eq (by rw [t1len]; exact hlyb hne), t1o ry hlyx]
    rfl
  have t2o : ∀ i, i ≠ x → (ry ≠ NIL → i ≠ ry) → getN t2 i = getN s i := by
    intro i hi hi2
    rw [ht2]
    unfold rr2
    rw [t2cond]
    split
    · rename_i hne
      rw [getN_setN_ne (hi2 hne), t1o i hi]
    · exact t1o i hi
  have t2len : t2.nodes.length = s.nodes.length := by
    rw [ht2]
    unfold rr2
    rw [t2cond]
    split
    · rw [setN_nodes_length, t1len]
    · exact t1len
  have t2nv : t2.nvarray = s.nvarray := by
    rw [ht2]
    unfold rr2
    rw [t2cond]
    split
    · exact t1nv
    · exact t1nv
  -- step 3
  set t3 := rr3 t2 x y with ht3
  have t3p : (getN t2 x).get_parent = p := by rw [t2x]; rfl
  have t3y : getN t3 y = { getN s y with pidx := p } := by
    rw [ht3]
    unfold rr3
    rw [getN_setN_eq (by rw [t2len]; exact hyb), t3p,
      t2o y (fun hc => hxy hc.symm) (fun _ hc => hlyy hc.symm)]
    rfl
  have t3x : getN t3 x = { getN s x with left := ry } := by
    rw [ht3]
    unfold rr3
    rw [getN_setN_ne hxy, t2x]
  have t3ly : ry ≠ NIL → getN t3 ry = { getN s ry with pidx := x } := by
    intro hne
    rw [ht3]
    unfold rr3
    rw [getN_setN_ne hlyy, t2ly hne]
  have t3o : ∀ i, i ≠ x → i ≠ y → (ry ≠ NIL → i ≠ ry) → getN t3 i = getN s i := by
    intro i hi hi3 hi2
    rw [ht3]
    unfold rr3
    rw [getN_setN_ne hi3, t2o i hi hi2]
  have t3len : t3.nodes.length = s.nodes.length := by
    rw [ht3]
    unfold rr3
    rw [setN_nodes_length, t2len]
  have t3nv : t3.nvarray = s.nvarray := t2nv
  -- step 4
  set t4 := rot4 t3 x y with ht4
  have t4pn : getN t3 p = getN s p := t3o p hpx hpy (fun _ => hply)
  have t4pp : (getN t3 x).get_parent = p := by rw [t3x]; rfl
  have t4p : getN t4 p =
      (if (getN s p).right = x then { getN s p with right := y }
      else { getN s p with left := y }) := by
    rw [ht4]
    unfold rot4
    rw [t4pp, t4pn]
    split
    · rw [getN_setN_eq (by rw [t3len]; exact hpb)]
      rfl
    · rw [getN_setN_eq (by rw [t3len]; exact hpb)]
      rfl
  have t4o : ∀ i, i ≠ p → getN t4 i = getN t3 i := by
    intro i hi
    rw [ht4]
    unfold rot4
    rw [t4pp]
    split
    · exact getN_setN_ne hi _
    · exact getN_setN_ne hi _
  have t4len : t4.nodes.length = s.nodes.length := by
    rw [ht4]
    unfold rot4
    rw [t4pp]
    split
    · rw [setN_nodes_length, t3len]
    · rw [setN_nodes_length, t3len]
  have t4nv : t4.nvarray = s.nvarray := by
    rw [ht4]
    unfold rot4
    rw [t4pp]
    split
    · exact t3nv
    · exact t3nv
  -- step 5
  set t5 := rr5 t4 x y with ht5
  have t5y : getN t5 y = { getN s y with pidx := p, right := x } := by
    rw [ht5]
    unfold rr5
    rw [getN_setN_eq (by rw [t4len]; exact hyb), t4o y (fun hc => hpy hc.symm), t3y]
    rfl
  have t5o : ∀ i, i ≠ y → getN t5 i = getN t4 i := by
    intro i hi
    rw [ht5]
    unfold rr5
    exact getN_setN_ne hi _
  have t5len : t5.nodes.length = s.nodes.length := by
    rw [ht5]
    unfold rr5
    rw [setN_nodes_length, t4len]
  have t5nv : t5.nvarray = s.nvarray := t4nv
  -- step 6
  set t6 := rot6 t5 x y with ht6
  have t6x : getN t6 x = { getN s x with left := ry, pidx := y } := by
    rw [ht6]
    unfold rot6
    rw [getN_setN_eq (by rw [t5len]; exact hxb),
      t5o x hxy, t4o x (fun hc => hpx hc.symm), t3x]
    rfl
  have t6y : getN t6 y = { getN s y with pidx := p, right := x } := by
    rw [ht6]
    unfold rot6
    rw [getN_setN_ne (fun hc => hxy hc.symm), t5y]
  have t6ly : ry ≠ NIL → getN t6 ry = { getN s ry with pidx := x } := by
    intro hne
    rw [ht6]
    unfold rot6
    rw [getN_setN_ne hlyx, t5o ry hlyy, t4o ry (fun hc => hply hc.symm), t3ly hne]
  have t6p : getN t6 p =
      (if (getN s p).right = x then { getN s p with right := y }
      else { getN s p with left := y }) := by
    rw [ht6]
    unfold rot6
    rw [getN_setN_ne hpx, t5o p hpy, t4p]
  have t6o : ∀ i, i ≠ x → i ≠ y → i ≠ p → (ry ≠ NIL → i ≠ ry) →
      getN t6 i = getN s i := by
    intro i hi1 hi2 hi3 hi4
    rw [ht6]
    unfold rot6
    rw [getN_setN_ne hi1, t5o i hi2, t4o i hi3, t3o i hi1 hi2 hi4]
  have t6len : t6.nodes.length = s.nodes.length := by
    rw [ht6]
    unfold rot6
    rw [setN_nodes_length, t5len]
  have t6nv : t6.nvarray = s.nvarray := t5nv
  have t1sc : t1.n_del = s.n_del ∧ t1.deleted_nodes_head = s.deleted_nodes_head ∧
      t1.size1 = s.size1 := ⟨rfl, rfl, rfl⟩
  have t2sc : t2.n_del = s.n_del ∧ t2.deleted_nodes_head = s.deleted_nodes_head ∧
      t2.size1 = s.size1 := by
    rw [ht2]
    unfold rr2
    split
    · exact t1sc
    · exact t1sc
  have t4sc : t4.n_del = s.n_del ∧ t4.deleted_nodes_head = s.deleted_nodes_head ∧
      t4.size1 = s.size1 := by
    rw [ht4]
    unfold rot4
    split
    · exact t2sc
    · exact t2sc
  have t6sc : t6.n_del = s.n_del ∧ t6.deleted_nodes_head = s.deleted_nodes_head ∧
      t6.size1 = s.size1 := t4sc
  -- the two sum recomputations
  have hsum6 : ∀ z, get_node_sum c t6 z = get_node_sum c s z := by
    intro z
    unfold get_node_sum
    rw [t6nv]
  have hcsum6 : ∀ z, csum c t6 z = csum c s z := by
    intro z
    unfold csum
    split
    · rfl
    · exact hsum6 z
  have hs7 := update_sum_ok hf h7
  subst hs7
  have hs'2 := update_sum_ok hf hB
  subst hs'2
  have hxfields : (getN t6 x).left = ry ∧ (getN t6 x).right = (getN s x).right ∧
      (getN t6 x).key = (getN s x).key ∧ (getN t6 x).val = (getN s x).val := by
    rw [t6x]
    exact ⟨rfl, rfl, rfl, rfl⟩
  have hv1 : addL (addL (get_node_grvalue c t6 x) (csum c t6 (getN t6 x).left))
      (csum c t6 (getN t6 x).right) =
      addL (addL (get_node_grvalue c s x) (csum c s ry)) (csum c s (getN s x).right) := by
    unfold get_node_grvalue
    rw [hxfields.1, hxfields.2.1, hxfields.2.2.1, hxfields.2.2.2, hcsum6, hcsum6]
  rw [hv1]
  set v1 := addL (addL (get_node_grvalue c s x) (csum c s ry)) (csum c s (getN s x).right)
    with hv1def
  have hv1len : v1.length = c.D := by
    rw [hv1def, addL_length, addL_length, csum_length, csum_length]
    unfold get_node_grvalue
    rw [hf]
    simp
  set S7 := set_node_sum c t6 x v1 with hS7
  have hS7n : ∀ i, getN S7 i = getN t6 i := fun i => rfl
  have hS7len : S7.nvarray.length = s.nvarray.length := by
    rw [hS7, set_node_sum_nvlen, t6nv]
  have hS7x : get_node_sum c S7 x = v1 := by
    rw [hS7]
    exact get_node_sum_set_eq (by rw [t6nv, hnv]; exact Nat.mul_le_mul_right _ hxb) hv1len
  have hS7o : ∀ i, i ≠ x → get_node_sum c S7 i = get_node_sum c s i := by
    intro i hi
    rw [hS7, get_node_sum_set_ne hi (le_of_eq hv1len)]
    exact hsum6 i
  have hS7c : ∀ z, z ≠ x → csum c S7 z = csum c s z := by
    intro z hz
    unfold csum
    split
    · rfl
    · exact hS7o z hz
  have hyfields : (getN S7 y).right = x ∧ (getN S7 y).left = (getN s y).left ∧
      (getN S7 y).key = (getN s y).key ∧ (getN S7 y).val = (getN s y).val := by
    rw [hS7n, t6y]
    exact ⟨rfl, rfl, rfl, rfl⟩
  have hv2 : addL (addL (get_node_grvalue c S7 y) (csum c S7 (getN S7 y).left))
      (csum c S7 (getN S7 y).right) =
      addL (addL (get_node_grvalue c s y) (csum c s (getN s y).left)) v1 := by
    unfold get_node_grvalue
    rw [hyfields.1, hyfields.2.1, hyfields.2.2.1, hyfields.2.2.2, hS7c _ hryx]
    have hcx : csum c S7 x = v1 := by
      unfold csum
      rw [if_neg (by simp only [NIL]; omega), hS7x]
    rw [hcx]
  rw [hv2]
  set v2 := addL (addL (get_node_grvalue c s y) (csum c s (getN s y).left)) v1 with hv2def
  have hv2len : v2.length = c.D := by
    rw [hv2def, addL_length, addL_length, csum_length, hv1len]
    unfold get_node_grvalue
    rw [hf]
    simp
  refine ⟨?_, ?_, ?_, ?_, ?_, ?_, ?_, ?_, ?_, ?_, ?_, ?_, ?_⟩
  · show (set_node_sum c S7 y v2).nodes.length = s.nodes.length
    rw [show (set_node_sum c S7 y v2).nodes.length = t6.nodes.length from rfl, t6len]
  · rw [set_node_sum_nvlen, hS7len]
  · exact t6sc.1
  · exact t6sc.2.1
  · exact t6sc.2.2
  · rw [show getN (set_node_sum c S7 y v2) x = getN t6 x from rfl, t6x]
  · rw [show getN (set_node_sum c S7 y v2) y = getN t6 y from rfl, t6y]
  · intro hne
    rw [show getN (set_node_sum c S7 y v2) ry = getN t6 ry from rfl, t6ly hne]
  · rw [show getN (set_node_sum c S7 y v2) p = getN t6 p from rfl, t6p]
  · intro i hi1 hi2 hi3 hi4
    rw [show getN (set_node_sum c S7 y v2) i = getN t6 i from rfl, t6o i hi1 hi2 hi3 hi4]
  · intro i hi1 hi2
    rw [get_node_sum_set_ne hi2 (le_of_eq hv2len)]
    exact hS7o i hi1
  · rw [get_node_sum_set_ne hxy (le_of_eq hv2len), hS7x]
  · rw [get_node_sum_set_eq ?_ hv2len]
    · rw [get_node_sum_set_ne hxy (le_of_eq hv2len), hS7x]
    · rw [hS7len, hnv]
      exact Nat.mul_le_mul_right _ hyb

/-- Transfer of the augmentation equation between states that agree on the
fields the equation reads. -/
theorem sumEq_congrF {c : Ctx} {s s' : TState} {h : Nat}
    (hk : (getN s' h).key = (getN s h).key) (hv : (getN s' h).val = (getN s h).val)
    (hl : (getN s' h).left = (getN s h).left) (hr : (getN s' h).right = (getN s h).right)
    (h0 : get_node_sum c s' h = get_node_sum c s h)
    (hcl : csum c s' ((getN s h).left) = csum c s ((getN s h).left))
    (hcr : csum c s' ((getN s h).right) = csum c s ((getN s h).right))
    (heq : sumEq c s h) : sumEq c s' h := by
  unfold sumEq get_node_grvalue at heq ⊢
  rw [hk, hv, hl, hr, h0, hcl, hcr]
  exact heq

/-- No tree node is its own child. -/
theorem IsT_child_ne_self {s : TState} {h p : Nat} {A : List Nat} (hA : IsT s h p A) :
    ∀ i ∈ A, (getN s i).left ≠ i ∧ (getN s i).right ≠ i := by
  intro i hi
  obtain ⟨Si, hSi, hsub, hself⟩ := IsT_sub hA i hi
  cases hSi with
  | nil pq =>
    have hb := (IsT_mem hA NIL hi).1
    simp only [NIL] at hb
    omega
  | node h1 h2 h3 h4 h5 h6 h7 =>
    rw [List.nodup_cons, List.nodup_append] at h7
    constructor
    · intro hc
      rw [hc] at h5
      exact h7.1 (List.mem_append.mpr (Or.inl (IsT_root_mem h5 (by simp only [NIL]; omega))))
    · intro hc
      rw [hc] at h6
      exact h7.1 (List.mem_append.mpr (Or.inr (IsT_root_mem h6 (by simp only [NIL]; omega))))

/-- The parent of a tree node lies outside the node's subtree. -/
theorem IsT_parent_outside {s : TState} {t : Nat} {A : List Nat}
    (hT : IsT s t ROOT A) {x : Nat} {Sx : List Nat} (hx : x ∈ A)
    (hSx : IsT s x ((getN s x).pidx) Sx) : (getN s x).pidx ∉ Sx := by
  intro hq
  have hxnil : x ≠ NIL := by
    have := (IsT_mem hT x hx).1
    simp only [NIL]
    omega
  rcases IsT_parent_child hT x hx with hxt | ⟨hqA, hchild⟩
  · -- x is the tree root: its parent is the root sentinel
    rw [hxt] at hSx hq
    rw [IsT_pidx hT (by rw [← hxt]; exact hxnil)] at hq
    have := (IsT_mem hSx ROOT hq).1
    unfold ROOT at this
    omega
  · cases hSx with
    | nil pq => exact absurd rfl hxnil
    | node h1 h2 h3 h4 h5 h6 h7 =>
      rw [List.nodup_cons, List.nodup_append] at h7
      rcases List.mem_cons.mp hq with hqx | hq'
      · -- the parent would be x itself, so x would be its own child
        rw [hqx] at hchild
        rcases hchild with hc | hc
        · exact (IsT_child_ne_self hT x hx).1 hc
        · exact (IsT_child_ne_self hT x hx).2 hc
      · rcases List.mem_append.mp hq' with hqL | hqR
        · obtain ⟨Sq, hSq, hsubq, hselfq⟩ := IsT_sub h5 ((getN s x).pidx) hqL
          have hxin : x ∈ Sq :=
            (IsT_coherent_child hSq ((getN s x).pidx) hselfq x
              (by rcases hchild with hc | hc
                  · exact Or.inl hc
                  · exact Or.inr hc) hxnil).1
          exact h7.1 (List.mem_append.mpr (Or.inl (hsubq x hxin)))
        · obtain ⟨Sq, hSq, hsubq, hselfq⟩ := IsT_sub h6 ((getN s x).pidx) hqR
          have hxin : x ∈ Sq :=
            (IsT_coherent_child hSq ((getN s x).pidx) hselfq x
              (by rcases hchild with hc | hc
                  · exact Or.inl hc
                  · exact Or.inr hc) hxnil).1
          exact h7.1 (List.mem_append.mpr (Or.inr (hsubq x hxin)))

/-- Rebuild a subtree under a new parent pointer of its root, all other
member fields preserved. -/
theorem IsT_reparent {s s' : TState} {h p p' : Nat} {A : List Nat} (hA : IsT s h p A)
    (hlen : s.nodes.length ≤ s'.nodes.length)
    (hroot : h ≠ NIL → (getN s' h).left = (getN s h).left ∧
      (getN s' h).right = (getN s h).right ∧ (getN s' h).pidx = p' ∧
      (getN s' h).is_deleted = false)
    (hrest : ∀ i ∈ A, i ≠ h → (getN s' i).left = (getN s i).left ∧
      (getN s' i).right = (getN s i).right ∧ (getN s' i).pidx = (getN s i).pidx ∧
      (getN s' i).is_deleted = false) : IsT s' h p' A := by
  cases hA with
  | nil q => exact IsT.nil p'
  | node h1 h2 h3 h4 h5 h6 h7 =>
    rename_i AL AR
    obtain ⟨el, er, ep, ed⟩ := hroot (by simp only [NIL]; omega)
    have hnotl : h ∉ AL ++ AR := (List.nodup_cons.mp h7).1
    refine IsT.node h1 (lt_of_lt_of_le h2 hlen) ed ep ?_ ?_ h7
    · rw [el]
      exact IsT_congr h5 hlen fun i hi =>
        hrest i (by simp [hi]) (fun hc => hnotl (hc ▸ List.mem_append.mpr (Or.inl hi)))
    · rw [er]
      exact IsT_congr h6 hlen fun i hi =>
        hrest i (by simp [hi]) (fun hc => hnotl (hc ▸ List.mem_append.mpr (Or.inr hi)))

/-- The vector-sum rearrangement behind a rotation: the freshly recomputed
sum of the risen node equals the old sum of the sunk node. -/
theorem rot_sum_shift (wx wy l m r : List Int) :
    addL (addL wy (addL (addL wx l) m)) r = addL (addL wx l) (addL (addL wy m) r) := by
  rw [addL_comm wy (addL (addL wx l) m), addL_assoc (addL wx l) m wy,
    addL_assoc (addL wx l) (addL m wy) r, addL_comm m wy]

/-- Inversion of a tree at a real root handle. -/
theorem IsT_node_inv {s : TState} {h p : Nat} {A : List Nat} (hA : IsT s h p A)
    (hne : h ≠ NIL) :
    ∃ AL AR, A = h :: (AL ++ AR) ∧ (getN s h).pidx = p ∧
      IsT s ((getN s h).left) h AL ∧ IsT s ((getN s h).right) h AR ∧
      (h :: (AL ++ AR)).Nodup := by
  cases hA with
  | nil q => exact absurd rfl hne
  | node h1 h2 h3 h4 h5 h6 h7 => exact ⟨_, _, rfl, h4, h5, h6, h7⟩

set_option maxHeartbeats 1600000 in
/-- `rotate_left` at a tree node with a real right child preserves the
global invariant; the tree handles are unchanged as a set, and the risen
child takes over the rotated node's parent. -/
theorem rotate_left_inv {c : Ctx} (hf : ∀ k v, (c.f k v).length = c.D)
    {s s' : TState} {x : Nat} {A F : List Nat}
    (hI : InvAt c s A F) (hxA : x ∈ A) (hyA : (getN s x).right ∈ A)
    (h : rotate_left c s x = .ok s') :
    ∃ A', InvAt c s' A' F ∧ (∀ i, i ∈ A' ↔ i ∈ A) ∧
      s'.nodes.length = s.nodes.length ∧ s'.n_del = s.n_del ∧
      s'.deleted_nodes_head = s.deleted_nodes_head ∧ s'.size1 = s.size1 ∧
      getN s' ((getN s x).right) =
        { getN s (getN s x).right with left := x, pidx := (getN s x).pidx } ∧
      getN s' x = { getN s x with right := (getN s (getN s x).right).left, pidx := (getN s x).right } := by
  obtain ⟨hnv, hlen2, hlenM, hrl, hnb, hT, hF, hcover, hsums⟩ := hI
  have hxm := IsT_mem hT x hxA
  have hym := IsT_mem hT ((getN s x).right) hyA
  have hxb : x < s.nodes.length := hxm.2.1
  have hx2 : 2 ≤ x := hxm.1
  have hyb : (getN s x).right < s.nodes.length := hym.2.1
  have hy2 : 2 ≤ (getN s x).right := hym.1
  set y := (getN s x).right with hydef
  set ly := (getN s y).left with hlydef
  set ry := (getN s y).right with hrydef
  set q := (getN s x).pidx with hqdef
  set t := (getN s ROOT).right with htdef
  have hxnil : x ≠ NIL := by simp only [NIL]; omega
  have hynil : y ≠ NIL := by simp only [NIL]; omega
  -- dig out the subtree at x and the one at y
  obtain ⟨Sx, hSx, hSxsub, hSxself⟩ := IsT_sub hT x hxA
  obtain ⟨AL, AR, hSxeq, -, hL, hR, h7x⟩ := IsT_node_inv hSx hxnil
  obtain ⟨Ay1, Ay2, hAReq, hy4, hyL, hyR, h7y⟩ := IsT_node_inv hR hynil
  rw [← hydef] at hR hyL hyR h7y hAReq hy4
  rw [← hlydef] at hyL
  rw [← hrydef] at hyR
  have h7x' := h7x
  rw [List.nodup_cons, List.nodup_append] at h7x'
  obtain ⟨hxAB, hALnd, hARnd, hALAR⟩ := h7x'
  have h7y' := h7y
  rw [List.nodup_cons, List.nodup_append] at h7y'
  obtain ⟨hyAB, hAy1nd, hAy2nd, hAy12⟩ := h7y'
  have hxAL : x ∉ AL := fun hc => hxAB (List.mem_append.mpr (Or.inl hc))
  have hxAR : x ∉ AR := fun hc => hxAB (List.mem_append.mpr (Or.inr hc))
  have hyAy1 : y ∉ Ay1 := fun hc => hyAB (List.mem_append.mpr (Or.inl hc))
  have hyAy2 : y ∉ Ay2 := fun hc => hyAB (List.mem_append.mpr (Or.inr hc))
  have hyAR : y ∈ AR := by rw [hAReq]; exact List.mem_cons_self ..
  have hSxmem : ∀ i, i ∈ Sx ↔ (i = x ∨ i ∈ AL ∨ i ∈ AR) := by
    intro i
    rw [hSxeq]
    simp [List.mem_cons, List.mem_append]
  have hSxA : ∀ i ∈ Sx, i ∈ A := hSxsub
  -- the battery of disequalities feeding the pointer lemma
  have hxy : x ≠ y := fun hc => hxAR (hc ▸ hyAR)
  have hlymem : ly ≠ NIL → ly ∈ Ay1 := fun hne => IsT_root_mem hyL hne
  have hrymem : ry ≠ NIL → ry ∈ Ay2 := fun hne => IsT_root_mem hyR hne
  have hlyAR : ly ≠ NIL → ly ∈ AR := fun hne => by
    rw [hAReq]
    simp [List.mem_cons, List.mem_append, hlymem hne]
  have hryAR : ry ≠ NIL → ry ∈ AR := fun hne => by
    rw [hAReq]
    simp [List.mem_cons, List.mem_append, hrymem hne]
  have hlyx : ly ≠ x := by
    by_cases hz : ly = NIL
    · rw [hz]
      simp only [NIL]
      omega
    · exact fun hc => hxAR (hc ▸ hlyAR hz)
  have hlyy : ly ≠ y := by
    by_cases hz : ly = NIL
    · rw [hz]
      simp only [NIL]
      omega
    · exact fun hc => hyAy1 (hc ▸ hlymem hz)
  have hryx : ry ≠ x := by
    by_cases hz : ry = NIL
    · rw [hz]
      simp only [NIL]
      omega
    · exact fun hc => hxAR (hc ▸ hryAR hz)
  have hryy : ry ≠ y := by
    by_cases hz : ry = NIL
    · rw [hz]
      simp only [NIL]
      omega
    · exact fun hc => hyAy2 (hc ▸ hrymem hz)
  have hlyA : ly ≠ NIL → ly ∈ A := fun hne => hSxA ly (by
    rw [hSxmem]
    exact Or.inr (Or.inr (hlyAR hne)))
  have hryA : ry ≠ NIL → ry ∈ A := fun hne => hSxA ry (by
    rw [hSxmem]
    exact Or.inr (Or.inr (hryAR hne)))
  have hlyb : ly ≠ NIL → ly < s.nodes.length := fun hne =>
    (IsT_mem hT ly (hlyA hne)).2.1
  have hqcase : (x = t ∧ q = ROOT) ∨ (q ∈ A ∧ ((getN s q).left = x ∨ (getN s q).right = x)) := by
    rcases IsT_parent_child hT x hxA with hxt | ⟨hqA, hchild⟩
    · left
      refine ⟨hxt, ?_⟩
      rw [hqdef, hxt]
      exact IsT_pidx hT (by rw [← hxt]; exact hxnil)
    · right
      exact ⟨hqA, hchild⟩
  have hqout : q ∉ Sx := IsT_parent_outside hT hxA hSx
  have hpx : q ≠ x := fun hc => hqout (by rw [hSxmem]; exact Or.inl hc)
  have hpy : q ≠ y := fun hc => hqout (by rw [hSxmem]; exact Or.inr (Or.inr (hc ▸ hyAR)))
  have hply : q ≠ ly := by
    by_cases hz : ly = NIL
    · rw [hz]
      rcases hqcase with ⟨-, hq0⟩ | ⟨hqA, -⟩
      · rw [hq0]
        unfold ROOT NIL
        omega
      · have := (IsT_mem hT q hqA).1
        simp only [NIL]
        omega
    · exact fun hc => hqout (by rw [hSxmem]; exact Or.inr (Or.inr (hc ▸ hlyAR hz)))
  have hpb : q < s.nodes.length := by
    rcases hqcase with ⟨-, hq0⟩ | ⟨hqA, -⟩
    · rw [hq0]
      unfold ROOT
      omega
    · exact (IsT_mem hT q hqA).2.1
  obtain ⟨e1, e2, e3, e4, e5, gx, gy, gly, gp, gframe, sframe, sx, sy⟩ :=
    rotate_left_ok hxb hx2 hyb hy2 hxy hlyx hlyy hlyb hpx hpy hply hpb hryx hnv hf h
  simp only [← hydef, ← hlydef, ← hrydef, ← hqdef] at gx gy gly gp gframe sframe sx sy
  have hlen' : s.nodes.length ≤ s'.nodes.length := le_of_eq e1.symm
  have hM : s.nodes.length ≤ Invalid := hlenM
  have hxInv : x ≠ Invalid := by
    have hc := lt_of_lt_of_le hxb hM
    omega
  have hyInv : y ≠ Invalid := by
    have hc := lt_of_lt_of_le hyb hM
    omega
  have hqInv : q ≠ Invalid := by
    have hc := lt_of_lt_of_le hpb hM
    omega
  have hALAy1 : ∀ i ∈ AL, i ∉ Ay1 := by
    intro i hi hc
    exact hALAR hi (by rw [hAReq]; simp [List.mem_cons, List.mem_append, hc])
  have hALAy2 : ∀ i ∈ AL, i ∉ Ay2 := by
    intro i hi hc
    exact hALAR hi (by rw [hAReq]; simp [List.mem_cons, List.mem_append, hc])
  have hAy1AR : ∀ i ∈ Ay1, i ∈ AR := by
    intro i hi
    rw [hAReq]
    simp [List.mem_cons, List.mem_append, hi]
  have hAy2AR : ∀ i ∈ Ay2, i ∈ AR := by
    intro i hi
    rw [hAReq]
    simp [List.mem_cons, List.mem_append, hi]
  have hmemA : ∀ i, (i = x ∨ i ∈ AL ∨ i ∈ AR) → i ∈ A := by
    intro i hi
    exact hSxA i (by rw [hSxmem]; exact hi)
  -- the untouched-slot frame, with deletedness
  have hframeF : ∀ i ∈ A, i ∉ Sx → i ≠ q →
      (getN s' i).left = (getN s i).left ∧ (getN s' i).right = (getN s i).right ∧
      (getN s' i).pidx = (getN s i).pidx ∧ (getN s' i).is_deleted = false := by
    intro i hiA hiSx hiq
    have hix : i ≠ x := fun hc => hiSx (by rw [hSxmem]; exact Or.inl hc)
    have hiy : i ≠ y := fun hc => hiSx (by rw [hSxmem]; exact Or.inr (Or.inr (hc ▸ hyAR)))
    have hily : ly ≠ NIL → i ≠ ly := fun hne hc =>
      hiSx (by rw [hSxmem]; exact Or.inr (Or.inr (hc ▸ hlyAR hne)))
    rw [gframe i hix hiy hiq hily]
    exact ⟨rfl, rfl, rfl, (IsT_mem hT i hiA).2.2⟩
  -- rebuild the rotated subtree
  have hAL' : IsT s' ((getN s x).left) x AL := by
    refine IsT_congr hL hlen' fun i hi => ?_
    have hix : i ≠ x := fun hc => hxAL (hc ▸ hi)
    have hiy : i ≠ y := fun hc => hALAR hi (hc ▸ hyAR)
    have hiq : i ≠ q := fun hc => hqout (by rw [hSxmem]; exact Or.inr (Or.inl (hc ▸ hi)))
    have hily : ly ≠ NIL → i ≠ ly := fun hne hc => hALAR hi (hc ▸ hlyAR hne)
    rw [gframe i hix hiy hiq hily]
    exact ⟨rfl, rfl, rfl, (IsT_mem hT i (hmemA i (Or.inr (Or.inl hi)))).2.2⟩
  have hAy1' : IsT s' ly x Ay1 := by
    refine IsT_reparent hyL hlen' (fun hne => ?_) (fun i hi hne => ?_)
    · rw [gly hne]
      refine ⟨rfl, rfl, rfl, ?_⟩
      exact is_deleted_false_of_pidx hxInv
    · have hix : i ≠ x := fun hc => hxAR (hc ▸ hAy1AR i hi)
      have hiy : i ≠ y := fun hc => hyAy1 (hc ▸ hi)
      have hiq : i ≠ q := fun hc => hqout (by
        rw [hSxmem]
        exact Or.inr (Or.inr (hc ▸ hAy1AR i hi)))
      rw [gframe i hix hiy hiq (fun _ => hne)]
      exact ⟨rfl, rfl, rfl,
        (IsT_mem hT i (hmemA i (Or.inr (Or.inr (hAy1AR i hi))))).2.2⟩
  have hxnode : IsT s' x y (x :: (AL ++ Ay1)) := by
    refine IsT.node hx2 (by rw [e1]; exact hxb) ?_ ?_ ?_ ?_ ?_
    · rw [gx]
      exact is_deleted_false_of_pidx hyInv
    · rw [gx]
    · rw [show (getN s' x).left = (getN s x).left by rw [gx]]
      exact hAL'
    · rw [show (getN s' x).right = ly by rw [gx]]
      exact hAy1'
    · rw [List.nodup_cons, List.nodup_append]
      refine ⟨?_, hALnd, hAy1nd, ?_⟩
      · intro hc
        rcases List.mem_append.mp hc with hc | hc
        · exact hxAL hc
        · exact hxAR (hAy1AR x hc)
      · intro i hi hc
        exact hALAy1 i hi hc
  have hAy2' : IsT s' ry y Ay2 := by
    refine IsT_congr hyR hlen' fun i hi => ?_
    have hix : i ≠ x := fun hc => hxAR (hc ▸ hAy2AR i hi)
    have hiy : i ≠ y := fun hc => hyAy2 (hc ▸ hi)
    have hiq : i ≠ q := fun hc => hqout (by
      rw [hSxmem]
      exact Or.inr (Or.inr (hc ▸ hAy2AR i hi)))
    have hily : ly ≠ NIL → i ≠ ly := fun hne hc => hAy12 (hc ▸ hlymem hne) hi
    rw [gframe i hix hiy hiq hily]
    exact ⟨rfl, rfl, rfl,
      (IsT_mem hT i (hmemA i (Or.inr (Or.inr (hAy2AR i hi))))).2.2⟩
  have hS' : IsT s' y q (y :: ((x :: (AL ++ Ay1)) ++ Ay2)) := by
    refine IsT.node hy2 (by rw [e1]; exact hyb) ?_ ?_ ?_ ?_ ?_
    · rw [gy]
      exact is_deleted_false_of_pidx hqInv
    · rw [gy]
    · rw [show (getN s' y).left = x by rw [gy]]
      exact hxnode
    · rw [show (getN s' y).right = ry by rw [gy]]
      exact hAy2'
    · rw [List.nodup_cons, List.nodup_append, List.nodup_cons, List.nodup_append]
      refine ⟨?_, ⟨?_, hALnd, hAy1nd, fun i hi => hALAy1 i hi⟩, hAy2nd, ?_⟩
      · intro hc
        rcases List.mem_cons.mp hc with hc | hc
        · exact hxy hc.symm
        · rcases List.mem_append.mp hc with hc | hc
          · rcases List.mem_append.mp hc with hc | hc
            · exact hALAR hc hyAR
            · exact hyAy1 hc
          · exact hyAy2 hc
      · intro hc
        rcases List.mem_append.mp hc with hc | hc
        · exact hxAL hc
        · exact hxAR (hAy1AR x hc)
      · intro i hi hc
        rcases List.mem_cons.mp hi with hi | hi
        · exact hxAR (hi ▸ hAy2AR _ hc)
        · rcases List.mem_append.mp hi with hi | hi
          · exact hALAy2 i hi hc
          · exact hAy12 hi hc
  have hSmemS' : ∀ i, i ∈ (y :: ((x :: (AL ++ Ay1)) ++ Ay2)) ↔ i ∈ Sx := by
    intro i
    rw [hSxmem, hAReq]
    simp only [List.mem_cons, List.mem_append]
    constructor
    · rintro (hi | (hi | hi | hi) | hi)
      · exact Or.inr (Or.inr (Or.inl hi))
      · exact Or.inl hi
      · exact Or.inr (Or.inl hi)
      · exact Or.inr (Or.inr (Or.inr (Or.inl hi)))
      · exact Or.inr (Or.inr (Or.inr (Or.inr hi)))
    · rintro (hi | hi | hi | hi | hi)
      · exact Or.inr (Or.inl (Or.inl hi))
      · exact Or.inr (Or.inl (Or.inr (Or.inl hi)))
      · exact Or.inl hi
      · exact Or.inr (Or.inl (Or.inr (Or.inr hi)))
      · exact Or.inr (Or.inr hi)
  have hq2 : x = t ∨
      ((getN s' q).left = (if (getN s q).left = x then y else (getN s q).left) ∧
       (getN s' q).right = (if (getN s q).right = x then y else (getN s q).right) ∧
       (getN s' q).pidx = (getN s q).pidx ∧ (getN s' q).is_deleted = false) := by
    rcases hqcase with ⟨hxt, -⟩ | ⟨hqA, hchild⟩
    · exact Or.inl hxt
    · right
      rw [gp]
      by_cases hrq : (getN s q).right = x
      · rw [if_pos hrq, if_pos hrq]
        have hlq : (getN s q).left ≠ x := by
          intro hc
          exact IsT_child_unique hT hqA hxnil hc hrq
        rw [if_neg hlq]
        refine ⟨rfl, rfl, rfl, ?_⟩
        have hdq := (IsT_mem hT q hqA).2.2
        unfold Node.is_deleted at hdq ⊢
        exact hdq
      · have hlq : (getN s q).left = x := by
          rcases hchild with hc | hc
          · exact hc
          · exact absurd hc hrq
        rw [if_neg hrq, if_neg hrq, if_pos hlq]
        refine ⟨rfl, rfl, rfl, ?_⟩
        have hdq := (IsT_mem hT q hqA).2.2
        unfold Node.is_deleted at hdq ⊢
        exact hdq
  obtain ⟨A', hA'tree, hA'mem⟩ :=
    IsT_graft hT hxA hSx hS'
      (fun i hi => Or.inl ((hSmemS' i).mp hi)) hlen' hframeF hq2
  have hmemAA' : ∀ i, i ∈ A' ↔ i ∈ A := by
    intro i
    rw [hA'mem i]
    constructor
    · intro hi
      rcases hi with ⟨hi, -⟩ | hi
      · exact hi
      · exact hSxA i ((hSmemS' i).mp hi)
    · intro hi
      by_cases hiSx : i ∈ Sx
      · exact Or.inr ((hSmemS' i).mpr hiSx)
      · exact Or.inl ⟨hi, hiSx⟩
  -- child-identification helpers for the sum bookkeeping
  have hchild_x : ∀ hh ∈ A, ((getN s hh).left = x ∨ (getN s hh).right = x) → hh = q := by
    intro hh hhA hc
    rw [hqdef]
    exact ((IsT_coherent_child hT hh hhA x hc hxnil).2).symm
  have hchild_y : ∀ hh ∈ A, ((getN s hh).left = y ∨ (getN s hh).right = y) → hh = x := by
    intro hh hhA hc
    have := (IsT_coherent_child hT hh hhA y hc hynil).2
    rw [hy4] at this
    exact this.symm
  have hlxne : (getN s x).left ≠ NIL → (getN s x).left ≠ x ∧ (getN s x).left ≠ y := by
    intro hne
    constructor
    · exact (IsT_child_ne_self hT x hxA).1
    · intro hc
      exact hALAR (hc ▸ IsT_root_mem hL hne) hyAR
  have hcsframe : ∀ z, z ≠ x → z ≠ y → csum c s' z = csum c s z := by
    intro z hz1 hz2
    unfold csum
    split
    · rfl
    · exact sframe z hz1 hz2
  have hvy := sy
  rw [sx] at hvy
  -- the risen node's new sum equals the sunk node's old sum
  have hshift : get_node_sum c s' y = get_node_sum c s x := by
    rw [hvy]
    have hex := hsums x hxA
    unfold sumEq at hex
    rw [hex]
    have hey := hsums y hyA
    unfold sumEq at hey
    have hcy : csum c s y = get_node_sum c s y := by
      unfold csum
      rw [if_neg hynil]
    rw [← hydef, hcy, hey, ← hlydef, ← hrydef]
    exact rot_sum_shift _ _ _ _ _
  refine ⟨A', ⟨?_, ?_, ?_, ?_, ?_, ?_, ?_, ?_, ?_⟩, hmemAA', e1, e3, e4, e5, gy, gx⟩
  · rw [e2, e1]
    exact hnv
  · rw [e1]
    exact hlen2
  · rw [e1]
    exact hlenM
  · -- the root sentinel's left child is still nil
    by_cases hxt : x = t
    · have hq0 : q = ROOT := by
        rw [hqdef, hxt]
        exact IsT_pidx hT (by rw [← hxt]; exact hxnil)
      rw [hq0] at gp
      rw [gp]
      have hrt : (getN s ROOT).right = x := by rw [← htdef, ← hxt]
      rw [if_pos hrt]
      exact hrl
    · have hqA : q ∈ A := by
        rcases hqcase with ⟨hc, -⟩ | ⟨hc, -⟩
        · exact absurd hc hxt
        · exact hc
      have hr0 : (ROOT : Nat) ≠ x := by unfold ROOT; omega
      have hr1 : (ROOT : Nat) ≠ y := by unfold ROOT; omega
      have hr2 : (ROOT : Nat) ≠ q := by
        have := (IsT_mem hT q hqA).1
        unfold ROOT
        omega
      have hr3 : ly ≠ NIL → (ROOT : Nat) ≠ ly := by
        intro hne
        have := (IsT_mem hT ly (hlyA hne)).1
        unfold ROOT
        omega
      rw [gframe ROOT hr0 hr1 hr2 hr3]
      exact hrl
  · -- the nil sentinel stays black
    have hn0 : (NIL : Nat) ≠ x := fun hc => hxnil hc.symm
    have hn1 : (NIL : Nat) ≠ y := fun hc => hynil hc.symm
    have hn2 : (NIL : Nat) ≠ q := by
      rcases hqcase with ⟨-, hc⟩ | ⟨hc, -⟩
      · rw [hc]
        unfold NIL ROOT
        omega
      · have := (IsT_mem hT q hc).1
        simp only [NIL]
        omega
    have hn3 : ly ≠ NIL → (NIL : Nat) ≠ ly := fun hne hc => hne hc.symm
    rw [gframe NIL hn0 hn1 hn2 hn3]
    exact hnb
  · -- the rebuilt tree
    by_cases hxt : x = t
    · have hq0 : q = ROOT := by
        rw [hqdef, hxt]
        exact IsT_pidx hT (by rw [← hxt]; exact hxnil)
      rw [hq0] at gp
      have hrt : (getN s ROOT).right = x := by rw [← htdef, ← hxt]
      have hroot' : (getN s' ROOT).right = y := by
        rw [gp, if_pos hrt]
      rw [hroot']
      rw [if_pos hxt] at hA'tree
      exact hA'tree
    · have hqA : q ∈ A := by
        rcases hqcase with ⟨hc, -⟩ | ⟨hc, -⟩
        · exact absurd hc hxt
        · exact hc
      have hr0 : (ROOT : Nat) ≠ x := by unfold ROOT; omega
      have hr1 : (ROOT : Nat) ≠ y := by unfold ROOT; omega
      have hr2 : (ROOT : Nat) ≠ q := by
        have := (IsT_mem hT q hqA).1
        unfold ROOT
        omega
      have hr3 : ly ≠ NIL → (ROOT : Nat) ≠ ly := by
        intro hne
        have := (IsT_mem hT ly (hlyA hne)).1
        unfold ROOT
        omega
      have hroot' : (getN s' ROOT).right = t := by
        rw [gframe ROOT hr0 hr1 hr2 hr3]
      rw [hroot']
      rw [if_neg hxt] at hA'tree
      exact hA'tree
  · -- the free list is untouched
    rw [e4]
    refine FreeL_congr hF hlen' fun i hi => ?_
    have hiA : i ∉ A := by
      intro hc
      have h1 := (IsT_mem hT i hc).2.2
      have h2 := (FreeL_mem hF i hi).2.2
      rw [h1] at h2
      exact Bool.noConfusion h2
    have hix : i ≠ x := fun hc => hiA (hc ▸ hxA)
    have hiy : i ≠ y := fun hc => hiA (hc ▸ hyA)
    have hiq : i ≠ q := by
      rcases hqcase with ⟨-, hc⟩ | ⟨hc, -⟩
      · rw [hc]
        have := (FreeL_mem hF i hi).1
        unfold ROOT
        omega
      · exact fun hcc => hiA (hcc ▸ hc)
    have hily : ly ≠ NIL → i ≠ ly := fun hne hc => hiA (hc ▸ hlyA hne)
    rw [gframe i hix hiy hiq hily]
    exact ⟨rfl, rfl, (FreeL_mem hF i hi).2.2⟩
  · -- slot coverage
    intro i hi2 hilt
    rw [e1] at hilt
    rcases hcover i hi2 hilt with hc | hc
    · exact Or.inl ((hmemAA' i).mpr hc)
    · exact Or.inr hc
  · -- the augmentation equations
    intro hh hhA'
    have hhA : hh ∈ A := (hmemAA' hh).mp hhA'
    by_cases hhx : hh = x
    · rw [hhx]
      unfold sumEq get_node_grvalue
      rw [sx, gx]
      show _ = addL (addL (c.f (getN s x).key (getN s x).val) (csum c s' (getN s x).left))
        (csum c s' ly)
      have hcl : csum c s' (getN s x).left = csum c s (getN s x).left := by
        by_cases hz : (getN s x).left = NIL
        · rw [hz]; rfl
        · exact hcsframe _ (hlxne hz).1 (hlxne hz).2
      have hcly : csum c s' ly = csum c s ly := by
        by_cases hz : ly = NIL
        · rw [hz]; rfl
        · exact hcsframe _ hlyx hlyy
      rw [hcl, hcly]
      rfl
    · by_cases hhy : hh = y
      · rw [hhy]
        unfold sumEq get_node_grvalue
        rw [sy, gy]
        show _ = addL (addL (c.f (getN s y).key (getN s y).val) (csum c s' x))
          (csum c s' ry)
        have hcx : csum c s' x = get_node_sum c s' x := by
          unfold csum
          rw [if_neg hxnil]
        have hcr : csum c s' ry = csum c s ry := by
          by_cases hz : ry = NIL
          · rw [hz]; rfl
          · exact hcsframe _ hryx hryy
        rw [hcx, hcr]
        rfl
      · by_cases hhq : hh = q
        · -- the parent: one child pointer moved from x to y
          have hqA : q ∈ A := hhq ▸ hhA
          have heq := hsums q hqA
          unfold sumEq get_node_grvalue at heq ⊢
          rw [hhq]
          have hsq : get_node_sum c s' q = get_node_sum c s q := sframe q hpx hpy
          have hlqy : (getN s q).left ≠ y := by
            intro hc
            exact hpx (hchild_y q hqA (Or.inl hc))
          have hrqy : (getN s q).right ≠ y := by
            intro hc
            exact hpx (hchild_y q hqA (Or.inr hc))
          have hcsy : csum c s' y = get_node_sum c s x := by
            unfold csum
            rw [if_neg hynil]
            exact hshift
          have hcsx : csum c s x = get_node_sum c s x := by
            unfold csum
            rw [if_neg hxnil]
          rw [gp]
          by_cases hrq : (getN s q).right = x
          · rw [if_pos hrq]
            have hlq : (getN s q).left ≠ x := by
              intro hc
              exact IsT_child_unique hT hqA hxnil hc hrq
            show get_node_sum c s' q =
              addL (addL (c.f (getN s q).key (getN s q).val) (csum c s' (getN s q).left))
                (csum c s' y)
            rw [hsq, hcsy, hcsframe _ hlq hlqy, ← hcsx, ← hrq]
            exact heq
          · have hlq : (getN s q).left = x := by
              rcases hqcase with ⟨hc, hc0⟩ | ⟨-, hc⟩
              · rw [hc0] at hqA
                have := (IsT_mem hT ROOT hqA).1
                unfold ROOT at this
                omega
              · rcases hc with hc | hc
                · exact hc
                · exact absurd hc hrq
            rw [if_neg hrq]
            show get_node_sum c s' q =
              addL (addL (c.f (getN s q).key (getN s q).val) (csum c s' y))
                (csum c s' (getN s q).right)
            rw [hsq, hcsy, hcsframe _ hrq hrqy, ← hcsx, ← hlq]
            exact heq
        · -- an untouched node
          by_cases hhly : hh = ly
          · have hlynil : ly ≠ NIL := by
              intro hc
              rw [hhly, hc] at hhA
              have := (IsT_mem hT NIL hhA).1
              simp only [NIL] at this
              omega
            obtain ⟨Sly, hSly, hSlysub, hSlyself⟩ :=
              IsT_sub hyL ly (IsT_root_mem hyL hlynil)
            have hchly : ∀ o, ((getN s ly).left = o ∨ (getN s ly).right = o) → o ≠ NIL →
                o ≠ x ∧ o ≠ y := by
              intro o ho honil
              have hoin := (IsT_coherent_child hSly ly hSlyself o ho honil).1
              have hoAy1 : o ∈ Ay1 := hSlysub o hoin
              exact ⟨fun hc => hxAR (hc ▸ hAy1AR o hoAy1),
                fun hc => hyAy1 (hc ▸ hoAy1)⟩
            rw [hhly]
            refine sumEq_congrF ?_ ?_ ?_ ?_ ?_ ?_ ?_ (hsums ly (hhly ▸ hhA))
            · rw [gly hlynil]
            · rw [gly hlynil]
            · rw [gly hlynil]
            · rw [gly hlynil]
            · exact sframe ly hlyx hlyy
            · by_cases hz : (getN s ly).left = NIL
              · rw [hz]; rfl
              · exact hcsframe _ (hchly _ (Or.inl rfl) hz).1 (hchly _ (Or.inl rfl) hz).2
            · by_cases hz : (getN s ly).right = NIL
              · rw [hz]; rfl
              · exact hcsframe _ (hchly _ (Or.inr rfl) hz).1 (hchly _ (Or.inr rfl) hz).2
          · -- fully untouched
            have hg := gframe hh hhx hhy hhq (fun _ => hhly)
            have hchh : ∀ o, ((getN s hh).left = o ∨ (getN s hh).right = o) → o ≠ NIL →
                o ≠ x ∧ o ≠ y := by
              intro o ho honil
              constructor
              · intro hc
                exact hhq (hchild_x hh hhA (by rw [← hc]; exact ho))
              · intro hc
                exact hhx (hchild_y hh hhA (by rw [← hc]; exact ho))
            refine sumEq_congrF ?_ ?_ ?_ ?_ ?_ ?_ ?_ (hsums hh hhA)
            · rw [hg]
            · rw [hg]
            · rw [hg]
            · rw [hg]
            · exact sframe hh hhx hhy
            · by_cases hz : (getN s hh).left = NIL
              · rw [hz]; rfl
              · exact hcsframe _ (hchh _ (Or.inl rfl) hz).1 (hchh _ (Or.inl rfl) hz).2
            · by_cases hz : (getN s hh).right = NIL
              · rw [hz]; rfl
              · exact hcsframe _ (hchh _ (Or.inr rfl) hz).1 (hchh _ (Or.inr rfl) hz).2

set_option maxHeartbeats 1600000 in
/-- `rotate_right` at a tree node with a real left child preserves the
global invariant, the mirror image of `rotate_left_inv`. -/
theorem rotate_right_inv {c : Ctx} (hf : ∀ k v, (c.f k v).length = c.D)
    {s s' : TState} {x : Nat} {A F : List Nat}
    (hI : InvAt c s A F) (hxA : x ∈ A) (hyA : (getN s x).left ∈ A)
    (h : rotate_right c s x = .ok s') :
    ∃ A', InvAt c s' A' F ∧ (∀ i, i ∈ A' ↔ i ∈ A) ∧
      s'.nodes.length = s.nodes.length ∧ s'.n_del = s.n_del ∧
      s'.deleted_nodes_head = s.deleted_nodes_head ∧ s'.size1 = s.size1 ∧
      getN s' ((getN s x).left) =
        { getN s (getN s x).left with right := x, pidx := (getN s x).pidx } ∧
      getN s' x = { getN s x with left := (getN s (getN s x).left).right, pidx := (getN s x).left } := by
  obtain ⟨hnv, hlen2, hlenM, hrl, hnb, hT, hF, hcover, hsums⟩ := hI
  have hxm := IsT_mem hT x hxA
  have hym := IsT_mem hT ((getN s x).left) hyA
  have hxb : x < s.nodes.length := hxm.2.1
  have hx2 : 2 ≤ x := hxm.1
  have hyb : (getN s x).left < s.nodes.length := hym.2.1
  have hy2 : 2 ≤ (getN s x).left := hym.1
  set y := (getN s x).left with hydef
  set mv := (getN s y).right with hmvdef
  set st := (getN s y).left with hstdef
  set q := (getN s x).pidx with hqdef
  set t := (getN s ROOT).right with htdef
  have hxnil : x ≠ NIL := by simp only [NIL]; omega
  have hynil : y ≠ NIL := by simp only [NIL]; omega
  -- dig out the subtree at x and the one at y
  obtain ⟨Sx, hSx, hSxsub, hSxself⟩ := IsT_sub hT x hxA
  obtain ⟨AL, AR, hSxeq, -, hL, hR, h7x⟩ := IsT_node_inv hSx hxnil
  obtain ⟨Ay1, Ay2, hALeq, hy4, hyL, hyR, h7y⟩ := IsT_node_inv hL hynil
  rw [← hydef] at hL hyL hyR h7y hALeq hy4
  rw [← hstdef] at hyL
  rw [← hmvdef] at hyR
  have h7x' := h7x
  rw [List.nodup_cons, List.nodup_append] at h7x'
  obtain ⟨hxAB, hALnd, hARnd, hALAR⟩ := h7x'
  have h7y' := h7y
  rw [List.nodup_cons, List.nodup_append] at h7y'
  obtain ⟨hyAB, hAy1nd, hAy2nd, hAy12⟩ := h7y'
  have hxAL : x ∉ AL := fun hc => hxAB (List.mem_append.mpr (Or.inl hc))
  have hxAR : x ∉ AR := fun hc => hxAB (List.mem_append.mpr (Or.inr hc))
  have hyAy1 : y ∉ Ay1 := fun hc => hyAB (List.mem_append.mpr (Or.inl hc))
  have hyAy2 : y ∉ Ay2 := fun hc => hyAB (List.mem_append.mpr (Or.inr hc))
  have hyAL : y ∈ AL := by rw [hALeq]; exact List.mem_cons_self ..
  have hSxmem : ∀ i, i ∈ Sx ↔ (i = x ∨ i ∈ AL ∨ i ∈ AR) := by
    intro i
    rw [hSxeq]
    simp [List.mem_cons, List.mem_append]
  have hSxA : ∀ i ∈ Sx, i ∈ A := hSxsub
  have hxy : x ≠ y := fun hc => hxAL (hc ▸ hyAL)
  have hmvmem : mv ≠ NIL → mv ∈ Ay2 := fun hne => IsT_root_mem hyR hne
  have hstmem : st ≠ NIL → st ∈ Ay1 := fun hne => IsT_root_mem hyL hne
  have hmvAL : mv ≠ NIL → mv ∈ AL := fun hne => by
    rw [hALeq]
    simp [List.mem_cons, List.mem_append, hmvmem hne]
  have hstAL : st ≠ NIL → st ∈ AL := fun hne => by
    rw [hALeq]
    simp [List.mem_cons, List.mem_append, hstmem hne]
  have hmvx : mv ≠ x := by
    by_cases hz : mv = NIL
    · rw [hz]
      simp only [NIL]
      omega
    · exact fun hc => hxAL (hc ▸ hmvAL hz)
  have hmvy : mv ≠ y := by
    by_cases hz : mv = NIL
    · rw [hz]
      simp only [NIL]
      omega
    · exact fun hc => hyAy2 (hc ▸ hmvmem hz)
  have hstx : st ≠ x := by
    by_cases hz : st = NIL
    · rw [hz]
      simp only [NIL]
      omega
    · exact fun hc => hxAL (hc ▸ hstAL hz)
  have hsty : st ≠ y := by
    by_cases hz : st = NIL
    · rw [hz]
      simp only [NIL]
      omega
    · exact fun hc => hyAy1 (hc ▸ hstmem hz)
  have hmvA : mv ≠ NIL → mv ∈ A := fun hne => hSxA mv (by
    rw [hSxmem]
    exact Or.inr (Or.inl (hmvAL hne)))
  have hstA : st ≠ NIL → st ∈ A := fun hne => hSxA st (by
    rw [hSxmem]
    exact Or.inr (Or.inl (hstAL hne)))
  have hmvb : mv ≠ NIL → mv < s.nodes.length := fun hne =>
    (IsT_mem hT mv (hmvA hne)).2.1
  have hqcase : (x = t ∧ q = ROOT) ∨ (q ∈ A ∧ ((getN s q).left = x ∨ (getN s q).right = x)) := by
    rcases IsT_parent_child hT x hxA with hxt | ⟨hqA, hchild⟩
    · left
      refine ⟨hxt, ?_⟩
      rw [hqdef, hxt]
      exact IsT_pidx hT (by rw [← hxt]; exact hxnil)
    · right
      exact ⟨hqA, hchild⟩
  have hqout : q ∉ Sx := IsT_parent_outside hT hxA hSx
  have hpx : q ≠ x := fun hc => hqout (by rw [hSxmem]; exact Or.inl hc)
  have hpy : q ≠ y := fun hc => hqout (by rw [hSxmem]; exact Or.inr (Or.inl (hc ▸ hyAL)))
  have hpmv : q ≠ mv := by
    by_cases hz : mv = NIL
    · rw [hz]
      rcases hqcase with ⟨-, hq0⟩ | ⟨hqA, -⟩
      · rw [hq0]
        unfold ROOT NIL
        omega
      · have := (IsT_mem hT q hqA).1
        simp only [NIL]
        omega
    · exact fun hc => hqout (by rw [hSxmem]; exact Or.inr (Or.inl (hc ▸ hmvAL hz)))
  have hpb : q < s.nodes.length := by
    rcases hqcase with ⟨-, hq0⟩ | ⟨hqA, -⟩
    · rw [hq0]
      unfold ROOT
      omega
    · exact (IsT_mem hT q hqA).2.1
  obtain ⟨e1, e2, e3, e4, e5, gx, gy, gmv, gp, gframe, sframe, sx, sy⟩ :=
    rotate_right_ok hxb hx2 hyb hxy hmvx hmvy hmvb hpx hpy hpmv hpb hstx hnv hf h
  simp only [← hydef, ← hmvdef, ← hstdef, ← hqdef] at gx gy gmv gp gframe sframe sx sy
  have hlen' : s.nodes.length ≤ s'.nodes.length := le_of_eq e1.symm
  have hM : s.nodes.length ≤ Invalid := hlenM
  have hxInv : x ≠ Invalid := by
    have hc := lt_of_lt_of_le hxb hM
    omega
  have hyInv : y ≠ Invalid := by
    have hc := lt_of_lt_of_le hyb hM
    omega
  have hqInv : q ≠ Invalid := by
    have hc := lt_of_lt_of_le hpb hM
    omega
  have hARAy1 : ∀ i ∈ AR, i ∉ Ay1 := by
    intro i hi hc
    exact hALAR (by rw [hALeq]; simp [List.mem_cons, List.mem_append, hc]) hi
  have hARAy2 : ∀ i ∈ AR, i ∉ Ay2 := by
    intro i hi hc
    exact hALAR (by rw [hALeq]; simp [List.mem_cons, List.mem_append, hc]) hi
  have hAy1AL : ∀ i ∈ Ay1, i ∈ AL := by
    intro i hi
    rw [hALeq]
    simp [List.mem_cons, List.mem_append, hi]
  have hAy2AL : ∀ i ∈ Ay2, i ∈ AL := by
    intro i hi
    rw [hALeq]
    simp [List.mem_cons, List.mem_append, hi]
  have hmemA : ∀ i, (i = x ∨ i ∈ AL ∨ i ∈ AR) → i ∈ A := by
    intro i hi
    exact hSxA i (by rw [hSxmem]; exact hi)
  have hframeF : ∀ i ∈ A, i ∉ Sx → i ≠ q →
      (getN s' i).left = (getN s i).left ∧ (getN s' i).right = (getN s i).right ∧
      (getN s' i).pidx = (getN s i).pidx ∧ (getN s' i).is_deleted = false := by
    intro i hiA hiSx hiq
    have hix : i ≠ x := fun hc => hiSx (by rw [hSxmem]; exact Or.inl hc)
    have hiy : i ≠ y := fun hc => hiSx (by rw [hSxmem]; exact Or.inr (Or.inl (hc ▸ hyAL)))
    have himv : mv ≠ NIL → i ≠ mv := fun hne hc =>
      hiSx (by rw [hSxmem]; exact Or.inr (Or.inl (hc ▸ hmvAL hne)))
    rw [gframe i hix hiy hiq himv]
    exact ⟨rfl, rfl, rfl, (IsT_mem hT i hiA).2.2⟩
  have hAR' : IsT s' ((getN s x).right) x AR := by
    refine IsT_congr hR hlen' fun i hi => ?_
    have hix : i ≠ x := fun hc => hxAR (hc ▸ hi)
    have hiy : i ≠ y := fun hc => hALAR (hc ▸ hyAL) hi
    have hiq : i ≠ q := fun hc => hqout (by rw [hSxmem]; exact Or.inr (Or.inr (hc ▸ hi)))
    have himv : mv ≠ NIL → i ≠ mv := fun hne hc => hALAR (hc ▸ hmvAL hne) hi
    rw [gframe i hix hiy hiq himv]
    exact ⟨rfl, rfl, rfl, (IsT_mem hT i (hmemA i (Or.inr (Or.inr hi)))).2.2⟩
  have hAy2' : IsT s' mv x Ay2 := by
    refine IsT_reparent hyR hlen' (fun hne => ?_) (fun i hi hne => ?_)
    · rw [gmv hne]
      refine ⟨rfl, rfl, rfl, ?_⟩
      exact is_deleted_false_of_pidx hxInv
    · have hix : i ≠ x := fun hc => hxAL (hc ▸ hAy2AL i hi)
      have hiy : i ≠ y := fun hc => hyAy2 (hc ▸ hi)
      have hiq : i ≠ q := fun hc => hqout (by
        rw [hSxmem]
        exact Or.inr (Or.inl (hc ▸ hAy2AL i hi)))
      rw [gframe i hix hiy hiq (fun _ => hne)]
      exact ⟨rfl, rfl, rfl,
        (IsT_mem hT i (hmemA i (Or.inr (Or.inl (hAy2AL i hi))))).2.2⟩
  have hxnode : IsT s' x y (x :: (Ay2 ++ AR)) := by
    refine IsT.node hx2 (by rw [e1]; exact hxb) ?_ ?_ ?_ ?_ ?_
    · rw [gx]
      exact is_deleted_false_of_pidx hyInv
    · rw [gx]
    · rw [show (getN s' x).left = mv by rw [gx]]
      exact hAy2'
    · rw [show (getN s' x).right = (getN s x).right by rw [gx]]
      exact hAR'
    · rw [List.nodup_cons, List.nodup_append]
      refine ⟨?_, hAy2nd, hARnd, ?_⟩
      · intro hc
        rcases List.mem_append.mp hc with hc | hc
        · exact hxAL (hAy2AL x hc)
        · exact hxAR hc
      · intro i hi hc
        exact hARAy2 _ hc hi
  have hAy1' : IsT s' st y Ay1 := by
    refine IsT_congr hyL hlen' fun i hi => ?_
    have hix : i ≠ x := fun hc => hxAL (hc ▸ hAy1AL i hi)
    have hiy : i ≠ y := fun hc => hyAy1 (hc ▸ hi)
    have hiq : i ≠ q := fun hc => hqout (by
      rw [hSxmem]
      exact Or.inr (Or.inl (hc ▸ hAy1AL i hi)))
    have himv : mv ≠ NIL → i ≠ mv := fun hne hc => hAy12 hi (hc ▸ hmvmem hne)
    rw [gframe i hix hiy hiq himv]
    exact ⟨rfl, rfl, rfl,
      (IsT_mem hT i (hmemA i (Or.inr (Or.inl (hAy1AL i hi))))).2.2⟩
  have hS' : IsT s' y q (y :: (Ay1 ++ (x :: (Ay2 ++ AR)))) := by
    refine IsT.node hy2 (by rw [e1]; exact hyb) ?_ ?_ ?_ ?_ ?_
    · rw [gy]
      exact is_deleted_false_of_pidx hqInv
    · rw [gy]
    · rw [show (getN s' y).left = st by rw [gy]]
      exact hAy1'
    · rw [show (getN s' y).right = x by rw [gy]]
      exact hxnode
    · rw [List.nodup_cons, List.nodup_append, List.nodup_cons, List.nodup_append]
      refine ⟨?_, hAy1nd, ⟨?_, hAy2nd, hARnd, fun i hi hc => hARAy2 _ hc hi⟩, ?_⟩
      · intro hc
        rcases List.mem_append.mp hc with hc | hc
        · exact hyAy1 hc
        · rcases List.mem_cons.mp hc with hc | hc
          · exact hxy hc.symm
          · rcases List.mem_append.mp hc with hc | hc
            · exact hyAy2 hc
            · exact hALAR hyAL hc
      · intro hc
        rcases List.mem_append.mp hc with hc | hc
        · exact hxAL (hAy2AL x hc)
        · exact hxAR hc
      · intro i hi hc
        rcases List.mem_cons.mp hc with hc | hc
        · exact hxAL (hc ▸ hAy1AL i hi)
        · rcases List.mem_append.mp hc with hc | hc
          · exact hAy12 hi hc
          · exact hALAR (hAy1AL i hi) hc
  have hSmemS' : ∀ i, i ∈ (y :: (Ay1 ++ (x :: (Ay2 ++ AR)))) ↔ i ∈ Sx := by
    intro i
    rw [hSxmem, hALeq]
    simp only [List.mem_cons, List.mem_append]
    constructor
    · rintro (hi | hi | hi | hi | hi)
      · exact Or.inr (Or.inl (Or.inl hi))
      · exact Or.inr (Or.inl (Or.inr (Or.inl hi)))
      · exact Or.inl hi
      · exact Or.inr (Or.inl (Or.inr (Or.inr hi)))
      · exact Or.inr (Or.inr hi)
    · rintro (hi | (hi | hi | hi) | hi)
      · exact Or.inr (Or.inr (Or.inl hi))
      · exact Or.inl hi
      · exact Or.inr (Or.inl hi)
      · exact Or.inr (Or.inr (Or.inr (Or.inl hi)))
      · exact Or.inr (Or.inr (Or.inr (Or.inr hi)))
  have hq2 : x = t ∨
      ((getN s' q).left = (if (getN s q).left = x then y else (getN s q).left) ∧
       (getN s' q).right = (if (getN s q).right = x then y else (getN s q).right) ∧
       (getN s' q).pidx = (getN s q).pidx ∧ (getN s' q).is_deleted = false) := by
    rcases hqcase with ⟨hxt, -⟩ | ⟨hqA, hchild⟩
    · exact Or.inl hxt
    · right
      rw [gp]
      by_cases hrq : (getN s q).right = x
      · rw [if_pos hrq, if_pos hrq]
        have hlq : (getN s q).left ≠ x := by
          intro hc
          exact IsT_child_unique hT hqA hxnil hc hrq
        rw [if_neg hlq]
        refine ⟨rfl, rfl, rfl, ?_⟩
        have hdq := (IsT_mem hT q hqA).2.2
        unfold Node.is_deleted at hdq ⊢
        exact hdq
      · have hlq : (getN s q).left = x := by
          rcases hchild with hc | hc
          · exact hc
          · exact absurd hc hrq
        rw [if_neg hrq, if_neg hrq, if_pos hlq]
        refine ⟨rfl, rfl, rfl, ?_⟩
        have hdq := (IsT_mem hT q hqA).2.2
        unfold Node.is_deleted at hdq ⊢
        exact hdq
  obtain ⟨A', hA'tree, hA'mem⟩ :=
    IsT_graft hT hxA hSx hS'
      (fun i hi => Or.inl ((hSmemS' i).mp hi)) hlen' hframeF hq2
  have hmemAA' : ∀ i, i ∈ A' ↔ i ∈ A := by
    intro i
    rw [hA'mem i]
    constructor
    · intro hi
      rcases hi with ⟨hi, -⟩ | hi
      · exact hi
      · exact hSxA i ((hSmemS' i).mp hi)
    · intro hi
      by_cases hiSx : i ∈ Sx
      · exact Or.inr ((hSmemS' i).mpr hiSx)
      · exact Or.inl ⟨hi, hiSx⟩
  have hchild_x : ∀ hh ∈ A, ((getN s hh).left = x ∨ (getN s hh).right = x) → hh = q := by
    intro hh hhA hc
    rw [hqdef]
    exact ((IsT_coherent_child hT hh hhA x hc hxnil).2).symm
  have hchild_y : ∀ hh ∈ A, ((getN s hh).left = y ∨ (getN s hh).right = y) → hh = x := by
    intro hh hhA hc
    have := (IsT_coherent_child hT hh hhA y hc hynil).2
    rw [hy4] at this
    exact this.symm
  have hrxne : (getN s x).right ≠ NIL → (getN s x).right ≠ x ∧ (getN s x).right ≠ y := by
    intro hne
    constructor
    · exact (IsT_child_ne_self hT x hxA).2
    · intro hc
      exact hALAR hyAL (hc ▸ IsT_root_mem hR hne)
  have hcsframe : ∀ z, z ≠ x → z ≠ y → csum c s' z = csum c s z := by
    intro z hz1 hz2
    unfold csum
    split
    · rfl
    · exact sframe z hz1 hz2
  have hvy := sy
  rw [sx] at hvy
  have hshift : get_node_sum c s' y = get_node_sum c s x := by
    rw [hvy]
    have hex := hsums x hxA
    unfold sumEq at hex
    rw [hex]
    have hey := hsums y hyA
    unfold sumEq at hey
    have hcy : csum c s y = get_node_sum c s y := by
      unfold csum
      rw [if_neg hynil]
    rw [← hydef, hcy, hey, ← hstdef, ← hmvdef]
    exact (rot_sum_shift _ _ _ _ _).symm
  refine ⟨A', ⟨?_, ?_, ?_, ?_, ?_, ?_, ?_, ?_, ?_⟩, hmemAA', e1, e3, e4, e5, gy, gx⟩
  · rw [e2, e1]
    exact hnv
  · rw [e1]
    exact hlen2
  · rw [e1]
    exact hlenM
  · by_cases hxt : x = t
    · have hq0 : q = ROOT := by
        rw [hqdef, hxt]
        exact IsT_pidx hT (by rw [← hxt]; exact hxnil)
      rw [hq0] at gp
      rw [gp]
      have hrt : (getN s ROOT).right = x := by rw [← htdef, ← hxt]
      rw [if_pos hrt]
      exact hrl
    · have hqA : q ∈ A := by
        rcases hqcase with ⟨hc, -⟩ | ⟨hc, -⟩
        · exact absurd hc hxt
        · exact hc
      have hr0 : (ROOT : Nat) ≠ x := by unfold ROOT; omega
      have hr1 : (ROOT : Nat) ≠ y := by unfold ROOT; omega
      have hr2 : (ROOT : Nat) ≠ q := by
        have := (IsT_mem hT q hqA).1
        unfold ROOT
        omega
      have hr3 : mv ≠ NIL → (ROOT : Nat) ≠ mv := by
        intro hne
        have := (IsT_mem hT mv (hmvA hne)).1
        unfold ROOT
        omega
      rw [gframe ROOT hr0 hr1 hr2 hr3]
      exact hrl
  · have hn0 : (NIL : Nat) ≠ x := fun hc => hxnil hc.symm
    have hn1 : (NIL : Nat) ≠ y := fun hc => hynil hc.symm
    have hn2 : (NIL : Nat) ≠ q := by
      rcases hqcase with ⟨-, hc⟩ | ⟨hc, -⟩
      · rw [hc]
        unfold NIL ROOT
        omega
      · have := (IsT_mem hT q hc).1
        simp only [NIL]
        omega
    have hn3 : mv ≠ NIL → (NIL : Nat) ≠ mv := fun hne hc => hne hc.symm
    rw [gframe NIL hn0 hn1 hn2 hn3]
    exact hnb
  · by_cases hxt : x = t
    · have hq0 : q = ROOT := by
        rw [hqdef, hxt]
        exact IsT_pidx hT (by rw [← hxt]; exact hxnil)
      rw [hq0] at gp
      have hrt : (getN s ROOT).right = x := by rw [← htdef, ← hxt]
      have hroot' : (getN s' ROOT).right = y := by
        rw [gp, if_pos hrt]
      rw [hroot']
      rw [if_pos hxt] at hA'tree
      exact hA'tree
    · have hqA : q ∈ A := by
        rcases hqcase with ⟨hc, -⟩ | ⟨hc, -⟩
        · exact absurd hc hxt
        · exact hc
      have hr0 : (ROOT : Nat) ≠ x := by unfold ROOT; omega
      have hr1 : (ROOT : Nat) ≠ y := by unfold ROOT; omega
      have hr2 : (ROOT : Nat) ≠ q := by
        have := (IsT_mem hT q hqA).1
        unfold ROOT
        omega
      have hr3 : mv ≠ NIL → (ROOT : Nat) ≠ mv := by
        intro hne
        have := (IsT_mem hT mv (hmvA hne)).1
        unfold ROOT
        omega
      have hroot' : (getN s' ROOT).right = t := by
        rw [gframe ROOT hr0 hr1 hr2 hr3]
      rw [hroot']
      rw [if_neg hxt] at hA'tree
      exact hA'tree
  · rw [e4]
    refine FreeL_congr hF hlen' fun i hi => ?_
    have hiA : i ∉ A := by
      intro hc
      have h1 := (IsT_mem hT i hc).2.2
      have h2 := (FreeL_mem hF i hi).2.2
      rw [h1] at h2
      exact Bool.noConfusion h2
    have hix : i ≠ x := fun hc => hiA (hc ▸ hxA)
    have hiy : i ≠ y := fun hc => hiA (hc ▸ hyA)
    have hiq : i ≠ q := by
      rcases hqcase with ⟨-, hc⟩ | ⟨hc, -⟩
      · rw [hc]
        have := (FreeL_mem hF i hi).1
        unfold ROOT
        omega
      · exact fun hcc => hiA (hcc ▸ hc)
    have himv : mv ≠ NIL → i ≠ mv := fun hne hc => hiA (hc ▸ hmvA hne)
    rw [gframe i hix hiy hiq himv]
    exact ⟨rfl, rfl, (FreeL_mem hF i hi).2.2⟩
  · intro i hi2 hilt
    rw [e1] at hilt
    rcases hcover i hi2 hilt with hc | hc
    · exact Or.inl ((hmemAA' i).mpr hc)
    · exact Or.inr hc
  · intro hh hhA'
    have hhA : hh ∈ A := (hmemAA' hh).mp hhA'
    by_cases hhx : hh = x
    · rw [hhx]
      unfold sumEq get_node_grvalue
      rw [sx, gx]
      show _ = addL (addL (c.f (getN s x).key (getN s x).val) (csum c s' mv))
        (csum c s' (getN s x).right)
      have hcr : csum c s' (getN s x).right = csum c s (getN s x).right := by
        by_cases hz : (getN s x).right = NIL
        · rw [hz]; rfl
        · exact hcsframe _ (hrxne hz).1 (hrxne hz).2
      have hcmv : csum c s' mv = csum c s mv := by
        by_cases hz : mv = NIL
        · rw [hz]; rfl
        · exact hcsframe _ hmvx hmvy
      rw [hcr, hcmv]
      rfl
    · by_cases hhy : hh = y
      · rw [hhy]
        unfold sumEq get_node_grvalue
        rw [sy, gy]
        show _ = addL (addL (c.f (getN s y).key (getN s y).val) (csum c s' st))
          (csum c s' x)
        have hcx : csum c s' x = get_node_sum c s' x := by
          unfold csum
          rw [if_neg hxnil]
        have hcst : csum c s' st = csum c s st := by
          by_cases hz : st = NIL
          · rw [hz]; rfl
          · exact hcsframe _ hstx hsty
        rw [hcx, hcst]
        rfl
      · by_cases hhq : hh = q
        · have hqA : q ∈ A := hhq ▸ hhA
          have heq := hsums q hqA
          unfold sumEq get_node_grvalue at heq ⊢
          rw [hhq]
          have hsq : get_node_sum c s' q = get_node_sum c s q := sframe q hpx hpy
          have hlqy : (getN s q).left ≠ y := by
            intro hc
            exact hpx (hchild_y q hqA (Or.inl hc))
          have hrqy : (getN s q).right ≠ y := by
            intro hc
            exact hpx (hchild_y q hqA (Or.inr hc))
          have hcsy : csum c s' y = get_node_sum c s x := by
            unfold csum
            rw [if_neg hynil]
            exact hshift
          have hcsx : csum c s x = get_node_sum c s x := by
            unfold csum
            rw [if_neg hxnil]
          rw [gp]
          by_cases hrq : (getN s q).right = x
          · rw [if_pos hrq]
            have hlq : (getN s q).left ≠ x := by
              intro hc
              exact IsT_child_unique hT hqA hxnil hc hrq
            show get_node_sum c s' q =
              addL (addL (c.f (getN s q).key (getN s q).val) (csum c s' (getN s q).left))
                (csum c s' y)
            rw [hsq, hcsy, hcsframe _ hlq hlqy, ← hcsx, ← hrq]
            exact heq
          · have hlq : (getN s q).left = x := by
              rcases hqcase with ⟨hc, hc0⟩ | ⟨-, hc⟩
              · rw [hc0] at hqA
                have := (IsT_mem hT ROOT hqA).1
                unfold ROOT at this
                omega
              · rcases hc with hc | hc
                · exact hc
                · exact absurd hc hrq
            rw [if_neg hrq]
            show get_node_sum c s' q =
              addL (addL (c.f (getN s q).key (getN s q).val) (csum c s' y))
                (csum c s' (getN s q).right)
            rw [hsq, hcsy, hcsframe _ hrq hrqy, ← hcsx, ← hlq]
            exact heq
        · by_cases hhmv : hh = mv
          · have hmvnil : mv ≠ NIL := by
              intro hc
              rw [hhmv, hc] at hhA
              have := (IsT_mem hT NIL hhA).1
              simp only [NIL] at this
              omega
            obtain ⟨Smv, hSmv, hSmvsub, hSmvself⟩ :=
              IsT_sub hyR mv (IsT_root_mem hyR hmvnil)
            have hchmv : ∀ o, ((getN s mv).left = o ∨ (getN s mv).right = o) → o ≠ NIL →
                o ≠ x ∧ o ≠ y := by
              intro o ho honil
              have hoin := (IsT_coherent_child hSmv mv hSmvself o ho honil).1
              have hoAy2 : o ∈ Ay2 := hSmvsub o hoin
              exact ⟨fun hc => hxAL (hc ▸ hAy2AL o hoAy2),
                fun hc => hyAy2 (hc ▸ hoAy2)⟩
            rw [hhmv]
            refine sumEq_congrF ?_ ?_ ?_ ?_ ?_ ?_ ?_ (hsums mv (hhmv ▸ hhA))
            · rw [gmv hmvnil]
            · rw [gmv hmvnil]
            · rw [gmv hmvnil]
            · rw [gmv hmvnil]
            · exact sframe mv hmvx hmvy
            · by_cases hz : (getN s mv).left = NIL
              · rw [hz]; rfl
              · exact hcsframe _ (hchmv _ (Or.inl rfl) hz).1 (hchmv _ (Or.inl rfl) hz).2
            · by_cases hz : (getN s mv).right = NIL
              · rw [hz]; rfl
              · exact hcsframe _ (hchmv _ (Or.inr rfl) hz).1 (hchmv _ (Or.inr rfl) hz).2
          · have hg := gframe hh hhx hhy hhq (fun _ => hhmv)
            have hchh : ∀ o, ((getN s hh).left = o ∨ (getN s hh).right = o) → o ≠ NIL →
                o ≠ x ∧ o ≠ y := by
              intro o ho honil
              constructor
              · intro hc
                exact hhq (hchild_x hh hhA (by rw [← hc]; exact ho))
              · intro hc
                exact hhx (hchild_y hh hhA (by rw [← hc]; exact ho))
            refine sumEq_congrF ?_ ?_ ?_ ?_ ?_ ?_ ?_ (hsums hh hhA)
            · rw [hg]
            · rw [hg]
            · rw [hg]
            · rw [hg]
            · exact sframe hh hhx hhy
            · by_cases hz : (getN s hh).left = NIL
              · rw [hz]; rfl
              · exact hcsframe _ (hchh _ (Or.inl rfl) hz).1 (hchh _ (Or.inl rfl) hz).2
            · by_cases hz : (getN s hh).right = NIL
              · rw [hz]; rfl
              · exact hcsframe _ (hchh _ (Or.inr rfl) hz).1 (hchh _ (Or.inr rfl) hz).2

/-- Recolouring a tree node (writing back the node with only its red bit
changed) preserves the global invariant with the same handle lists. -/
theorem set_pred_inv {c : Ctx} {s : TState} {A F : List Nat} {m : Nat} (b : Bool)
    (hI : InvAt c s A F) (hm : m ∈ A) :
    InvAt c (setN s m { getN s m with pred := b }) A F := by
  obtain ⟨hnv, hlen2, hlenM, hrl, hnb, hT, hF, hcover, hsums⟩ := hI
  have hmm := IsT_mem hT m hm
  have hm2 : 2 ≤ m := hmm.1
  have hmb : m < s.nodes.length := hmm.2.1
  have hpm : (getN s m).pidx ≠ Invalid := by
    have hM : s.nodes.length ≤ Invalid := hlenM
    rcases IsT_parent_child hT m hm with heq | ⟨hpA, -⟩
    · have hnNIL : (getN s ROOT).right ≠ NIL := by
        rw [← heq]
        simp only [NIL]
        omega
      rw [heq, IsT_pidx hT hnNIL]
      intro hc
      have : (2:Nat) ≤ s.nodes.length := hlen2
      simp only [ROOT] at hc
      omega
    · have := (IsT_mem hT _ hpA).2.1
      omega
  have e1 : (setN s m { getN s m with pred := b }).nodes.length = s.nodes.length := by
    show (s.nodes.set m _).length = _
    rw [List.length_set]
  have hfields : ∀ i, (getN (setN s m { getN s m with pred := b }) i).key = (getN s i).key ∧
      (getN (setN s m { getN s m with pred := b }) i).val = (getN s i).val ∧
      (getN (setN s m { getN s m with pred := b }) i).left = (getN s i).left ∧
      (getN (setN s m { getN s m with pred := b }) i).right = (getN s i).right ∧
      (getN (setN s m { getN s m with pred := b }) i).pidx = (getN s i).pidx := by
    intro i
    by_cases him : i = m
    · rw [him, getN_setN_eq hmb]
      exact ⟨rfl, rfl, rfl, rfl, rfl⟩
    · rw [getN_setN_ne him]
      exact ⟨rfl, rfl, rfl, rfl, rfl⟩
  refine ⟨hnv.trans (by rw [e1]), ?_, ?_, ?_, ?_, ?_, ?_, ?_, ?_⟩
  · rw [e1]
    exact hlen2
  · rw [e1]
    exact hlenM
  · rw [(hfields ROOT).2.2.1]
    exact hrl
  · have hne : (NIL : Nat) ≠ m := by
      simp only [NIL]
      omega
    rw [getN_setN_ne hne]
    exact hnb
  · rw [(hfields ROOT).2.2.2.1]
    refine IsT_congr hT (le_of_eq e1.symm) fun i hi => ?_
    refine ⟨(hfields i).2.2.1, (hfields i).2.2.2.1, (hfields i).2.2.2.2, ?_⟩
    by_cases him : i = m
    · rw [him, getN_setN_eq hmb]
      exact is_deleted_false_of_pidx hpm
    · rw [getN_setN_ne him]
      exact (IsT_mem hT i hi).2.2
  · refine FreeL_congr hF (le_of_eq e1.symm) fun i hi => ?_
    have him : i ≠ m := by
      intro hc
      have h1 := (FreeL_mem hF i hi).2.2
      have h2 := hmm.2.2
      rw [hc, h2] at h1
      exact Bool.noConfusion h1
    rw [getN_setN_ne him]
    exact ⟨rfl, rfl, (FreeL_mem hF i hi).2.2⟩
  · intro i hi2 hilt
    rw [e1] at hilt
    exact hcover i hi2 hilt
  · intro h hA
    exact sumEq_congrF (hfields h).1 (hfields h).2.1 (hfields h).2.2.1
      (hfields h).2.2.2.1 rfl rfl rfl (hsums h hA)

/-- `rotate_parent` of a tree node whose parent is also a tree node
preserves the global invariant; the node moves up to hang from its old
grandparent. -/
theorem rotate_parent_inv {c : Ctx} (hf : ∀ k v, (c.f k v).length = c.D)
    {s s' : TState} {n : Nat} {A F : List Nat}
    (hI : InvAt c s A F) (hnA : n ∈ A) (hpA : (getN s n).pidx ∈ A)
    (h : rotate_parent c s n = .ok s') :
    ∃ A', InvAt c s' A' F ∧ (∀ i, i ∈ A' ↔ i ∈ A) ∧
      s'.nodes.length = s.nodes.length ∧ s'.n_del = s.n_del ∧
      s'.deleted_nodes_head = s.deleted_nodes_head ∧ s'.size1 = s.size1 ∧
      (getN s' n).pidx = (getN s (getN s n).pidx).pidx := by
  have hT := hI.2.2.2.2.2.1
  unfold rotate_parent at h
  simp only [Node.get_parent] at h
  by_cases hc : (getN s ((getN s n).pidx)).left = n
  · rw [if_pos hc] at h
    obtain ⟨A', hI', hmem, e1, e3, e4, e5, gy, gx⟩ :=
      rotate_right_inv hf hI hpA (by rw [hc]; exact hnA) h
    refine ⟨A', hI', hmem, e1, e3, e4, e5, ?_⟩
    rw [hc] at gy
    rw [gy]
  · rw [if_neg hc] at h
    have hnNIL : n ≠ NIL := by
      have := (IsT_mem hT n hnA).1
      simp only [NIL]
      omega
    rcases IsT_parent_child hT n hnA with heq | ⟨-, hchild⟩
    · exfalso
      have hp0 : (getN s n).pidx = ROOT := by
        rw [heq]
        exact IsT_pidx hT (by rw [← heq]; exact hnNIL)
      have h2 := (IsT_mem hT _ hpA).1
      rw [hp0] at h2
      simp only [ROOT] at h2
      omega
    · rcases hchild with hl | hr
      · exact absurd hl hc
      · obtain ⟨A', hI', hmem, e1, e3, e4, e5, gy, gx⟩ :=
          rotate_left_inv hf hI hpA (by rw [hr]; exact hnA) h
        refine ⟨A', hI', hmem, e1, e3, e4, e5, ?_⟩
        rw [hr] at gy
        rw [gy]

/-- `setN` keeps the node-vector length. -/
theorem setN_length (s : TState) (m : Nat) (nd : Node) :
    (setN s m nd).nodes.length = s.nodes.length := List.length_set ..

/-- Recolouring to black does not change any parent index. -/
theorem getN_setN_black_pidx {s : TState} {m : Nat} (hm : m < s.nodes.length)
    (i : Nat) :
    (getN (setN s m ((getN s m).set_black)) i).pidx = (getN s i).pidx := by
  by_cases him : i = m
  · rw [him, getN_setN_eq hm]
    rfl
  · rw [getN_setN_ne him]

/-- Recolouring to red does not change any parent index. -/
theorem getN_setN_red_pidx {s : TState} {m : Nat} (hm : m < s.nodes.length)
    (i : Nat) :
    (getN (setN s m ((getN s m).set_red)) i).pidx = (getN s i).pidx := by
  by_cases him : i = m
  · rw [him, getN_setN_eq hm]
    rfl
  · rw [getN_setN_ne him]

/-- Recolouring a tree node to black preserves the invariant. -/
theorem set_black_inv {c : Ctx} {s : TState} {A F : List Nat} {m : Nat}
    (hI : InvAt c s A F) (hm : m ∈ A) :
    InvAt c (setN s m ((getN s m).set_black)) A F := set_pred_inv false hI hm

/-- Recolouring a tree node to red preserves the invariant. -/
theorem set_red_inv {c : Ctx} {s : TState} {A F : List Nat} {m : Nat}
    (hI : InvAt c s A F) (hm : m ∈ A) :
    InvAt c (setN s m ((getN s m).set_red)) A F := set_pred_inv true hI hm

set_option maxHeartbeats 1600000 in
/-- The red-black fixup loop after an insertion preserves the global
invariant when started on a tree node and its parent, and touches none of
the container scalars. -/
theorem insert_fix_loop_inv {c : Ctx} (hf : ∀ k v, (c.f k v).length = c.D) :
    ∀ (fuel : Nat) (s s' : TState) (n n1 : Nat) (A F : List Nat),
    InvAt c s A F → n1 ∈ A → n = (getN s n1).pidx →
    insert_fix_loop c fuel s n n1 = .ok s' →
    ∃ A', InvAt c s' A' F ∧ (∀ i, i ∈ A' ↔ i ∈ A) ∧
      s'.nodes.length = s.nodes.length ∧ s'.n_del = s.n_del ∧
      s'.deleted_nodes_head = s.deleted_nodes_head ∧ s'.size1 = s.size1 := by
  intro fuel
  induction fuel with
  | zero =>
    intro s s' n n1 A F hI hn1A hrel h
    unfold insert_fix_loop at h
    exact Except.noConfusion h
  | succ fuel ih =>
    intro s s' n n1 A F hI hn1A hrel h
    have hT := hI.2.2.2.2.2.1
    have hnb := hI.2.2.2.2.1
    unfold insert_fix_loop at h
    by_cases hn0 : n = ROOT
    · rw [if_pos hn0] at h
      obtain rfl : s = s' := Except.ok.inj h
      exact ⟨A, hI, fun i => Iff.rfl, rfl, rfl, rfl, rfl⟩
    rw [if_neg hn0] at h
    by_cases hblk : (getN s n).is_black = true
    · rw [if_pos hblk] at h
      obtain rfl : s = s' := Except.ok.inj h
      exact ⟨A, hI, fun i => Iff.rfl, rfl, rfl, rfl, rfl⟩
    rw [if_neg hblk] at h
    simp only [Node.get_parent] at h
    have hn1NIL : n1 ≠ NIL := by
      have := (IsT_mem hT n1 hn1A).1
      simp only [NIL]
      omega
    have hnA : n ∈ A := by
      rcases IsT_parent_child hT n1 hn1A with heq | ⟨hpA, -⟩
      · exfalso
        apply hn0
        rw [hrel, heq]
        exact IsT_pidx hT (by rw [← heq]; exact hn1NIL)
      · rw [hrel]
        exact hpA
    have hnb' : n < s.nodes.length := (IsT_mem hT n hnA).2.1
    have hnNIL : n ≠ NIL := by
      have := (IsT_mem hT n hnA).1
      simp only [NIL]
      omega
    by_cases hp0 : (getN s n).pidx = ROOT
    · rw [if_pos hp0] at h
      obtain rfl := Except.ok.inj h
      refine ⟨A, set_black_inv hI hnA, fun i => Iff.rfl, setN_length .., rfl, rfl, rfl⟩
    rw [if_neg hp0] at h
    obtain ⟨hqA, hqch⟩ : (getN s n).pidx ∈ A ∧
        ((getN s ((getN s n).pidx)).left = n ∨ (getN s ((getN s n).pidx)).right = n) := by
      rcases IsT_parent_child hT n hnA with heq | ⟨hpA, hch⟩
      · exfalso
        apply hp0
        rw [heq]
        exact IsT_pidx hT (by rw [← heq]; exact hnNIL)
      · exact ⟨hpA, hch⟩
    have hqb : (getN s n).pidx < s.nodes.length := (IsT_mem hT _ hqA).2.1
    have hqn : (getN s n).pidx ≠ n := by
      intro hc
      rcases hqch with h1 | h1
      · rw [hc] at h1
        exact (IsT_child_ne_self hT n hnA).1 h1
      · rw [hc] at h1
        exact (IsT_child_ne_self hT n hnA).2 h1
    by_cases hsib : (getN s (get_sibling_handle s n)).is_red = true
    · -- red uncle: three recolourings, then recurse at the grandparent
      rw [if_pos hsib] at h
      have hsbNIL : get_sibling_handle s n ≠ NIL := by
        intro hc
        rw [hc] at hsib
        unfold Node.is_red at hsib
        rw [hnb] at hsib
        exact Bool.noConfusion hsib
      have hsbch : (getN s ((getN s n).pidx)).left = get_sibling_handle s n ∨
          (getN s ((getN s n).pidx)).right = get_sibling_handle s n := by
        unfold get_sibling_handle
        simp only [Node.get_parent]
        by_cases hc : (getN s ((getN s n).pidx)).left = n
        · rw [if_pos hc]
          exact Or.inr rfl
        · rw [if_neg hc]
          exact Or.inl rfl
      have hsbA : get_sibling_handle s n ∈ A :=
        (IsT_coherent_child hT _ hqA _ hsbch hsbNIL).1
      have hsbb : get_sibling_handle s n < s.nodes.length := (IsT_mem hT _ hsbA).2.1
      have hsbn : get_sibling_handle s n ≠ n := by
        unfold get_sibling_handle
        simp only [Node.get_parent]
        by_cases hc : (getN s ((getN s n).pidx)).left = n
        · rw [if_pos hc]
          intro hcc
          exact IsT_child_unique hT hqA hnNIL hc hcc
        · rw [if_neg hc]
          exact hc
      have b2 : n < (setN s (get_sibling_handle s n)
          ((getN s (get_sibling_handle s n)).set_black)).nodes.length := by
        rw [setN_length]
        exact hnb'
      have etgt : (getN (setN (setN s (get_sibling_handle s n)
          ((getN s (get_sibling_handle s n)).set_black)) n
          ((getN (setN s (get_sibling_handle s n)
            ((getN s (get_sibling_handle s n)).set_black)) n).set_black))
          n).pidx = (getN s n).pidx := by
        rw [getN_setN_black_pidx b2, getN_setN_black_pidx hsbb]
      rw [etgt] at h
      have hI3 : InvAt c (setN (setN (setN s (get_sibling_handle s n)
          ((getN s (get_sibling_handle s n)).set_black)) n
          ((getN (setN s (get_sibling_handle s n)
            ((getN s (get_sibling_handle s n)).set_black)) n).set_black))
          ((getN s n).pidx)
          ((getN (setN (setN s (get_sibling_handle s n)
            ((getN s (get_sibling_handle s n)).set_black)) n
            ((getN (setN s (get_sibling_handle s n)
              ((getN s (get_sibling_handle s n)).set_black)) n).set_black))
            ((getN s n).pidx)).set_red)) A F :=
        set_red_inv (set_black_inv (set_black_inv hI hsbA) hnA) hqA
      have b3 : (getN s n).pidx < (setN (setN s (get_sibling_handle s n)
          ((getN s (get_sibling_handle s n)).set_black)) n
          ((getN (setN s (get_sibling_handle s n)
            ((getN s (get_sibling_handle s n)).set_black)) n).set_black)).nodes.length := by
        rw [setN_length, setN_length]
        exact hqb
      have e3n : (getN (setN (setN (setN s (get_sibling_handle s n)
          ((getN s (get_sibling_handle s n)).set_black)) n
          ((getN (setN s (get_sibling_handle s n)
            ((getN s (get_sibling_handle s n)).set_black)) n).set_black))
          ((getN s n).pidx)
          ((getN (setN (setN s (get_sibling_handle s n)
            ((getN s (get_sibling_handle s n)).set_black)) n
            ((getN (setN s (get_sibling_handle s n)
              ((getN s (get_sibling_handle s n)).set_black)) n).set_black))
            ((getN s n).pidx)).set_red)) n).pidx = (getN s n).pidx := by
        rw [getN_setN_red_pidx b3, getN_setN_black_pidx b2, getN_setN_black_pidx hsbb]
      rw [e3n] at h
      have e3q : (getN (setN (setN (setN s (get_sibling_handle s n)
          ((getN s (get_sibling_handle s n)).set_black)) n
          ((getN (setN s (get_sibling_handle s n)
            ((getN s (get_sibling_handle s n)).set_black)) n).set_black))
          ((getN s n).pidx)
          ((getN (setN (setN s (get_sibling_handle s n)
            ((getN s (get_sibling_handle s n)).set_black)) n
            ((getN (setN s (get_sibling_handle s n)
              ((getN s (get_sibling_handle s n)).set_black)) n).set_black))
            ((getN s n).pidx)).set_red)) ((getN s n).pidx)).pidx =
          (getN s ((getN s n).pidx)).pidx := by
        rw [getN_setN_red_pidx b3, getN_setN_black_pidx b2, getN_setN_black_pidx hsbb]
      rw [e3q] at h
      obtain ⟨A', hI', hmem, k1, k2, k3, k4⟩ :=
        ih _ s' _ _ A F hI3 hqA e3q.symm h
      refine ⟨A', hI', hmem, ?_, k2, k3, k4⟩
      rw [k1, setN_length, setN_length, setN_length]
    · -- black uncle: at most one inner rotation, recolour, rotate the parent
      rw [if_neg hsib] at h
      by_cases hside : is_left_side s n1 = is_left_side s n
      · rw [if_neg (not_not_intro hside)] at h
        obtain ⟨y, h1, h2⟩ := exceptBind_ok h
        obtain rfl : (s, n, n1) = y := Except.ok.inj h1
        dsimp only at h2
        have e4 : (getN (setN s n ((getN s n).set_black)) n).pidx =
            (getN s n).pidx := getN_setN_black_pidx hnb' n
        rw [e4] at h2
        have hI5 : InvAt c (setN (setN s n ((getN s n).set_black))
            ((getN s n).pidx)
            ((getN (setN s n ((getN s n).set_black))
              ((getN s n).pidx)).set_red)) A F :=
          set_red_inv (set_black_inv hI hnA) hqA
        have b4 : (getN s n).pidx <
            (setN s n ((getN s n).set_black)).nodes.length := by
          rw [setN_length]
          exact hqb
        have e5 : (getN (setN (setN s n ((getN s n).set_black))
            ((getN s n).pidx)
            ((getN (setN s n ((getN s n).set_black))
              ((getN s n).pidx)).set_red)) n).pidx = (getN s n).pidx := by
          rw [getN_setN_red_pidx b4, getN_setN_black_pidx hnb']
        obtain ⟨A', hI', hmem, k1, k2, k3, k4, -⟩ :=
          rotate_parent_inv hf hI5 hnA (by rw [e5]; exact hqA) h2
        refine ⟨A', hI', hmem, ?_, k2, k3, k4⟩
        rw [k1, setN_length, setN_length]
      · rw [if_pos hside] at h
        obtain ⟨s2, hrot, h1⟩ := exceptBind_ok h
        obtain ⟨y, h1b, h2⟩ := exceptBind_ok h1
        obtain rfl : (s2, n1, n) = y := Except.ok.inj h1b
        dsimp only at h2
        obtain ⟨A2, hI2, hm2, f1, f2, f3, f4, gp2⟩ :=
          rotate_parent_inv hf hI hn1A (by rw [← hrel]; exact hnA) hrot
        have gq2 : (getN s2 n1).pidx = (getN s n).pidx := by
          rw [gp2, ← hrel]
        have hn1A2 : n1 ∈ A2 := (hm2 n1).mpr hn1A
        have hqA2 : (getN s n).pidx ∈ A2 := (hm2 _).mpr hqA
        have bn1 : n1 < s2.nodes.length := by
          rw [f1]
          exact (IsT_mem hT n1 hn1A).2.1
        have e4 : (getN (setN s2 n1 ((getN s2 n1).set_black)) n1).pidx =
            (getN s n).pidx := by
          rw [getN_setN_black_pidx bn1]
          exact gq2
        rw [e4] at h2
        have hI5 : InvAt c (setN (setN s2 n1 ((getN s2 n1).set_black))
            ((getN s n).pidx)
            ((getN (setN s2 n1 ((getN s2 n1).set_black))
              ((getN s n).pidx)).set_red)) A2 F :=
          set_red_inv (set_black_inv hI2 hn1A2) hqA2
        have b5 : (getN s n).pidx <
            (setN s2 n1 ((getN s2 n1).set_black)).nodes.length := by
          rw [setN_length, f1]
          exact hqb
        have e5 : (getN (setN (setN s2 n1 ((getN s2 n1).set_black))
            ((getN s n).pidx)
            ((getN (setN s2 n1 ((getN s2 n1).set_black))
              ((getN s n).pidx)).set_red)) n1).pidx = (getN s n).pidx := by
          rw [getN_setN_red_pidx b5, getN_setN_black_pidx bn1]
          exact gq2
        obtain ⟨A3, hI3, hm3, g1, g2, g3, g4, -⟩ :=
          rotate_parent_inv hf hI5 hn1A2 (by rw [e5]; exact hqA2) h2
        refine ⟨A3, hI3, fun i => (hm3 i).trans (hm2 i), ?_, ?_, ?_, ?_⟩
        · rw [g1, setN_length, setN_length]
          exact f1
        · rw [g2]
          exact f2
        · rw [g3]
          exact f3
        · rw [g4]
          exact f4

/-- Reading past the original length of a zero-resized vector gives zero. -/
theorem getD_resizeL_ge (l : List Int) (n : Nat) (j : Nat) (h : l.length ≤ j) :
    (resizeL l n 0).getD j 0 = 0 := by
  unfold resizeL
  rw [List.getD_eq_getElem?_getD, List.getElem?_append]
  by_cases hj : j < (l.take n).length
  · exfalso
    simp at hj
    omega
  · rw [if_neg hj, List.getElem?_replicate]
    split
    · rfl
    · rfl

/-- Reading an original slot after appending one node. -/
theorem getN_append_lt {s : TState} {nd : Node} {i : Nat} (h : i < s.nodes.length) :
    getN { s with nodes := s.nodes ++ [nd], nvarray := resizeL s.nvarray ((s.nodes.length + 1) * 0) 0 } i = getN s i := by
  unfold getN
  rw [List.getD_eq_getElem?_getD, List.getD_eq_getElem?_getD, List.getElem?_append,
    if_pos h]

/-- Reading the appended slot. -/
theorem getN_append_self {s : TState} {nd : Node} :
    getN { s with nodes := s.nodes ++ [nd], nvarray := resizeL s.nvarray ((s.nodes.length + 1) * 0) 0 } s.nodes.length = nd := by
  unfold getN
  rw [List.getD_eq_getElem?_getD, List.getElem?_append, if_neg (by omega)]
  simp

/-- Inversion of a nonempty free list. -/
theorem FreeL_inv_cons {s : TState} {pr hd : Nat} {F : List Nat} (hF : FreeL s pr hd F)
    (hne : hd ≠ Invalid) :
    ∃ L, F = hd :: L ∧ 2 ≤ hd ∧ hd < s.nodes.length ∧ (getN s hd).is_deleted = true ∧
      (getN s hd).right = pr ∧ FreeL s hd ((getN s hd).left) L ∧ hd ∉ L := by
  cases hF with
  | nil => exact absurd rfl hne
  | cons h1 h2 h3 h4 h5 h6 => exact ⟨_, rfl, h1, h2, h3, h4, h5, h6⟩

/-- Inversion of an exhausted free list. -/
theorem FreeL_inv_nil {s : TState} {pr hd : Nat} (hF : FreeL s pr hd []) :
    hd = Invalid := by
  cases hF
  rfl

/-- Inversion of a free list with known head element. -/
theorem FreeL_inv_cons_eq {s : TState} {pr hd l0 : Nat} {L0 : List Nat}
    (hF : FreeL s pr hd (l0 :: L0)) :
    hd = l0 ∧ 2 ≤ l0 ∧ l0 < s.nodes.length ∧ (getN s l0).is_deleted = true ∧
      (getN s l0).right = pr ∧ FreeL s l0 ((getN s l0).left) L0 ∧ l0 ∉ L0 := by
  cases hF with
  | cons h1 h2 h3 h4 h5 h6 => exact ⟨rfl, h1, h2, h3, h4, h5, h6⟩

end Orbtree
